import Mathlib

/-!
graphql-codegen-go: the generation engine

A shallow embedding of `internal/generator.go`: the parsed schema document
(`ast.SchemaDocument` of gqlparser), the scalar table, the enum catalogue, the
dependency resolver and `GoGenerator.Generate`, followed by the properties of
the specification that were settled against it.

Go maps are association lists with unique keys; the order in which `range`
visits a map is not fixed by Go, so it is a parameter of `Generate`.
-/

namespace GraphqlCodegen

/-! ## The schema document (gqlparser `ast`) -/

/-- The `ast.DefinitionKind` tags. -/
inductive DefinitionKind where
  | Scalar
  | Object
  | Interface
  | Union
  | Enum
  | InputObject
  deriving DecidableEq, Repr

/-- The `ast.Type` reference: a named type has `NamedType` set and no `Elem`,
a list type has an empty `NamedType` and its element in `Elem`. -/
inductive AstType where
  | mk (NamedType : String) (Elem : Option AstType) (NonNull : Bool)

/-- The `NamedType` field of a type reference. -/
def AstType.NamedType : AstType → String
  | .mk n _ _ => n

/-- The `Elem` field of a type reference. -/
def AstType.Elem : AstType → Option AstType
  | .mk _ e _ => e

/-- The `NonNull` field of a type reference. -/
def AstType.NonNull : AstType → Bool
  | .mk _ _ b => b

/-- The method `(*ast.Type).Name`: the named type, or the name of the element
type of a list. A reference with neither (never built by the parser, a nil
dereference in Go) has the empty name here. -/
def AstType.Name : AstType → String
  | .mk n none _ => n
  | .mk n (some e) _ => if n ≠ "" then n else e.Name

/-- The `ast.FieldDefinition` fields the generator reads. -/
structure FieldDefinition where
  Name : String
  Type_ : AstType

/-- The `ast.EnumValueDefinition` field the generator reads. -/
structure EnumValueDefinition where
  Name : String

/-- The `ast.Definition` fields the generator reads. -/
structure Definition where
  Kind : DefinitionKind
  Name : String
  Fields : List FieldDefinition
  Types : List String
  EnumValues : List EnumValueDefinition

/-- The `ast.SchemaDocument`: the ordered definitions. -/
structure SchemaDocument where
  Definitions : List Definition

/-! ## Templates and the scalar table -/

/-- The `Header` template applied to the package name. -/
def Header (packageName : String) : String :=
  "// Code generated by go generate; DO NOT EDIT.\n// This file was generated from GraphQL schema\n\npackage "
    ++ packageName ++ "\n"

/-- The `StructTPL` template. -/
def StructTPL (name body : String) : String :=
  "type " ++ name ++ " struct \x7b\n" ++ body ++ "\n\x7d"

/-- The `FieldTPL` template. -/
def FieldTPL (fieldName typeName jsonName : String) : String :=
  "  " ++ fieldName ++ " " ++ typeName ++ " `json:\"" ++ jsonName ++ "\"`"

/-- The `ListFieldTPL` template. -/
def ListFieldTPL (fieldName elemTypeName jsonName : String) : String :=
  "  " ++ fieldName ++ " []" ++ elemTypeName ++ " `json:\"" ++ jsonName ++ "\"`"

/-- The `EnumTypeDefTPL` template. -/
def EnumTypeDefTPL (typeName base : String) : String :=
  "type " ++ typeName ++ " " ++ base

/-- The `EnumDefConstTPL` template. -/
def EnumDefConstTPL (typeName value typeName2 value2 : String) : String :=
  "const " ++ typeName ++ value ++ " " ++ typeName2 ++ " = \"" ++ value2 ++ "\""

/-- The table `GQLTypesToGoTypes`. -/
def GQLTypesToGoTypes (typeName : String) : Option String :=
  if typeName = "Int" then some "int64"
  else if typeName = "Float" then some "float64"
  else if typeName = "String" then some "string"
  else if typeName = "Boolean" then some "bool"
  else if typeName = "ID" then some "string"
  else none

/-- The `enum` record of the generator. -/
structure enum where
  TypeName : String
  Values : List String
  deriving DecidableEq, Repr

/-- A Go `map[string]V`: an association list holding each key once. -/
abbrev GoMap (V : Type) := List (String × V)

/-- The map read `m[k]` with its presence flag. -/
def GoMap.get {V : Type} (m : GoMap V) (k : String) : Option V :=
  match m with
  | [] => none
  | (k', v) :: rest => if k = k' then some v else GoMap.get rest k

/-- The map write `m[k] = v`: replaces the entry of `k` or adds one. -/
def GoMap.set {V : Type} (m : GoMap V) (k : String) (v : V) : GoMap V :=
  match m with
  | [] => [(k, v)]
  | (k', v') :: rest => if k = k' then (k, v) :: rest else (k', v') :: GoMap.set rest k v

/-- The function `resolveType`. -/
def resolveType (typeName : String) (enumMap : GoMap enum) (notNull : Bool) : String :=
  let typeName := match GQLTypesToGoTypes typeName with
    | some tName => tName
    | none => typeName
  let typeName := match enumMap.get typeName with
    | some tName => tName.TypeName
    | none => typeName
  if !notNull then String.join ["*", typeName] else typeName

/-- The function `buildEnumMap`. -/
def buildEnumMap (doc : SchemaDocument) : GoMap enum :=
  doc.Definitions.foldl (fun enumMap i =>
    if i.Kind = DefinitionKind.Enum then
      enumMap.set i.Name
        { TypeName := "Enum" ++ i.Name, Values := i.EnumValues.map (fun e => e.Name) }
    else enumMap) []

/-! ## The dependency resolver -/

/-- The names one definition contributes to `dependsOn` (the body of the first
loop of `resolveEntityDependencies`): the field type names, an enum replaced by
its synthesized name, or the member names of a union. -/
def depEntities (enumMap : GoMap enum) (i : Definition) : List String :=
  if i.Kind = DefinitionKind.Object ∨ i.Kind = DefinitionKind.InputObject then
    i.Fields.map (fun f =>
      match enumMap.get f.Type_.Name with
      | some en => en.TypeName
      | none => f.Type_.Name)
  else if i.Kind = DefinitionKind.Union then i.Types
  else []

/-- The map `dependsOn` built by the first loop of `resolveEntityDependencies`. -/
def buildDependsOn (doc : SchemaDocument) (enumMap : GoMap enum) : GoMap (List String) :=
  doc.Definitions.foldl (fun dependsOn i =>
    dependsOn.set i.Name (((dependsOn.get i.Name).getD []) ++ depEntities enumMap i)) []

/-- The state of the closure loop: the growing list, the expansion marks and
the flag `allResolved`. -/
structure ResolveState where
  entities : List String
  resolvedEntities : GoMap Bool
  allResolved : Bool

/-- One pass `for _, e := range entities` over the list as it stood when the
pass began. -/
def resolvePass (dependsOn : GoMap (List String)) : List String → ResolveState → ResolveState
  | [], st => st
  | e :: rest, st =>
    match dependsOn.get e with
    | some depEnt =>
      if !((st.resolvedEntities.get e).getD false) then
        resolvePass dependsOn rest
          { entities := st.entities ++ depEnt
            resolvedEntities := st.resolvedEntities.set e true
            allResolved := false }
      else resolvePass dependsOn rest st
    | none => resolvePass dependsOn rest st

/-- The loop `for !allResolved`, run for at most `fuel` passes; `none` when the
passes are used up before one of them leaves `allResolved` set. -/
def resolveLoop (dependsOn : GoMap (List String)) :
    Nat → List String → GoMap Bool → Option (List String)
  | 0, _, _ => none
  | fuel + 1, entities, resolvedEntities =>
    let st := resolvePass dependsOn entities
      { entities := entities, resolvedEntities := resolvedEntities, allResolved := true }
    if st.allResolved then some st.entities
    else resolveLoop dependsOn fuel st.entities st.resolvedEntities

/-- The function `resolveEntityDependencies`; the loop is given one pass more
than `dependsOn` has entries. -/
def resolveEntityDependencies (doc : SchemaDocument) (reqEntities : List String)
    (enumMap : GoMap enum) : Option (List String) :=
  let dependsOn := buildDependsOn doc enumMap
  resolveLoop dependsOn (dependsOn.length + 1) reqEntities []

/-! ## The keyword registry, the sink and `Generate` -/

/-- The errors `Generate` returns. -/
inductive GenError where
  | sink (msg : String)
  | duplicate (key : String)
  | missingEntities (names : List String)
  deriving DecidableEq, Repr

/-- Modelled from the spec: the KeywordRegistry `keywordMap`, declared outside
src/: the set of identifiers declared so far. -/
abbrev keywordMap := List String

/-- Modelled from the spec: `keywordMap.Set`, declared outside src/: registers
an identifier and fails when it is already declared. -/
def keywordMap.Set (k : keywordMap) (key : String) : Except GenError keywordMap :=
  if key ∈ k then .error (.duplicate key) else .ok (k ++ [key])

/-- Modelled from the spec: `keywordMap.GetMissingKeys`, declared outside src/:
the given names that were never declared. -/
def keywordMap.GetMissingKeys (k : keywordMap) (keys : List String) : List String :=
  keys.filter (fun key => decide (key ∉ k))

/-- Modelled from the spec: the helper `inArray`, declared outside src/: the
membership test used as the inclusion filter. -/
def inArray (x : String) (arr : List String) : Bool :=
  decide (x ∈ arr)

/-- Modelled from the spec: the sink interface `Outputer`, declared outside
src/: writing raw text and writing a line, each of which may fail. The sink is
a state of type `σ`. -/
structure Outputer (σ : Type) where
  Write : σ → String → Except String σ
  Writeln : σ → String → Except String σ

/-- The in-memory sink: the text written so far; `Writeln` ends the line. -/
def bufferOutput : Outputer String where
  Write := fun buf s => .ok (buf ++ s)
  Writeln := fun buf s => .ok (buf ++ s ++ "\n")

/-- The sink that records every call, a line with its terminator. -/
def recordOutput : Outputer (List String) where
  Write := fun calls s => .ok (calls ++ [s])
  Writeln := fun calls s => .ok (calls ++ [s ++ "\n"])

/-- The sink that accepts `n` more calls and then fails. -/
def failingOutput : Outputer (Nat × List String) where
  Write := fun st s =>
    if st.1 = 0 then .error "write failed" else .ok (st.1 - 1, st.2 ++ [s])
  Writeln := fun st s =>
    if st.1 = 0 then .error "write failed" else .ok (st.1 - 1, st.2 ++ [s ++ "\n"])

/-- The fields of `GoGenerator` that `Generate` reads (the sink is passed
separately). -/
structure GoGenerator where
  entities : List String
  packageName : String
  disableHeader : Bool

/-- The state of one run of `Generate`: the sink, the registry, and the error
being returned. Once `err` is set every later statement leaves the state as it
is, which is the `return err` of the source. -/
structure GenState (σ : Type) where
  out : σ
  declaredKeywords : keywordMap
  err : Option GenError

/-- The statement `if err := g.output.Write(s); err != nil { return err }`. -/
def write {σ : Type} (output : Outputer σ) (s : String) (st : GenState σ) : GenState σ :=
  match st.err with
  | some _ => st
  | none =>
    match output.Write st.out s with
    | .ok out => { st with out := out }
    | .error e => { st with err := some (.sink e) }

/-- The statement `if err := g.output.Writeln(s); err != nil { return err }`. -/
def writeln {σ : Type} (output : Outputer σ) (s : String) (st : GenState σ) : GenState σ :=
  match st.err with
  | some _ => st
  | none =>
    match output.Writeln st.out s with
    | .ok out => { st with out := out }
    | .error e => { st with err := some (.sink e) }

/-- The statement `if err := declaredKeywords.Set(key); err != nil { return err }`. -/
def declare {σ : Type} (key : String) (st : GenState σ) : GenState σ :=
  match st.err with
  | some _ => st
  | none =>
    match st.declaredKeywords.Set key with
    | .ok k => { st with declaredKeywords := k }
    | .error e => { st with err := some e }

/-- Whether a rune separates words for `strings.Title`. Exact on ASCII runes,
which is what GraphQL names are made of: letters, digits and the underscore do
not separate, every other ASCII rune does. A rune outside ASCII is taken not
to separate, where Go asks `unicode.IsSpace` for the runes that are neither
letters nor digits. -/
def isSeparator (r : Char) : Bool :=
  if r.val ≤ 0x7F then !(r.isAlphanum || r = '_') else false

/-- The mapping of `strings.Title` over the runes, `prev` being the rune
before. -/
def titleRunes (prev : Char) : List Char → List Char
  | [] => []
  | r :: rest => (if isSeparator prev then r.toUpper else r) :: titleRunes r rest

/-- The library function `strings.Title`, exact on ASCII text: a rune that
follows a separator (or starts the text) is mapped to upper case. A rune
outside ASCII is left as it is, where Go applies `unicode.ToTitle`; the
properties below that speak of the value of `Title` are stated for ASCII
names only. -/
def Title (s : String) : String :=
  ⟨titleRunes ' ' s.data⟩

/-- The line one field contributes to a struct (the body of the loop over
`i.Fields` in `Generate`). -/
def fieldLine (enumMap : GoMap enum) (f : FieldDefinition) : String :=
  let typeName := resolveType f.Type_.Name enumMap f.Type_.NonNull
  let fieldName := Title f.Name
  let jsonFieldName := f.Name
  match f.Type_.Elem with
  | some elem =>
    let elemTypeName := resolveType elem.Name enumMap elem.NonNull
    ListFieldTPL fieldName elemTypeName jsonFieldName
  | none => FieldTPL fieldName typeName jsonFieldName

/-- The inclusion filter of both loops of `Generate`:
`len(reqEntities) > 0 && !inArray(name, reqEntities)`. -/
def filteredOut (reqEntities : List String) (name : String) : Bool :=
  decide (reqEntities.length > 0) && !inArray name reqEntities

/-- The body of the loop `for _, v := range e.Values` of `Generate`. -/
def emitEnumConst {σ : Type} (output : Outputer σ) (e : enum) (v : String)
    (st : GenState σ) : GenState σ :=
  let st := declare (e.TypeName ++ v) st
  let st := write output (EnumDefConstTPL e.TypeName v e.TypeName v) st
  write output "\n" st

/-- The body of the loop `for _, e := range enumMap` of `Generate`. -/
def emitEnum {σ : Type} (output : Outputer σ) (reqEntities : List String) (e : enum)
    (st : GenState σ) : GenState σ :=
  if filteredOut reqEntities e.TypeName then st
  else
    let st := declare e.TypeName st
    let st := write output (EnumTypeDefTPL e.TypeName "string") st
    let st := write output "\n" st
    e.Values.foldl (fun st v => emitEnumConst output e v st) st

/-- The text of the struct a definition of a struct-like kind is written as;
`none` for the other kinds, which write no declaration. -/
def structText (enumMap : GoMap enum) (i : Definition) : Option String :=
  if i.Kind = DefinitionKind.Object || i.Kind = DefinitionKind.InputObject then
    let fields := i.Fields.map (fieldLine enumMap)
    some (StructTPL i.Name (String.intercalate "\n" fields))
  else if i.Kind = DefinitionKind.Union then
    let fields := [FieldTPL "TypeName" "string" "__typeName"] ++ i.Types
    some (StructTPL i.Name (String.intercalate "\n" fields))
  else none

/-- The body of the loop `for _, i := range doc.Definitions` of `Generate`. -/
def emitDefinition {σ : Type} (output : Outputer σ) (enumMap : GoMap enum)
    (reqEntities : List String) (i : Definition) (st : GenState σ) : GenState σ :=
  if filteredOut reqEntities i.Name then st
  else if i.Name = "Query" || i.Name = "Mutation" then st
  else
    let st :=
      match structText enumMap i with
      | some text =>
        let st := declare i.Name st
        writeln output text st
      | none => st
    writeln output "" st

/-- The check that ends `Generate`: the requested names that were never
declared make the missing-entities error. -/
def checkMissing {σ : Type} (entities : List String) (st : GenState σ) : GenState σ :=
  match st.err with
  | some _ => st
  | none =>
    let missingEntities := st.declaredKeywords.GetMissingKeys entities
    if missingEntities.length > 0 then { st with err := some (.missingEntities missingEntities) }
    else st

/-- The first statement of `Generate`: the header, unless it is disabled. -/
def writeHeader {σ : Type} (g : GoGenerator) (output : Outputer σ) (st : GenState σ) :
    GenState σ :=
  if !g.disableHeader then writeln output (Header g.packageName) st else st

/-- The method `GoGenerator.Generate`, run on the sink state `out`.
`rangeOrder` is the order in which `range` visits the enum map. The result is
the final state, `err = none` standing for the return of `nil`; it is `none`
only if the closure loop ran out of passes. -/
def Generate {σ : Type} (g : GoGenerator) (output : Outputer σ)
    (rangeOrder : GoMap enum → List (String × enum)) (doc : SchemaDocument) (out : σ) :
    Option (GenState σ) :=
  let st := writeHeader g output { out := out, declaredKeywords := [], err := none }
  let enumMap := buildEnumMap doc
  match resolveEntityDependencies doc g.entities enumMap with
  | none => none
  | some reqEntities =>
    let st := (rangeOrder enumMap).foldl (fun st e => emitEnum output reqEntities e.2 st) st
    let st := doc.Definitions.foldl
      (fun st i => emitDefinition output enumMap reqEntities i st) st
    some (checkMissing g.entities st)

/-- The state of a run of `Generate` when it reaches the final check, for the
resolved list `reqEntities`. -/
def beforeCheck {σ : Type} (g : GoGenerator) (output : Outputer σ)
    (rangeOrder : GoMap enum → List (String × enum)) (doc : SchemaDocument)
    (reqEntities : List String) (out : σ) : GenState σ :=
  doc.Definitions.foldl
    (fun st i => emitDefinition output (buildEnumMap doc) reqEntities i st)
    ((rangeOrder (buildEnumMap doc)).foldl (fun st e => emitEnum output reqEntities e.2 st)
      (writeHeader g output { out := out, declaredKeywords := [], err := none }))

/-- A legal visiting order of a map: every entry exactly once. -/
def LegalOrder (rangeOrder : GoMap enum → List (String × enum)) : Prop :=
  ∀ m, (rangeOrder m).Perm m

/-! ## The vocabulary of the specification -/

/-- The scalar mapping of the specification's TypeMapper: the table, any other
name unchanged. -/
def scalarMap (name : String) : String :=
  (GQLTypesToGoTypes name).getD name

/-- The enum substitution of the specification: a key of the enum map is
replaced by the synthesized type name. -/
def enumSubstitute (enumMap : GoMap enum) (name : String) : String :=
  match enumMap.get name with
  | some e => e.TypeName
  | none => name

/-- The Go type a field line carries: what `Generate` puts between the field
name and the tag. -/
def emittedGoType (enumMap : GoMap enum) (f : FieldDefinition) : String :=
  match f.Type_.Elem with
  | some elem => "[]" ++ resolveType elem.Name enumMap elem.NonNull
  | none => resolveType f.Type_.Name enumMap f.Type_.NonNull

/-- A Go type text carries the pointer marker. -/
def hasPointerMarker (goType : String) : Prop :=
  '*' ∈ goType.data

instance (goType : String) : Decidable (hasPointerMarker goType) := by
  unfold hasPointerMarker
  infer_instance

/-- The edges of the dependency relation a document defines: `a` names a
definition that contributes `b`. -/
def dependsOnEdge (doc : SchemaDocument) (enumMap : GoMap enum) (a b : String) : Prop :=
  ∃ i ∈ doc.Definitions, i.Name = a ∧ b ∈ depEntities enumMap i

/-- The edges a `dependsOn` map holds. -/
def mapEdge (dependsOn : GoMap (List String)) (a b : String) : Prop :=
  ∃ deps, dependsOn.get a = some deps ∧ b ∈ deps

/-- The names reachable from the requested ones along a dependency relation. -/
inductive Reachable (dep : String → String → Prop) (requested : List String) :
    String → Prop where
  | root (n : String) (h : n ∈ requested) : Reachable dep requested n
  | step (a b : String) (ha : Reachable dep requested a) (hab : dep a b) :
      Reachable dep requested b

/-- The expansion mark of a name, as the loop reads it. -/
def isResolved (resolvedEntities : GoMap Bool) (e : String) : Bool :=
  (resolvedEntities.get e).getD false

/-- The number of entries of `dependsOn` not yet marked as expanded. -/
def unresolvedCount (dependsOn : GoMap (List String)) (resolvedEntities : GoMap Bool) : Nat :=
  dependsOn.countP (fun p => !isResolved resolvedEntities p.1)

/-- The definitions the second loop of `Generate` declares, given the resolved
list: those that pass the inclusion filter, are not a root operation type and
are of a struct-like kind. -/
def selected (reqEntities : List String) (i : Definition) : Prop :=
  ¬ (reqEntities.length > 0 ∧ i.Name ∉ reqEntities) ∧ i.Name ≠ "Query" ∧ i.Name ≠ "Mutation" ∧
    (i.Kind = DefinitionKind.Object ∨ i.Kind = DefinitionKind.InputObject ∨
      i.Kind = DefinitionKind.Union)

/-- The run has not hit the missing-entities error. -/
def NoMissing {σ : Type} (st : GenState σ) : Prop :=
  ∀ names, st.err ≠ some (.missingEntities names)

/-- A statement of `Generate` as a state transformer: it never clears an error,
never forgets a declared identifier and never raises the missing-entities
error. -/
def GoodStep {σ : Type} (f : GenState σ → GenState σ) : Prop :=
  ∀ st, ((f st).err = none → st.err = none) ∧
    (∀ k ∈ st.declaredKeywords, k ∈ (f st).declaredKeywords) ∧
    (NoMissing st → NoMissing (f st))

/-- Where a registered identifier can come from: the synthesized name of an
Enum definition, such a name followed by one of the values of the definition,
or the name of an Object, InputObject or Union definition other than the root
operation types. -/
def DeclaredOrigin (doc : SchemaDocument) (key : String) : Prop :=
  (∃ d ∈ doc.Definitions, d.Kind = DefinitionKind.Enum ∧
    (key = "Enum" ++ d.Name ∨ ∃ v ∈ d.EnumValues, key = "Enum" ++ d.Name ++ v.Name)) ∨
  (∃ i ∈ doc.Definitions,
    (i.Kind = DefinitionKind.Object ∨ i.Kind = DefinitionKind.InputObject ∨
      i.Kind = DefinitionKind.Union) ∧
    i.Name ≠ "Query" ∧ i.Name ≠ "Mutation" ∧ key = i.Name)

/-- A statement keeps a property of every element of a list held in the run
state (the registry or the record of the sink). -/
def Keeps {σ : Type} (proj : GenState σ → List String) (P : String → Prop)
    (f : GenState σ → GenState σ) : Prop :=
  ∀ st, (∀ k ∈ proj st, P k) → ∀ k ∈ proj (f st), P k

/-- The run reached the final check: it ended in `nil` or in the
missing-entities error. -/
def completed {σ : Type} (st : GenState σ) : Prop :=
  st.err = none ∨ ∃ names, st.err = some (.missingEntities names)

/-- The calls the sink receives for one enum: the type declaration, a newline,
and for every value in order its constant and a newline. -/
def enumChunks (e : enum) : List String :=
  [EnumTypeDefTPL e.TypeName "string", "\n"] ++
    e.Values.flatMap (fun v => [EnumDefConstTPL e.TypeName v e.TypeName v, "\n"])

/-- The identifiers registered for one enum: the type name and, for every
value in order, the type name followed by the value. -/
def enumNames (e : enum) : List String :=
  e.TypeName :: e.Values.map (fun v => e.TypeName ++ v)

/-- The lines the recording sink receives for one definition of the document:
nothing when it is filtered out or is a root operation type, otherwise the
struct of a struct-like kind as one line, and a blank line. -/
def definitionChunks (enumMap : GoMap enum) (reqEntities : List String) (i : Definition) :
    List String :=
  if filteredOut reqEntities i.Name then []
  else if i.Name = "Query" || i.Name = "Mutation" then []
  else
    (match structText enumMap i with
      | some text => [text ++ "\n"]
      | none => []) ++ ["" ++ "\n"]

/-- The identifier registered for one definition of the document, if any. -/
def definitionNames (enumMap : GoMap enum) (reqEntities : List String) (i : Definition) :
    List String :=
  if filteredOut reqEntities i.Name then []
  else if i.Name = "Query" || i.Name = "Mutation" then []
  else
    match structText enumMap i with
    | some _ => [i.Name]
    | none => []

/-- The line the recording sink receives for the header. -/
def headerChunks (g : GoGenerator) : List String :=
  if !g.disableHeader then [Header g.packageName ++ "\n"] else []

/-- What a whole run that reaches the final check sends to the recording sink,
for the resolved list `reqEntities`: the header, the enums that pass the filter
in the order the map is visited, then the definitions in document order. -/
def runChunks (g : GoGenerator) (rangeOrder : GoMap enum → List (String × enum))
    (doc : SchemaDocument) (reqEntities : List String) : List String :=
  headerChunks g ++
    (rangeOrder (buildEnumMap doc)).flatMap
      (fun p => if filteredOut reqEntities p.2.TypeName then [] else enumChunks p.2) ++
    doc.Definitions.flatMap (definitionChunks (buildEnumMap doc) reqEntities)

/-- What a whole run that reaches the final check registers, in order. -/
def runNames (rangeOrder : GoMap enum → List (String × enum))
    (doc : SchemaDocument) (reqEntities : List String) : List String :=
  (rangeOrder (buildEnumMap doc)).flatMap
      (fun p => if filteredOut reqEntities p.2.TypeName then [] else enumNames p.2) ++
    doc.Definitions.flatMap (definitionNames (buildEnumMap doc) reqEntities)

/-- A statement keeps an invariant of the run state. -/
def StateInv {σ : Type} (I : GenState σ → Prop) (f : GenState σ → GenState σ) : Prop :=
  ∀ st, I st → I (f st)

/-- A definition is of a struct-like kind and not a root operation type: what
the second loop declares when nothing is filtered out. -/
def isDeclaredStruct (i : Definition) : Bool :=
  (decide (i.Kind = DefinitionKind.Object) || decide (i.Kind = DefinitionKind.InputObject) ||
    decide (i.Kind = DefinitionKind.Union)) &&
  !(decide (i.Name = "Query") || decide (i.Name = "Mutation"))

/-- Where a line received by the recording sink can come from: the header, a
separator, the type or a constant of an enum of the map, or the struct of a
definition that is not named `Query` or `Mutation`. -/
def ChunkOrigin (g : GoGenerator) (doc : SchemaDocument) (c : String) : Prop :=
  c = Header g.packageName ++ "\n" ∨ c = "\n" ∨
  (∃ k e, (buildEnumMap doc).get k = some e ∧
    (c = EnumTypeDefTPL e.TypeName "string" ∨
      ∃ v ∈ e.Values, c = EnumDefConstTPL e.TypeName v e.TypeName v)) ∨
  (∃ i ∈ doc.Definitions, i.Name ≠ "Query" ∧ i.Name ≠ "Mutation" ∧
    ∃ text, structText (buildEnumMap doc) i = some text ∧ c = text ++ "\n")

/-- The document without the definitions of the other kinds: those that are
not Object, InputObject, Union or Enum. -/
def dropOtherKinds (doc : SchemaDocument) : SchemaDocument :=
  { Definitions := doc.Definitions.filter (fun i =>
      decide (i.Kind = DefinitionKind.Object) || decide (i.Kind = DefinitionKind.InputObject) ||
      decide (i.Kind = DefinitionKind.Union) || decide (i.Kind = DefinitionKind.Enum)) }

/-- A rune of a GraphQL name: an ASCII letter, an ASCII digit or the
underscore. -/
def isNameRune (c : Char) : Bool :=
  c.isAlphanum || c = '_'

/-- The reading "the name with its first letter upper-cased": the first rune
that is a letter is upper-cased, the runes before it and after it are kept. -/
def upperFirstLetter : List Char → List Char
  | [] => []
  | c :: cs => if c.isAlpha then c.toUpper :: cs else c :: upperFirstLetter cs

/-! ## Maps -/

theorem GoMap.get_set {V : Type} (m : GoMap V) (k k2 : String) (v : V) :
    (m.set k v).get k2 = if k2 = k then some v else m.get k2 := by
  induction m with
  | nil => simp [GoMap.set, GoMap.get]
  | cons p rest ih =>
    obtain ⟨k1, v1⟩ := p
    by_cases h : k = k1
    · subst h
      by_cases h3 : k2 = k <;> simp [GoMap.set, GoMap.get, h3]
    · by_cases h2 : k2 = k1
      · subst h2
        have : ¬ k2 = k := fun e => h e.symm
        simp [GoMap.set, GoMap.get, h, this]
      · simp [GoMap.set, GoMap.get, h, h2, ih]

theorem GoMap.mem_of_get {V : Type} (m : GoMap V) (k : String) (v : V)
    (h : m.get k = some v) : (k, v) ∈ m := by
  induction m with
  | nil => simp [GoMap.get] at h
  | cons p rest ih =>
    obtain ⟨k1, v1⟩ := p
    by_cases hk : k = k1
    · subst hk
      simp [GoMap.get] at h
      simp [h]
    · simp [GoMap.get, hk] at h
      exact List.mem_cons_of_mem _ (ih h)

theorem GoMap.get_isSome_of_mem {V : Type} (m : GoMap V) (k : String) (v : V)
    (h : (k, v) ∈ m) : ∃ v2, m.get k = some v2 := by
  induction m with
  | nil => simp at h
  | cons p rest ih =>
    obtain ⟨k1, v1⟩ := p
    by_cases hk : k = k1
    · exact ⟨v1, by simp [GoMap.get, hk]⟩
    · have : (k, v) ∈ rest := by
        rcases List.mem_cons.1 h with h1 | h1
        · exact absurd (congrArg Prod.fst h1) hk
        · exact h1
      obtain ⟨v2, hv2⟩ := ih this
      exact ⟨v2, by simp [GoMap.get, hk, hv2]⟩

/-- A map write keeps the keys distinct. -/
theorem GoMap.set_keys_nodup {V : Type} (m : GoMap V) (k : String) (v : V)
    (h : (m.map Prod.fst).Nodup) : ((m.set k v).map Prod.fst).Nodup := by
  induction m with
  | nil => simp [GoMap.set]
  | cons p rest ih =>
    obtain ⟨k1, v1⟩ := p
    by_cases hk : k = k1
    · subst hk
      simpa [GoMap.set] using h
    · simp only [GoMap.set, hk, if_false, List.map_cons, List.nodup_cons] at h ⊢
      refine ⟨?_, ih h.2⟩
      intro hmem
      obtain ⟨q, hq, hq1⟩ := List.mem_map.1 hmem
      obtain ⟨v2, hv2⟩ := GoMap.get_isSome_of_mem _ q.1 q.2 hq
      rw [GoMap.get_set] at hv2
      rw [hq1] at hv2
      have hk1 : ¬ k1 = k := fun e => hk e.symm
      simp only [hk1, if_false] at hv2
      exact h.1 (List.mem_map.2 ⟨(k1, v2), GoMap.mem_of_get _ _ _ hv2, rfl⟩)

theorem GoMap.get_of_mem_nodup {V : Type} (m : GoMap V) (k : String) (v : V)
    (hn : (m.map Prod.fst).Nodup) (h : (k, v) ∈ m) : m.get k = some v := by
  induction m with
  | nil => simp at h
  | cons p rest ih =>
    obtain ⟨k1, v1⟩ := p
    simp only [List.map_cons, List.nodup_cons] at hn
    rcases List.mem_cons.1 h with h1 | h1
    · injection h1 with ha hb
      subst ha; subst hb
      simp [GoMap.get]
    · have hk : ¬ k = k1 := by
        intro e
        subst e
        exact hn.1 (List.mem_map.2 ⟨(k, v), h1, rfl⟩)
      simp [GoMap.get, hk, ih hn.2 h1]

/-- An invariant kept by every step of a left fold holds of its result. -/
theorem foldl_invariant {α β : Type} (P : β → Prop) (f : β → α → β) (xs : List α) (b : β)
    (h0 : P b) (hstep : ∀ b x, x ∈ xs → P b → P (f b x)) : P (xs.foldl f b) := by
  induction xs generalizing b with
  | nil => simpa using h0
  | cons x rest ih =>
    simp only [List.foldl_cons]
    exact ih (f b x) (hstep b x (List.mem_cons_self _ _) h0)
      (fun b2 y hy hb => hstep b2 y (List.mem_cons_of_mem _ hy) hb)

/-! ## The enum catalogue -/

theorem buildEnumMap_typeName (doc : SchemaDocument) (k : String) (e : enum)
    (h : (buildEnumMap doc).get k = some e) : e.TypeName = "Enum" ++ k := by
  have hP : ∀ k e, (buildEnumMap doc).get k = some e → e.TypeName = "Enum" ++ k := by
    unfold buildEnumMap
    apply foldl_invariant (fun m : GoMap enum => ∀ k e, m.get k = some e → e.TypeName = "Enum" ++ k)
    · intro k e h
      simp [GoMap.get] at h
    · intro m i _ hm k e h
      by_cases hk : i.Kind = DefinitionKind.Enum
      · simp only [hk, if_true] at h
        rw [GoMap.get_set] at h
        by_cases hki : k = i.Name
        · simp only [hki, if_true] at h
          injection h with h
          rw [← h, hki]
        · simp only [hki, if_false] at h
          exact hm k e h
      · simp only [hk, if_false] at h
        exact hm k e h
  exact hP k e h

theorem buildEnumMap_nodup (doc : SchemaDocument) :
    ((buildEnumMap doc).map Prod.fst).Nodup := by
  unfold buildEnumMap
  apply foldl_invariant (fun m : GoMap enum => (m.map Prod.fst).Nodup)
  · simp
  · intro m i _ hm
    by_cases hk : i.Kind = DefinitionKind.Enum
    · simp only [hk, if_true]
      exact GoMap.set_keys_nodup m _ _ hm
    · simpa only [hk, if_false] using hm

/-! ## Type resolution -/

theorem join_star (t : String) : String.join ["*", t] = "*" ++ t := by
  simp [String.join]

theorem resolveType_eq (name : String) (enumMap : GoMap enum) (notNull : Bool) :
    resolveType name enumMap notNull =
      if notNull then enumSubstitute enumMap (scalarMap name)
      else "*" ++ enumSubstitute enumMap (scalarMap name) := by
  have hs : (match GQLTypesToGoTypes name with
      | some tName => tName
      | none => name) = scalarMap name := by
    unfold scalarMap
    cases GQLTypesToGoTypes name <;> rfl
  unfold resolveType
  simp only [hs, join_star]
  unfold enumSubstitute
  cases notNull <;> cases enumMap.get (scalarMap name) <;> simp

theorem scalarMap_of_none (name : String) (h : GQLTypesToGoTypes name = none) :
    scalarMap name = name := by
  simp [scalarMap, h]

theorem star_not_mem_scalarMap (name : String) (h : '*' ∉ name.data) :
    '*' ∉ (scalarMap name).data := by
  unfold scalarMap GQLTypesToGoTypes
  split_ifs <;> simp only [Option.getD_some, Option.getD_none] <;> first | exact h | decide

theorem star_not_mem_base (doc : SchemaDocument) (name : String) (h : '*' ∉ name.data) :
    '*' ∉ (enumSubstitute (buildEnumMap doc) (scalarMap name)).data := by
  have h1 := star_not_mem_scalarMap name h
  unfold enumSubstitute
  cases hg : (buildEnumMap doc).get (scalarMap name) with
  | none => simpa using h1
  | some e =>
    have := buildEnumMap_typeName doc _ e hg
    simp only [this, String.data_append, List.mem_append, not_or]
    exact ⟨by decide, h1⟩

theorem marker_resolveType (doc : SchemaDocument) (name : String) (notNull : Bool)
    (h : '*' ∉ name.data) :
    hasPointerMarker (resolveType name (buildEnumMap doc) notNull) ↔ notNull = false := by
  have hb := star_not_mem_base doc name h
  rw [resolveType_eq]
  unfold hasPointerMarker
  cases notNull
  · simp [String.data_append]
  · simpa using hb

theorem fieldLine_eq (enumMap : GoMap enum) (f : FieldDefinition) :
    fieldLine enumMap f =
      "  " ++ Title f.Name ++ " " ++ emittedGoType enumMap f ++ " `json:\"" ++ f.Name ++ "\"`" := by
  unfold fieldLine emittedGoType
  cases f.Type_.Elem with
  | none => simp [FieldTPL]
  | some elem =>
    simp only [ListFieldTPL, String.append_assoc]
    rfl

/-! ## The closure loop -/

theorem isResolved_set (r : GoMap Bool) (e k : String) :
    isResolved (r.set e true) k = if k = e then true else isResolved r k := by
  unfold isResolved
  rw [GoMap.get_set]
  by_cases h : k = e <;> simp [h]

theorem countP_lt_of_imp {α : Type} (p q : α → Bool) (l : List α)
    (hpq : ∀ x ∈ l, p x = true → q x = true)
    (hx : ∃ x ∈ l, q x = true ∧ p x = false) : l.countP p < l.countP q := by
  induction l with
  | nil =>
    obtain ⟨x, hx, _⟩ := hx
    simp at hx
  | cons a rest ih =>
    have hle : rest.countP p ≤ rest.countP q :=
      List.countP_mono_left (fun x hx h => hpq x (List.mem_cons_of_mem _ hx) h)
    obtain ⟨x, hxmem, hqx, hpx⟩ := hx
    rcases List.mem_cons.1 hxmem with h1 | h1
    · subst h1
      simp only [List.countP_cons, hqx, hpx, if_true]
      simp
      omega
    · have hlt := ih (fun y hy h => hpq y (List.mem_cons_of_mem _ hy) h) ⟨x, h1, hqx, hpx⟩
      have ha := hpq a (List.mem_cons_self _ _)
      simp only [List.countP_cons]
      by_cases hp : p a = true
      · simp [hp, ha hp]
        omega
      · by_cases hq : q a = true
        · simp [hp, hq]
          omega
        · simp [hp, hq]
          omega

theorem unresolvedCount_set_le (d : GoMap (List String)) (r : GoMap Bool) (e : String) :
    unresolvedCount d (r.set e true) ≤ unresolvedCount d r := by
  unfold unresolvedCount
  apply List.countP_mono_left
  intro x _ h
  rw [isResolved_set] at h
  by_cases hk : x.1 = e
  · simp [hk] at h
  · simpa [hk] using h

theorem unresolvedCount_set_lt (d : GoMap (List String)) (r : GoMap Bool) (e : String)
    (deps : List String) (hd : d.get e = some deps) (hr : isResolved r e = false) :
    unresolvedCount d (r.set e true) < unresolvedCount d r := by
  unfold unresolvedCount
  apply countP_lt_of_imp
  · intro x _ h
    rw [isResolved_set] at h
    by_cases hk : x.1 = e
    · simp [hk] at h
    · simpa [hk] using h
  · refine ⟨(e, deps), GoMap.mem_of_get d e deps hd, ?_, ?_⟩
    · simp [hr]
    · simp [isResolved_set]

/-- A pass never clears the flag it starts without, marks only grow, and the
count of unexpanded entries does not grow. -/
theorem resolvePass_mono (d : GoMap (List String)) (xs : List String) (st : ResolveState) :
    ((resolvePass d xs st).allResolved = true → st.allResolved = true) ∧
    (∀ k, isResolved st.resolvedEntities k = true →
      isResolved (resolvePass d xs st).resolvedEntities k = true) ∧
    unresolvedCount d (resolvePass d xs st).resolvedEntities ≤
      unresolvedCount d st.resolvedEntities := by
  induction xs generalizing st with
  | nil => simp [resolvePass]
  | cons e rest ih =>
    unfold resolvePass
    cases hd : d.get e with
    | none => simpa using ih st
    | some deps =>
      by_cases hr : isResolved st.resolvedEntities e = true
      · have hr2 : (st.resolvedEntities.get e).getD false = true := hr
        simpa [hr2] using ih st
      · have hr2 : (st.resolvedEntities.get e).getD false = false := by
          simpa [isResolved] using hr
        simp only [hr2, Bool.not_false, if_true]
        obtain ⟨h1, h2, h3⟩ := ih
          { entities := st.entities ++ deps
            resolvedEntities := st.resolvedEntities.set e true
            allResolved := false }
        refine ⟨?_, ?_, ?_⟩
        · intro h
          have := h1 h
          simp at this
        · intro k hk
          apply h2
          simp only [isResolved_set]
          by_cases hke : k = e <;> simp [hke, hk]
        · exact le_trans h3 (unresolvedCount_set_le d st.resolvedEntities e)

/-- A pass that clears `allResolved` marks an entry that was not marked. -/
theorem resolvePass_progress (d : GoMap (List String)) (xs : List String) (st : ResolveState)
    (h0 : st.allResolved = true) (h1 : (resolvePass d xs st).allResolved = false) :
    unresolvedCount d (resolvePass d xs st).resolvedEntities <
      unresolvedCount d st.resolvedEntities := by
  induction xs generalizing st with
  | nil => simp [resolvePass, h0] at h1
  | cons e rest ih =>
    unfold resolvePass at h1 ⊢
    cases hd : d.get e with
    | none =>
      simp only [hd] at h1
      simpa using ih st h0 h1
    | some deps =>
      by_cases hr : isResolved st.resolvedEntities e = true
      · have hr2 : (st.resolvedEntities.get e).getD false = true := hr
        simp only [hd, hr2] at h1
        simpa [hr2] using ih st h0 h1
      · have hr2 : (st.resolvedEntities.get e).getD false = false := by
          simpa [isResolved] using hr
        simp only [hr2, Bool.not_false, if_true]
        have hle := (resolvePass_mono d rest
          { entities := st.entities ++ deps
            resolvedEntities := st.resolvedEntities.set e true
            allResolved := false }).2.2
        have hlt := unresolvedCount_set_lt d st.resolvedEntities e deps hd
          (by simpa [isResolved] using hr2)
        exact lt_of_le_of_lt hle hlt

/-- A pass that leaves `allResolved` set changed nothing, and every name it
visited that has an entry in `dependsOn` was already marked. -/
theorem resolvePass_stable (d : GoMap (List String)) (xs : List String) (st : ResolveState)
    (h : (resolvePass d xs st).allResolved = true) :
    resolvePass d xs st = st ∧
    ∀ e ∈ xs, ∀ deps, d.get e = some deps → isResolved st.resolvedEntities e = true := by
  induction xs generalizing st with
  | nil => simp [resolvePass]
  | cons e rest ih =>
    unfold resolvePass at h ⊢
    cases hd : d.get e with
    | none =>
      simp only [hd] at h
      obtain ⟨h1, h2⟩ := ih st h
      refine ⟨by simpa using h1, ?_⟩
      intro x hx deps hdx
      rcases List.mem_cons.1 hx with hx | hx
      · subst hx
        rw [hd] at hdx
        simp at hdx
      · exact h2 x hx deps hdx
    | some deps =>
      by_cases hr : isResolved st.resolvedEntities e = true
      · have hr2 : (st.resolvedEntities.get e).getD false = true := hr
        simp only [hd, hr2] at h
        obtain ⟨h1, h2⟩ := ih st (by simpa using h)
        refine ⟨by simpa [hr2] using h1, ?_⟩
        intro x hx deps2 hdx
        rcases List.mem_cons.1 hx with hx | hx
        · subst hx
          exact hr
        · exact h2 x hx deps2 hdx
      · have hr2 : (st.resolvedEntities.get e).getD false = false := by
          simpa [isResolved] using hr
        simp only [hd, hr2, Bool.not_false, if_true] at h
        have := (resolvePass_mono d rest _).1 h
        simp at this

/-- A pass keeps the three facts the closure rests on: the requested names
stay in the list, every name of the list is reachable, and the dependencies of
a marked name are in the list. -/
theorem resolvePass_inv (d : GoMap (List String)) (req xs : List String) (st : ResolveState)
    (hxs : ∀ x ∈ xs, Reachable (mapEdge d) req x)
    (ha : ∀ n ∈ req, n ∈ st.entities)
    (hb : ∀ n ∈ st.entities, Reachable (mapEdge d) req n)
    (hc : ∀ e deps, isResolved st.resolvedEntities e = true → d.get e = some deps →
      ∀ b ∈ deps, b ∈ st.entities) :
    (∀ n ∈ req, n ∈ (resolvePass d xs st).entities) ∧
    (∀ n ∈ (resolvePass d xs st).entities, Reachable (mapEdge d) req n) ∧
    (∀ e deps, isResolved (resolvePass d xs st).resolvedEntities e = true →
      d.get e = some deps → ∀ b ∈ deps, b ∈ (resolvePass d xs st).entities) := by
  induction xs generalizing st with
  | nil => exact ⟨ha, hb, hc⟩
  | cons e rest ih =>
    have hrest : ∀ x ∈ rest, Reachable (mapEdge d) req x :=
      fun x hx => hxs x (List.mem_cons_of_mem _ hx)
    unfold resolvePass
    cases hd : d.get e with
    | none => simpa using ih st hrest ha hb hc
    | some deps =>
      by_cases hr : isResolved st.resolvedEntities e = true
      · have hr2 : (st.resolvedEntities.get e).getD false = true := hr
        simpa [hr2] using ih st hrest ha hb hc
      · have hr2 : (st.resolvedEntities.get e).getD false = false := by
          simpa [isResolved] using hr
        simp only [hr2, Bool.not_false, if_true]
        apply ih _ hrest
        · intro n hn
          exact List.mem_append_left _ (ha n hn)
        · intro n hn
          rcases List.mem_append.1 hn with h | h
          · exact hb n h
          · exact Reachable.step e n (hxs e (List.mem_cons_self _ _)) ⟨deps, hd, h⟩
        · intro k deps2 hk hdk b hbm
          simp only [isResolved_set] at hk
          by_cases hke : k = e
          · subst hke
            rw [hd] at hdk
            injection hdk with hdk
            subst hdk
            exact List.mem_append_right _ hbm
          · simp only [hke, if_false] at hk
            exact List.mem_append_left _ (hc k deps2 hk hdk b hbm)

/-- What the loop returns holds the requested names, holds reachable names
only, and is closed under the edges of `dependsOn`. -/
theorem resolveLoop_closed (d : GoMap (List String)) (req : List String) (fuel : Nat) :
    ∀ (ents : List String) (res : GoMap Bool) (r : List String),
    (∀ n ∈ req, n ∈ ents) →
    (∀ n ∈ ents, Reachable (mapEdge d) req n) →
    (∀ e deps, isResolved res e = true → d.get e = some deps → ∀ b ∈ deps, b ∈ ents) →
    resolveLoop d fuel ents res = some r →
    (∀ n ∈ req, n ∈ r) ∧ (∀ n ∈ r, Reachable (mapEdge d) req n) ∧
    (∀ e ∈ r, ∀ deps, d.get e = some deps → ∀ b ∈ deps, b ∈ r) := by
  induction fuel with
  | zero =>
    intro ents res r _ _ _ h
    simp [resolveLoop] at h
  | succ fuel ih =>
    intro ents res r ha hb hc h
    unfold resolveLoop at h
    simp only at h
    by_cases hall : (resolvePass d ents
        { entities := ents, resolvedEntities := res, allResolved := true }).allResolved = true
    · simp only [hall, if_true] at h
      obtain ⟨hst, hflag⟩ := resolvePass_stable d ents _ hall
      rw [hst] at h
      injection h with h
      subst h
      exact ⟨ha, hb, fun e he deps hd b hbm => hc e deps (hflag e he deps hd) hd b hbm⟩
    · simp only [hall] at h
      obtain ⟨h1, h2, h3⟩ := resolvePass_inv d req ents
        { entities := ents, resolvedEntities := res, allResolved := true } hb ha hb hc
      exact ih _ _ r h1 h2 h3 h

/-- Enough passes: with more passes than unexpanded entries the loop returns. -/
theorem resolveLoop_returns (d : GoMap (List String)) (fuel : Nat) :
    ∀ (ents : List String) (res : GoMap Bool), unresolvedCount d res < fuel →
    ∃ r, resolveLoop d fuel ents res = some r := by
  induction fuel with
  | zero =>
    intro ents res h
    omega
  | succ fuel ih =>
    intro ents res h
    unfold resolveLoop
    simp only
    by_cases hall : (resolvePass d ents
        { entities := ents, resolvedEntities := res, allResolved := true }).allResolved = true
    · exact ⟨_, by rw [if_pos hall]⟩
    · simp only [hall]
      apply ih
      have := resolvePass_progress d ents
        { entities := ents, resolvedEntities := res, allResolved := true } rfl
        (by simpa using hall)
      simp only at this
      omega

theorem resolveEntityDependencies_returns (doc : SchemaDocument) (req : List String)
    (enumMap : GoMap enum) : ∃ r, resolveEntityDependencies doc req enumMap = some r := by
  unfold resolveEntityDependencies
  apply resolveLoop_returns
  have : unresolvedCount (buildDependsOn doc enumMap) [] ≤ (buildDependsOn doc enumMap).length :=
    List.countP_le_length _
  omega

theorem reachable_mem_of_closed (dep : String → String → Prop) (req r : List String)
    (hreq : ∀ n ∈ req, n ∈ r) (hcl : ∀ a ∈ r, ∀ b, dep a b → b ∈ r) (n : String)
    (h : Reachable dep req n) : n ∈ r := by
  induction h with
  | root n hn => exact hreq n hn
  | step a b _ hab ih => exact hcl a ih b hab

theorem reachable_congr (dep1 dep2 : String → String → Prop) (req : List String)
    (h : ∀ a b, dep1 a b → dep2 a b) (n : String) (hn : Reachable dep1 req n) :
    Reachable dep2 req n := by
  induction hn with
  | root n hn => exact Reachable.root n hn
  | step a b _ hab ih => exact Reachable.step a b ih (h a b hab)

/-! ## The map `dependsOn` -/

theorem foldl_dependsOn_get (enumMap : GoMap enum) (defs : List Definition)
    (acc : GoMap (List String)) (n : String) :
    (defs.foldl (fun dependsOn i =>
      dependsOn.set i.Name (((dependsOn.get i.Name).getD []) ++ depEntities enumMap i)) acc).get n =
    if defs.any (fun i => decide (i.Name = n)) then
      some ((acc.get n).getD [] ++
        (defs.filter (fun i => decide (i.Name = n))).flatMap (depEntities enumMap))
    else acc.get n := by
  induction defs generalizing acc with
  | nil => simp
  | cons i rest ih =>
    simp only [List.foldl_cons]
    rw [ih]
    rw [GoMap.get_set]
    by_cases hn : i.Name = n
    · subst hn
      by_cases hrest : rest.any (fun j => decide (j.Name = i.Name)) = true
      · simp [hrest, List.filter_cons, List.append_assoc]
      · have hf : rest.filter (fun j => decide (j.Name = i.Name)) = [] := by
          rw [List.filter_eq_nil_iff]
          intro a ha hA
          exact hrest (List.any_eq_true.2 ⟨a, ha, hA⟩)
        simp [hrest, hf, List.filter_cons]
    · have hn2 : ¬ n = i.Name := fun e => hn e.symm
      simp [hn, hn2, List.filter_cons]

theorem buildDependsOn_get (doc : SchemaDocument) (enumMap : GoMap enum) (n : String) :
    (buildDependsOn doc enumMap).get n =
    if doc.Definitions.any (fun i => decide (i.Name = n)) then
      some ((doc.Definitions.filter (fun i => decide (i.Name = n))).flatMap
        (depEntities enumMap))
    else none := by
  unfold buildDependsOn
  rw [foldl_dependsOn_get]
  simp [GoMap.get]

theorem mapEdge_iff_dependsOnEdge (doc : SchemaDocument) (enumMap : GoMap enum) (a b : String) :
    mapEdge (buildDependsOn doc enumMap) a b ↔ dependsOnEdge doc enumMap a b := by
  unfold mapEdge dependsOnEdge
  rw [buildDependsOn_get]
  constructor
  · rintro ⟨deps, hd, hb⟩
    by_cases hf : doc.Definitions.any (fun i => decide (i.Name = a)) = true
    · rw [if_pos hf] at hd
      injection hd with hd
      subst hd
      obtain ⟨i, hi, hbi⟩ := List.mem_flatMap.1 hb
      rw [List.mem_filter] at hi
      exact ⟨i, hi.1, by simpa using hi.2, hbi⟩
    · rw [if_neg hf] at hd
      exact absurd hd (by simp)
  · rintro ⟨i, hi, hia, hbi⟩
    have hmem : i ∈ doc.Definitions.filter (fun i => decide (i.Name = a)) :=
      List.mem_filter.2 ⟨hi, by simpa using hia⟩
    have hf : doc.Definitions.any (fun i => decide (i.Name = a)) = true :=
      List.any_eq_true.2 ⟨i, hi, by simpa using hia⟩
    exact ⟨_, by rw [if_pos hf], List.mem_flatMap.2 ⟨i, hmem, hbi⟩⟩

/-- The resolved list: it is returned, holds the requested names, is closed
under the dependency edges of the document, and holds reachable names only. -/
theorem resolveEntityDependencies_closure (doc : SchemaDocument) (req : List String)
    (enumMap : GoMap enum) :
    ∃ r, resolveEntityDependencies doc req enumMap = some r ∧
      (∀ n ∈ req, n ∈ r) ∧
      (∀ a ∈ r, ∀ b, dependsOnEdge doc enumMap a b → b ∈ r) ∧
      (∀ n ∈ r, Reachable (dependsOnEdge doc enumMap) req n) := by
  obtain ⟨r, hr⟩ := resolveEntityDependencies_returns doc req enumMap
  refine ⟨r, hr, ?_⟩
  unfold resolveEntityDependencies at hr
  simp only at hr
  obtain ⟨h1, h2, h3⟩ := resolveLoop_closed (buildDependsOn doc enumMap) req _ req [] r
    (fun n hn => hn) (fun n hn => Reachable.root n hn)
    (fun e deps he => by simp [isResolved, GoMap.get] at he) hr
  refine ⟨h1, ?_, ?_⟩
  · intro a ha b hab
    obtain ⟨deps, hd, hb⟩ := (mapEdge_iff_dependsOnEdge doc enumMap a b).2 hab
    exact h3 a ha deps hd b hb
  · intro n hn
    exact reachable_congr _ _ req
      (fun a b h => (mapEdge_iff_dependsOnEdge doc enumMap a b).1 h) n (h2 n hn)

/-! ## The statements of `Generate` -/

theorem goodStep_id {σ : Type} : GoodStep (fun st : GenState σ => st) :=
  fun _ => ⟨fun h => h, fun _ h => h, fun h => h⟩

theorem goodStep_comp {σ : Type} (f g : GenState σ → GenState σ) (hf : GoodStep f)
    (hg : GoodStep g) : GoodStep (fun st => g (f st)) := by
  intro st
  obtain ⟨f1, f2, f3⟩ := hf st
  obtain ⟨g1, g2, g3⟩ := hg (f st)
  exact ⟨fun h => f1 (g1 h), fun k hk => g2 k (f2 k hk), fun h => g3 (f3 h)⟩

theorem goodStep_foldl {σ α : Type} (body : α → GenState σ → GenState σ) (xs : List α)
    (h : ∀ x ∈ xs, GoodStep (body x)) : GoodStep (fun st => xs.foldl (fun st x => body x st) st) := by
  induction xs with
  | nil => exact goodStep_id
  | cons x rest ih =>
    simp only [List.foldl_cons]
    exact goodStep_comp (body x) (fun st => rest.foldl (fun st x => body x st) st)
      (h x (List.mem_cons_self _ _)) (ih (fun y hy => h y (List.mem_cons_of_mem _ hy)))

theorem goodStep_write {σ : Type} (output : Outputer σ) (s : String) :
    GoodStep (write output s) := by
  intro st
  unfold write NoMissing
  cases he : st.err with
  | some e => simp [he]
  | none =>
    cases output.Write st.out s with
    | ok o => simp [he]
    | error e => simp [he]

theorem goodStep_writeln {σ : Type} (output : Outputer σ) (s : String) :
    GoodStep (writeln output s) := by
  intro st
  unfold writeln NoMissing
  cases he : st.err with
  | some e => simp [he]
  | none =>
    cases output.Writeln st.out s with
    | ok o => simp [he]
    | error e => simp [he]

theorem goodStep_declare {σ : Type} (key : String) :
    GoodStep (declare key : GenState σ → GenState σ) := by
  intro st
  unfold declare NoMissing keywordMap.Set
  cases he : st.err with
  | some e => simp [he]
  | none =>
    by_cases hk : key ∈ st.declaredKeywords
    · simp [he, hk]
    · simp only [he, hk, if_false]
      refine ⟨fun _ => trivial, fun k hk2 => List.mem_append_left _ hk2, ?_⟩
      intro _ names h
      simp at h

theorem declare_mem {σ : Type} (key : String) (st : GenState σ)
    (h : (declare key st).err = none) : key ∈ (declare key st).declaredKeywords := by
  unfold declare keywordMap.Set at h ⊢
  cases he : st.err with
  | some e => simp [he] at h
  | none =>
    by_cases hk : key ∈ st.declaredKeywords
    · simp [he, hk] at h
    · simp [he, hk]

theorem filteredOut_eq_false (reqEntities : List String) (name : String) :
    filteredOut reqEntities name = false ↔ ¬ (reqEntities.length > 0 ∧ name ∉ reqEntities) := by
  unfold filteredOut inArray
  by_cases h1 : reqEntities.length > 0 <;> by_cases h2 : name ∈ reqEntities <;> simp [h1, h2]

theorem goodStep_emitEnumConst {σ : Type} (output : Outputer σ) (e : enum) (v : String) :
    GoodStep (emitEnumConst output e v) :=
  goodStep_comp (fun st => write output (EnumDefConstTPL e.TypeName v e.TypeName v)
      (declare (e.TypeName ++ v) st)) (write output "\n")
    (goodStep_comp _ _ (goodStep_declare _) (goodStep_write output _))
    (goodStep_write output _)

theorem goodStep_emitEnum {σ : Type} (output : Outputer σ) (reqEntities : List String)
    (e : enum) : GoodStep (emitEnum output reqEntities e) := by
  intro st
  unfold emitEnum
  split
  · exact goodStep_id st
  · exact goodStep_comp (fun st => write output "\n"
        (write output (EnumTypeDefTPL e.TypeName "string") (declare e.TypeName st)))
      (fun st => e.Values.foldl (fun st v => emitEnumConst output e v st) st)
      (goodStep_comp _ _ (goodStep_comp _ _ (goodStep_declare _) (goodStep_write output _))
        (goodStep_write output _))
      (goodStep_foldl _ _ (fun v _ => goodStep_emitEnumConst output e v)) st

theorem goodStep_emitDefinition {σ : Type} (output : Outputer σ) (enumMap : GoMap enum)
    (reqEntities : List String) (i : Definition) :
    GoodStep (emitDefinition output enumMap reqEntities i) := by
  intro st
  unfold emitDefinition
  split
  · exact goodStep_id st
  · split
    · exact goodStep_id st
    · cases structText enumMap i with
      | none => exact goodStep_writeln output "" st
      | some text =>
        exact goodStep_comp (fun st => writeln output text (declare i.Name st))
          (writeln output "")
          (goodStep_comp _ _ (goodStep_declare _) (goodStep_writeln output _))
          (goodStep_writeln output _) st

theorem goodStep_writeHeader {σ : Type} (g : GoGenerator) (output : Outputer σ) :
    GoodStep (writeHeader g output) := by
  intro st
  unfold writeHeader
  split
  · exact goodStep_writeln output _ st
  · exact goodStep_id st

theorem mem_after_step {σ : Type} (f g : GenState σ → GenState σ) (key : String)
    (hg : GoodStep g)
    (hkey : ∀ st, (f st).err = none → key ∈ (f st).declaredKeywords) (st : GenState σ)
    (h : (g (f st)).err = none) : key ∈ (g (f st)).declaredKeywords :=
  (hg (f st)).2.1 key (hkey st ((hg (f st)).1 h))

/-- In a loop of statements that ends without error, what one iteration
declares is declared at the end. -/
theorem foldl_declares {σ α : Type} (body : α → GenState σ → GenState σ) (xs : List α)
    (hgood : ∀ x ∈ xs, GoodStep (body x)) (x : α) (hx : x ∈ xs) (key : String)
    (hkey : ∀ st, (body x st).err = none → key ∈ (body x st).declaredKeywords)
    (st : GenState σ) (h : (xs.foldl (fun st x => body x st) st).err = none) :
    key ∈ (xs.foldl (fun st x => body x st) st).declaredKeywords := by
  induction xs generalizing st with
  | nil => simp at hx
  | cons y rest ih =>
    simp only [List.foldl_cons] at h ⊢
    have hrest : GoodStep (fun st => rest.foldl (fun st x => body x st) st) :=
      goodStep_foldl body rest (fun z hz => hgood z (List.mem_cons_of_mem _ hz))
    rcases List.mem_cons.1 hx with hxy | hxr
    · subst hxy
      exact mem_after_step (body x) _ key hrest hkey st h
    · exact ih (fun z hz => hgood z (List.mem_cons_of_mem _ hz)) hxr (body y st) h

theorem emitEnum_declares {σ : Type} (output : Outputer σ) (reqEntities : List String)
    (e : enum) (hf : filteredOut reqEntities e.TypeName = false) (st : GenState σ)
    (h : (emitEnum output reqEntities e st).err = none) :
    e.TypeName ∈ (emitEnum output reqEntities e st).declaredKeywords := by
  unfold emitEnum at h ⊢
  simp only [hf] at h ⊢
  exact mem_after_step (declare e.TypeName)
    (fun st => e.Values.foldl (fun st v => emitEnumConst output e v st)
      (write output "\n" (write output (EnumTypeDefTPL e.TypeName "string") st)))
    e.TypeName
    (goodStep_comp (fun st => write output "\n"
        (write output (EnumTypeDefTPL e.TypeName "string") st))
      (fun st => e.Values.foldl (fun st v => emitEnumConst output e v st) st)
      (goodStep_comp _ _ (goodStep_write output _) (goodStep_write output _))
      (goodStep_foldl _ _ (fun v _ => goodStep_emitEnumConst output e v)))
    (fun st => declare_mem e.TypeName st) st h

theorem structText_isSome (enumMap : GoMap enum) (i : Definition)
    (h : i.Kind = DefinitionKind.Object ∨ i.Kind = DefinitionKind.InputObject ∨
      i.Kind = DefinitionKind.Union) : ∃ text, structText enumMap i = some text := by
  unfold structText
  rcases h with h | h | h <;> simp [h]

theorem emitDefinition_declares {σ : Type} (output : Outputer σ) (enumMap : GoMap enum)
    (reqEntities : List String) (i : Definition) (hsel : selected reqEntities i)
    (st : GenState σ) (h : (emitDefinition output enumMap reqEntities i st).err = none) :
    i.Name ∈ (emitDefinition output enumMap reqEntities i st).declaredKeywords := by
  obtain ⟨h1, h2, h3, h4⟩ := hsel
  obtain ⟨text, htext⟩ := structText_isSome enumMap i h4
  have hf := (filteredOut_eq_false reqEntities i.Name).2 h1
  unfold emitDefinition at h ⊢
  simp only [hf, h2, h3, htext] at h ⊢
  exact mem_after_step (declare i.Name)
    (fun st => writeln output "" (writeln output text st)) i.Name
    (goodStep_comp _ _ (goodStep_writeln output _) (goodStep_writeln output _))
    (fun st => declare_mem i.Name st) st h

theorem Generate_eq {σ : Type} (g : GoGenerator) (output : Outputer σ)
    (rangeOrder : GoMap enum → List (String × enum)) (doc : SchemaDocument) (out : σ)
    (r : List String)
    (hr : resolveEntityDependencies doc g.entities (buildEnumMap doc) = some r) :
    Generate g output rangeOrder doc out =
      some (checkMissing g.entities (beforeCheck g output rangeOrder doc r out)) := by
  unfold Generate beforeCheck
  simp only [hr]

theorem beforeCheck_noMissing {σ : Type} (g : GoGenerator) (output : Outputer σ)
    (rangeOrder : GoMap enum → List (String × enum)) (doc : SchemaDocument)
    (r : List String) (out : σ) : NoMissing (beforeCheck g output rangeOrder doc r out) := by
  unfold beforeCheck
  have h1 := goodStep_writeHeader g output
  have h2 := goodStep_foldl (fun (e : String × enum) st => emitEnum output r e.2 st)
    (rangeOrder (buildEnumMap doc)) (fun e _ => goodStep_emitEnum output r e.2)
  have h3 := goodStep_foldl (fun i st => emitDefinition output (buildEnumMap doc) r i st)
    doc.Definitions (fun i _ => goodStep_emitDefinition output (buildEnumMap doc) r i)
  apply (h3 _).2.2
  apply (h2 _).2.2
  apply (h1 _).2.2
  intro names h
  simp at h

theorem checkMissing_declared {σ : Type} (entities : List String) (st : GenState σ) :
    (checkMissing entities st).declaredKeywords = st.declaredKeywords := by
  unfold checkMissing
  cases st.err with
  | some e => rfl
  | none =>
    simp only
    split <;> rfl

theorem checkMissing_err_of_err {σ : Type} (entities : List String) (st : GenState σ)
    (e : GenError) (h : st.err = some e) : (checkMissing entities st).err = some e := by
  unfold checkMissing
  simp [h]

theorem checkMissing_err_of_ok {σ : Type} (entities : List String) (st : GenState σ)
    (h : st.err = none) :
    (checkMissing entities st).err =
      if (st.declaredKeywords.GetMissingKeys entities).length > 0 then
        some (.missingEntities (st.declaredKeywords.GetMissingKeys entities))
      else none := by
  unfold checkMissing
  simp only [h]
  split <;> simp [h]

theorem getMissingKeys_length (k : keywordMap) (keys : List String) :
    (k.GetMissingKeys keys).length > 0 ↔ ¬ ∀ n ∈ keys, n ∈ k := by
  unfold keywordMap.GetMissingKeys
  show 0 < _ ↔ _
  rw [List.length_pos, ne_eq, List.filter_eq_nil_iff]
  simp

theorem mem_depEntities_field (enumMap : GoMap enum) (d : Definition)
    (hk : d.Kind = DefinitionKind.Object ∨ d.Kind = DefinitionKind.InputObject)
    (f : FieldDefinition) (hf : f ∈ d.Fields) :
    enumSubstitute enumMap f.Type_.Name ∈ depEntities enumMap d := by
  unfold depEntities
  rw [if_pos hk]
  exact List.mem_map.2 ⟨f, hf, rfl⟩

theorem mem_depEntities_member (enumMap : GoMap enum) (d : Definition)
    (hk : d.Kind = DefinitionKind.Union) (t : String) (ht : t ∈ d.Types) :
    t ∈ depEntities enumMap d := by
  unfold depEntities
  simp [hk, ht]

theorem foldl_enumMap_get_isSome (defs : List Definition) (acc : GoMap enum) (n : String) :
    (∃ e, (defs.foldl (fun (enumMap : GoMap enum) i =>
      if i.Kind = DefinitionKind.Enum then
        enumMap.set i.Name
          { TypeName := "Enum" ++ i.Name, Values := i.EnumValues.map (fun e => e.Name) }
      else enumMap) acc).get n = some e) ↔
    ((∃ e, acc.get n = some e) ∨ ∃ d ∈ defs, d.Kind = DefinitionKind.Enum ∧ d.Name = n) := by
  induction defs generalizing acc with
  | nil => simp
  | cons i rest ih =>
    simp only [List.foldl_cons]
    rw [ih]
    by_cases hk : i.Kind = DefinitionKind.Enum
    · simp only [hk, if_true, GoMap.get_set]
      by_cases hn : n = i.Name
      · subst hn
        simp [hk]
      · have hn2 : ¬ i.Name = n := fun e => hn e.symm
        simp [hn, hn2]
    · simp [hk]

/-- The keys of the enum map are the names of the Enum definitions. -/
theorem buildEnumMap_get_isSome (doc : SchemaDocument) (n : String) :
    (∃ e, (buildEnumMap doc).get n = some e) ↔
      ∃ d ∈ doc.Definitions, d.Kind = DefinitionKind.Enum ∧ d.Name = n := by
  unfold buildEnumMap
  rw [foldl_enumMap_get_isSome]
  simp [GoMap.get]

theorem marker_list (s : String) : hasPointerMarker ("[]" ++ s) ↔ hasPointerMarker s := by
  unfold hasPointerMarker
  simp [String.data_append]

theorem table_none_of_enum_typeName (k : String) : GQLTypesToGoTypes ("Enum" ++ k) = none := by
  have hne : ∀ t : String, t.data.head? ≠ some 'E' → ¬ "Enum" ++ k = t := by
    intro t ht h
    apply ht
    rw [← h]
    simp [String.data_append]
  unfold GQLTypesToGoTypes
  rw [if_neg (hne "Int" (by decide)), if_neg (hne "Float" (by decide)),
    if_neg (hne "String" (by decide)), if_neg (hne "Boolean" (by decide)),
    if_neg (hne "ID" (by decide))]

/-- The base name `resolveType` produces is the scalar table applied first and
the enum substitution applied to its result, prefixed by `*` when the
reference is nullable; for a name that is not a key of the scalar table this
is the enum substitution of the name, which is the edge the resolver records
for a field of that type, and, for the enum map of a document, also what
substitution followed by the table gives. -/
theorem resolveType_base_order (name : String) (enumMap : GoMap enum) (notNull : Bool) :
    resolveType name enumMap notNull =
      (if notNull then "" else "*") ++ enumSubstitute enumMap (scalarMap name) ∧
    (∀ i : Definition, (i.Kind = DefinitionKind.Object ∨ i.Kind = DefinitionKind.InputObject) →
      depEntities enumMap i = i.Fields.map (fun f => enumSubstitute enumMap f.Type_.Name)) ∧
    (GQLTypesToGoTypes name = none →
      resolveType name enumMap true = enumSubstitute enumMap name) ∧
    (GQLTypesToGoTypes name = none → ∀ doc : SchemaDocument,
      enumSubstitute (buildEnumMap doc) (scalarMap name) =
        scalarMap (enumSubstitute (buildEnumMap doc) name)) := by
  refine ⟨?_, ?_, ?_, ?_⟩
  · rw [resolveType_eq]
    cases notNull <;> simp
  · intro i hk
    unfold depEntities
    rw [if_pos hk]
    rfl
  · intro h
    rw [resolveType_eq, scalarMap_of_none name h]
    simp
  · intro h doc
    rw [scalarMap_of_none name h]
    unfold enumSubstitute
    cases hg : (buildEnumMap doc).get name with
    | none => simp [scalarMap_of_none name h]
    | some e =>
      have hty := buildEnumMap_typeName doc name e hg
      simp only [hty]
      exact (scalarMap_of_none _ (table_none_of_enum_typeName name)).symm

/-! ## The claims -/

/-- C1: `Generate` returns, and every requested name is in the registry or an
error is returned; when the error is neither a sink error nor a duplicate (no
write failed, no duplicate was hit) the result is `nil` exactly when every
requested name was declared, and otherwise it is the missing-entities error
that lists the requested names that were never declared. -/
theorem generate_missing_entities_check {σ : Type} (g : GoGenerator) (output : Outputer σ)
    (rangeOrder : GoMap enum → List (String × enum)) (doc : SchemaDocument) (out : σ) :
    ∃ st, Generate g output rangeOrder doc out = some st ∧
      ((∀ n ∈ g.entities, n ∈ st.declaredKeywords) ∨ st.err ≠ none) ∧
      ((∀ msg, st.err ≠ some (.sink msg)) → (∀ key, st.err ≠ some (.duplicate key)) →
        (st.err = none ↔ ∀ n ∈ g.entities, n ∈ st.declaredKeywords) ∧
        (st.err ≠ none → st.err = some (.missingEntities
          (g.entities.filter (fun n => decide (n ∉ st.declaredKeywords)))))) := by
  obtain ⟨r, hr⟩ := resolveEntityDependencies_returns doc g.entities (buildEnumMap doc)
  refine ⟨_, Generate_eq g output rangeOrder doc out r hr, ?_⟩
  have hnm := beforeCheck_noMissing g output rangeOrder doc r out
  generalize beforeCheck g output rangeOrder doc r out = st1 at hnm
  rw [checkMissing_declared]
  cases he : st1.err with
  | some e =>
    rw [checkMissing_err_of_err g.entities st1 e he]
    refine ⟨Or.inr (by simp), ?_⟩
    intro hs hd
    cases e with
    | sink msg => exact absurd rfl (hs msg)
    | duplicate key => exact absurd rfl (hd key)
    | missingEntities names => exact absurd he (hnm names)
  | none =>
    rw [checkMissing_err_of_ok g.entities st1 he]
    by_cases hall : ∀ n ∈ g.entities, n ∈ st1.declaredKeywords
    · have hlen : ¬ (st1.declaredKeywords.GetMissingKeys g.entities).length > 0 := by
        rw [getMissingKeys_length]
        exact fun h => h hall
      simp only [hlen, if_false]
      exact ⟨Or.inl hall, fun _ _ => ⟨⟨fun _ => hall, fun _ => trivial⟩, fun h => absurd rfl h⟩⟩
    · have hlen : (st1.declaredKeywords.GetMissingKeys g.entities).length > 0 := by
        rw [getMissingKeys_length]
        exact hall
      simp only [hlen, if_true]
      refine ⟨Or.inr (by simp), fun _ _ => ⟨⟨fun h => by simp at h, fun h => absurd h hall⟩, ?_⟩⟩
      intro _
      rfl

/-- C1, at a document that declares `A` only, with `A` and `Z` requested on
the in-memory sink: the run ends in the missing-entities error for `Z`. -/
theorem generate_missing_entities_check_witness :
    ∃ st, Generate ⟨["A", "Z"], "pkg", true⟩ bufferOutput id
        ⟨[⟨.Object, "A", [], [], []⟩]⟩ "" = some st ∧
      st.declaredKeywords = ["A"] ∧ st.err = some (.missingEntities ["Z"]) := by
  obtain ⟨st, h1, _, h3⟩ := generate_missing_entities_check ⟨["A", "Z"], "pkg", true⟩
    bufferOutput id ⟨[⟨.Object, "A", [], [], []⟩]⟩ ""
  have hval : Generate ⟨["A", "Z"], "pkg", true⟩ bufferOutput id
      ⟨[⟨.Object, "A", [], [], []⟩]⟩ "" =
      some { out := "type A struct \x7b\n\n\x7d\n\n", declaredKeywords := ["A"],
             err := some (.missingEntities ["Z"]) } := by
    rfl
  rw [hval] at h1
  injection h1 with h1
  subst h1
  have h4 := (h3 (by intro msg h; cases h) (by intro key h; cases h)).2 (by simp)
  exact ⟨_, hval, rfl, h4⟩

/-- C3: `resolveEntityDependencies` returns a list whose names are exactly the
names reachable from the requested ones along the dependency edges: it holds
every requested name, it holds every dependency of each of its names that has a
definition, and each of its names is reachable; the edges are the field type
names of Object and InputObject definitions, an enum replaced by its
synthesized name, and the member names of unions. -/
theorem resolveEntityDependencies_reachable_set (doc : SchemaDocument) (req : List String)
    (enumMap : GoMap enum) :
    ∃ r, resolveEntityDependencies doc req enumMap = some r ∧
      (∀ n, n ∈ r ↔ Reachable (dependsOnEdge doc enumMap) req n) ∧
      (∀ n ∈ req, n ∈ r) ∧
      (∀ a ∈ r, ∀ b, dependsOnEdge doc enumMap a b → b ∈ r) ∧
      (∀ i ∈ doc.Definitions,
        (i.Kind = DefinitionKind.Object ∨ i.Kind = DefinitionKind.InputObject) →
        ∀ f ∈ i.Fields, dependsOnEdge doc enumMap i.Name (enumSubstitute enumMap f.Type_.Name)) ∧
      (∀ i ∈ doc.Definitions, i.Kind = DefinitionKind.Union →
        ∀ t ∈ i.Types, dependsOnEdge doc enumMap i.Name t) := by
  obtain ⟨r, hr, h1, h2, h3⟩ := resolveEntityDependencies_closure doc req enumMap
  refine ⟨r, hr, ?_, h1, h2, ?_, ?_⟩
  · intro n
    exact ⟨h3 n, reachable_mem_of_closed _ req r h1 h2 n⟩
  · intro i hi hk f hf
    exact ⟨i, hi, rfl, mem_depEntities_field enumMap i hk f hf⟩
  · intro i hi hk t ht
    exact ⟨i, hi, rfl, mem_depEntities_member enumMap i hk t ht⟩

/-- C3, at a document in which `A` has a field of the enum `Color` and `U` is
a union of `A`: requesting `U` resolves `A` and `EnumColor`. -/
theorem resolveEntityDependencies_reachable_set_witness :
    ∃ r, resolveEntityDependencies
        ⟨[⟨.Enum, "Color", [], [], [⟨"RED"⟩]⟩,
          ⟨.Object, "A", [⟨"c", .mk "Color" none true⟩], [], []⟩,
          ⟨.Union, "U", [], ["A"], []⟩]⟩ ["U"] [("Color", ⟨"EnumColor", ["RED"]⟩)] = some r ∧
      "A" ∈ r ∧ "EnumColor" ∈ r := by
  obtain ⟨r, hr, _, hreq, hcl, hfield, hmember⟩ := resolveEntityDependencies_reachable_set
    ⟨[⟨.Enum, "Color", [], [], [⟨"RED"⟩]⟩,
      ⟨.Object, "A", [⟨"c", .mk "Color" none true⟩], [], []⟩,
      ⟨.Union, "U", [], ["A"], []⟩]⟩ ["U"] [("Color", ⟨"EnumColor", ["RED"]⟩)]
  have hU : "U" ∈ r := hreq "U" (by simp)
  have hA : "A" ∈ r :=
    hcl "U" hU "A" (hmember ⟨.Union, "U", [], ["A"], []⟩ (by simp) rfl "A" (by simp))
  have hC : "EnumColor" ∈ r :=
    hcl "A" hA "EnumColor"
      (hfield ⟨.Object, "A", [⟨"c", .mk "Color" none true⟩], [], []⟩ (by simp) (Or.inl rfl)
        ⟨"c", .mk "Color" none true⟩ (by simp))
  exact ⟨r, hr, hA, hC⟩

/-- C2, as stated, fails: with nothing requested, `A` is declared and its field
refers to the object definition `Query`, which the run, ending in `nil`, never
declares. -/
theorem generate_closure_root_counterexample :
    Generate ⟨[], "pkg", true⟩ bufferOutput id
        ⟨[⟨.Object, "Query", [], [], []⟩,
          ⟨.Object, "A", [⟨"q", .mk "Query" none true⟩], [], []⟩]⟩ "" =
      some { out := "type A struct \x7b\n  Q Query `json:\"q\"`\n\x7d\n\n",
             declaredKeywords := ["A"], err := none } ∧
      "Query" ∉ ["A"] := by
  constructor
  · rfl
  · decide

/-- In a run that ends in `nil`, every definition the second loop selects is
registered, and so are the entities it refers to, the root operation types
apart: for a field whose type names an Enum definition the synthesized name
`"Enum" + name`, for a field whose type names no Enum definition and for a
union member every Object, InputObject or Union definition of that name not
named `Query` or `Mutation`. -/
theorem generate_dependencies_registered {σ : Type} (g : GoGenerator) (output : Outputer σ)
    (rangeOrder : GoMap enum → List (String × enum)) (doc : SchemaDocument) (out : σ)
    (hlegal : LegalOrder rangeOrder) :
    ∃ r st, resolveEntityDependencies doc g.entities (buildEnumMap doc) = some r ∧
      Generate g output rangeOrder doc out = some st ∧
      (st.err = none → ∀ d ∈ doc.Definitions, selected r d →
        d.Name ∈ st.declaredKeywords ∧
        (∀ f ∈ d.Fields, d.Kind ≠ DefinitionKind.Union →
          ((∃ t ∈ doc.Definitions, t.Kind = DefinitionKind.Enum ∧ t.Name = f.Type_.Name) →
            "Enum" ++ f.Type_.Name ∈ st.declaredKeywords) ∧
          ((¬ ∃ t ∈ doc.Definitions, t.Kind = DefinitionKind.Enum ∧ t.Name = f.Type_.Name) →
            ∀ t ∈ doc.Definitions, t.Name = f.Type_.Name →
              (t.Kind = DefinitionKind.Object ∨ t.Kind = DefinitionKind.InputObject ∨
                t.Kind = DefinitionKind.Union) →
              t.Name ≠ "Query" → t.Name ≠ "Mutation" → t.Name ∈ st.declaredKeywords)) ∧
        (d.Kind = DefinitionKind.Union → ∀ m ∈ d.Types, ∀ t ∈ doc.Definitions, t.Name = m →
          (t.Kind = DefinitionKind.Object ∨ t.Kind = DefinitionKind.InputObject ∨
            t.Kind = DefinitionKind.Union) →
          t.Name ≠ "Query" → t.Name ≠ "Mutation" → t.Name ∈ st.declaredKeywords)) := by
  obtain ⟨r, hr, _, hcl, _⟩ :=
    resolveEntityDependencies_closure doc g.entities (buildEnumMap doc)
  refine ⟨r, _, hr, Generate_eq g output rangeOrder doc out r hr, ?_⟩
  intro herr d hd hsel
  rw [checkMissing_declared]
  have herr1 : (beforeCheck g output rangeOrder doc r out).err = none := by
    cases he : (beforeCheck g output rangeOrder doc r out).err with
    | none => rfl
    | some e =>
      rw [checkMissing_err_of_err _ _ e he] at herr
      exact absurd herr (by simp)
  have hgoodDefs := goodStep_foldl
    (fun i st => emitDefinition output (buildEnumMap doc) r i st)
    doc.Definitions (fun i _ => goodStep_emitDefinition output (buildEnumMap doc) r i)
  -- every selected definition is declared
  have hdecl : ∀ t ∈ doc.Definitions, selected r t →
      t.Name ∈ (beforeCheck g output rangeOrder doc r out).declaredKeywords := by
    intro t ht hselt
    exact foldl_declares (fun i st => emitDefinition output (buildEnumMap doc) r i st)
      doc.Definitions (fun i _ => goodStep_emitDefinition output (buildEnumMap doc) r i)
      t ht t.Name (emitDefinition_declares output (buildEnumMap doc) r t hselt) _ herr1
  -- every enum that passes the filter is declared
  have henum : ∀ n e, (buildEnumMap doc).get n = some e → filteredOut r e.TypeName = false →
      e.TypeName ∈ (beforeCheck g output rangeOrder doc r out).declaredKeywords := by
    intro n e hget hfil
    have hmem : (n, e) ∈ rangeOrder (buildEnumMap doc) :=
      (hlegal (buildEnumMap doc)).mem_iff.2 (GoMap.mem_of_get _ n e hget)
    have herr2 := (hgoodDefs _).1 herr1
    have := foldl_declares (fun (p : String × enum) st => emitEnum output r p.2 st)
      (rangeOrder (buildEnumMap doc)) (fun p _ => goodStep_emitEnum output r p.2)
      (n, e) hmem e.TypeName (emitEnum_declares output r e hfil) _ herr2
    exact (hgoodDefs _).2.1 _ this
  -- a name the selected definition depends on passes the filter
  have hpass : ∀ b, dependsOnEdge doc (buildEnumMap doc) d.Name b →
      ¬ (r.length > 0 ∧ b ∉ r) := by
    intro b hedge hcon
    have hdr : d.Name ∈ r := by
      by_contra hnot
      exact hsel.1 ⟨hcon.1, hnot⟩
    exact hcon.2 (hcl d.Name hdr b hedge)
  refine ⟨hdecl d hd hsel, ?_, ?_⟩
  · intro f hf hnu
    have hk : d.Kind = DefinitionKind.Object ∨ d.Kind = DefinitionKind.InputObject := by
      rcases hsel.2.2.2 with h | h | h
      · exact Or.inl h
      · exact Or.inr h
      · exact absurd h hnu
    have hedge : dependsOnEdge doc (buildEnumMap doc) d.Name
        (enumSubstitute (buildEnumMap doc) f.Type_.Name) :=
      ⟨d, hd, rfl, mem_depEntities_field (buildEnumMap doc) d hk f hf⟩
    constructor
    · intro hen
      obtain ⟨e, he⟩ := (buildEnumMap_get_isSome doc f.Type_.Name).2 hen
      have hty := buildEnumMap_typeName doc _ e he
      have hsub : enumSubstitute (buildEnumMap doc) f.Type_.Name = e.TypeName := by
        simp [enumSubstitute, he]
      rw [hsub] at hedge
      rw [← hty]
      exact henum _ e he ((filteredOut_eq_false r e.TypeName).2 (hpass _ hedge))
    · intro hnen t ht htn hkind hq hm
      have hnone : (buildEnumMap doc).get f.Type_.Name = none := by
        cases hg : (buildEnumMap doc).get f.Type_.Name with
        | none => rfl
        | some e => exact absurd ((buildEnumMap_get_isSome doc f.Type_.Name).1 ⟨e, hg⟩) hnen
      have hsub : enumSubstitute (buildEnumMap doc) f.Type_.Name = t.Name := by
        simp [enumSubstitute, hnone, htn]
      rw [hsub] at hedge
      exact hdecl t ht ⟨hpass _ hedge, hq, hm, hkind⟩
  · intro hu m hm t ht htn hkind hq hmu
    have hedge : dependsOnEdge doc (buildEnumMap doc) d.Name t.Name :=
      ⟨d, hd, rfl, htn ▸ mem_depEntities_member (buildEnumMap doc) d hu m hm⟩
    exact hdecl t ht ⟨hpass _ hedge, hq, hmu, hkind⟩

/-- C4, as stated, fails: the list field `xs: [Int!]` is not marked NonNull,
and the Go type written for it, `[]int64`, carries no pointer marker. -/
theorem nullability_list_counterexample :
    Generate ⟨[], "pkg", true⟩ bufferOutput id
        ⟨[⟨.Object, "T", [⟨"xs", .mk "" (some (.mk "Int" none true)) false⟩], [], []⟩]⟩ "" =
      some { out := "type T struct \x7b\n  Xs []int64 `json:\"xs\"`\n\x7d\n\n",
             declaredKeywords := ["T"], err := none } ∧
      (AstType.mk "" (some (.mk "Int" none true)) false).NonNull = false ∧
      ¬ hasPointerMarker
        (emittedGoType [] ⟨"xs", .mk "" (some (.mk "Int" none true)) false⟩) := by
  refine ⟨rfl, rfl, ?_⟩
  decide

/-- C4, amended: the line of a field is its re-cased name, its Go type and its
tag; for a field that is not a list the Go type carries the pointer marker
exactly when the type reference is not NonNull; for a list field the marker is
decided by the NonNull flag of the element, whatever the flag of the list.
Names are GraphQL names, which hold no `*`. -/
theorem nullability_marker (doc : SchemaDocument) (f : FieldDefinition) :
    fieldLine (buildEnumMap doc) f =
      "  " ++ Title f.Name ++ " " ++ emittedGoType (buildEnumMap doc) f ++
        " `json:\"" ++ f.Name ++ "\"`" ∧
    (f.Type_.Elem = none → '*' ∉ f.Type_.Name.data →
      (hasPointerMarker (emittedGoType (buildEnumMap doc) f) ↔ f.Type_.NonNull = false)) ∧
    (∀ elem, f.Type_.Elem = some elem → '*' ∉ elem.Name.data →
      (hasPointerMarker (emittedGoType (buildEnumMap doc) f) ↔ elem.NonNull = false)) := by
  refine ⟨fieldLine_eq _ f, ?_, ?_⟩
  · intro he hn
    unfold emittedGoType
    rw [he]
    exact marker_resolveType doc _ _ hn
  · intro elem he hn
    unfold emittedGoType
    rw [he]
    simp only
    rw [marker_list]
    exact marker_resolveType doc _ _ hn

/-- C4, amended, at the nullable field `name: String` and at the non-null
field `id: ID!`: the first carries the marker, the second does not. -/
theorem nullability_marker_witness :
    hasPointerMarker (emittedGoType (buildEnumMap ⟨[]⟩) ⟨"name", .mk "String" none false⟩) ∧
    ¬ hasPointerMarker (emittedGoType (buildEnumMap ⟨[]⟩) ⟨"id", .mk "ID" none true⟩) :=
  ⟨((nullability_marker ⟨[]⟩ ⟨"name", .mk "String" none false⟩).2.1 rfl (by decide)).2 rfl,
   fun h => absurd
    (((nullability_marker ⟨[]⟩ ⟨"id", .mk "ID" none true⟩).2.1 rfl (by decide)).1 h)
    (by decide)⟩

/-- C8: the code at a document with an enum named `string` and an object `T`
with the field `s: String!`, `T` requested: `resolveType` applies the scalar
table first and looks its result up in the enum map, so `String` becomes
`Enumstring`, where enum substitution followed by the table gives `string`;
the resolver records the edge `String`, and the run ends in `nil` with a
struct that names the undeclared type `Enumstring`. -/
theorem resolveType_scalar_table_first :
    resolveType "String" (buildEnumMap ⟨[⟨.Enum, "string", [], [], [⟨"A"⟩]⟩,
        ⟨.Object, "T", [⟨"s", .mk "String" none true⟩], [], []⟩]⟩) true = "Enumstring" ∧
    scalarMap (enumSubstitute (buildEnumMap ⟨[⟨.Enum, "string", [], [], [⟨"A"⟩]⟩,
        ⟨.Object, "T", [⟨"s", .mk "String" none true⟩], [], []⟩]⟩) "String") = "string" ∧
    resolveEntityDependencies ⟨[⟨.Enum, "string", [], [], [⟨"A"⟩]⟩,
        ⟨.Object, "T", [⟨"s", .mk "String" none true⟩], [], []⟩]⟩ ["T"]
      (buildEnumMap ⟨[⟨.Enum, "string", [], [], [⟨"A"⟩]⟩,
        ⟨.Object, "T", [⟨"s", .mk "String" none true⟩], [], []⟩]⟩) = some ["T", "String"] ∧
    Generate ⟨["T"], "pkg", true⟩ bufferOutput id
        ⟨[⟨.Enum, "string", [], [], [⟨"A"⟩]⟩,
          ⟨.Object, "T", [⟨"s", .mk "String" none true⟩], [], []⟩]⟩ "" =
      some { out := "type T struct \x7b\n  S Enumstring `json:\"s\"`\n\x7d\n\n",
             declaredKeywords := ["T"], err := none } := by
  refine ⟨rfl, rfl, rfl, rfl⟩

/-- C9: when the enum map has no entry under the mapped name, `resolveType`
with `notNull = true` gives `int64` for `Int`, `float64` for `Float`, `string`
for `String`, `bool` for `Boolean`, `string` for `ID` and any other name
unchanged, and with `notNull = false` the same text after `*`. -/
theorem resolveType_scalar_mapping (name : String) (enumMap : GoMap enum)
    (h : enumMap.get (scalarMap name) = none) :
    (name = "Int" → resolveType name enumMap true = "int64") ∧
    (name = "Float" → resolveType name enumMap true = "float64") ∧
    (name = "String" → resolveType name enumMap true = "string") ∧
    (name = "Boolean" → resolveType name enumMap true = "bool") ∧
    (name = "ID" → resolveType name enumMap true = "string") ∧
    (name ∉ ["Int", "Float", "String", "Boolean", "ID"] →
      resolveType name enumMap true = name) ∧
    resolveType name enumMap false = "*" ++ resolveType name enumMap true := by
  have hb : resolveType name enumMap true = scalarMap name := by
    rw [resolveType_eq]
    simp [enumSubstitute, h]
  have hf : resolveType name enumMap false = "*" ++ resolveType name enumMap true := by
    rw [resolveType_eq, resolveType_eq]
    simp
  rw [hb]
  refine ⟨?_, ?_, ?_, ?_, ?_, ?_, hf.trans (by rw [hb])⟩
  · intro hn
    subst hn
    rfl
  · intro hn
    subst hn
    rfl
  · intro hn
    subst hn
    rfl
  · intro hn
    subst hn
    rfl
  · intro hn
    subst hn
    rfl
  · intro hn
    simp only [List.mem_cons, List.mem_singleton, not_or, List.mem_nil_iff, or_false] at hn
    unfold scalarMap GQLTypesToGoTypes
    simp [hn.1, hn.2.1, hn.2.2.1, hn.2.2.2.1, hn.2.2.2.2]

/-- C9, at `ID` with an empty enum map: a non-null `ID` is `string` and a
nullable one is `*string`. -/
theorem resolveType_scalar_mapping_witness :
    resolveType "ID" [] true = "string" ∧ resolveType "ID" [] false = "*string" :=
  ⟨(resolveType_scalar_mapping "ID" [] rfl).2.2.2.2.1 rfl,
   ((resolveType_scalar_mapping "ID" [] rfl).2.2.2.2.2.2).trans rfl⟩

/-- C10: the line of a field whose type carries an element is two blanks, the
re-cased name, `[]` before the resolved element type, and the tag with the
original name; the element type is the base name after `*` exactly when the
element is not NonNull, so that (names holding no `*`) it carries the pointer
marker exactly then; and the line is the same whether the list reference is
NonNull or not. -/
theorem list_field_line (doc : SchemaDocument) (name namedType : String)
    (elem : AstType) (nonNull : Bool) :
    fieldLine (buildEnumMap doc) ⟨name, .mk namedType (some elem) nonNull⟩ =
      "  " ++ Title name ++ " []" ++ resolveType elem.Name (buildEnumMap doc) elem.NonNull ++
        " `json:\"" ++ name ++ "\"`" ∧
    resolveType elem.Name (buildEnumMap doc) elem.NonNull =
      (if elem.NonNull then "" else "*") ++ resolveType elem.Name (buildEnumMap doc) true ∧
    ('*' ∉ elem.Name.data →
      (hasPointerMarker (resolveType elem.Name (buildEnumMap doc) elem.NonNull) ↔
        elem.NonNull = false)) ∧
    fieldLine (buildEnumMap doc) ⟨name, .mk namedType (some elem) true⟩ =
      fieldLine (buildEnumMap doc) ⟨name, .mk namedType (some elem) false⟩ := by
  refine ⟨?_, ?_, ?_, ?_⟩
  · simp [fieldLine, ListFieldTPL, AstType.Elem]
  · rw [resolveType_eq, resolveType_eq]
    cases elem.NonNull <;> simp
  · intro hn
    exact marker_resolveType doc _ _ hn
  · simp [fieldLine, AstType.Elem]

/-- C10, at the fields `tags: [String]!` and `tags: [String!]`: the element
type is `*string` in the first line and `string` in the second. -/
theorem list_field_line_witness :
    fieldLine (buildEnumMap ⟨[]⟩) ⟨"tags", .mk "" (some (.mk "String" none false)) true⟩ =
      "  Tags []*string `json:\"tags\"`" ∧
    hasPointerMarker (resolveType "String" (buildEnumMap ⟨[]⟩) false) ∧
    ¬ hasPointerMarker (resolveType "String" (buildEnumMap ⟨[]⟩) true) :=
  ⟨((list_field_line ⟨[]⟩ "tags" "" (.mk "String" none false) true).1).trans rfl,
   ((list_field_line ⟨[]⟩ "tags" "" (.mk "String" none false) true).2.2.1 (by decide)).2 rfl,
   fun h => absurd
    (((list_field_line ⟨[]⟩ "tags" "" (.mk "String" none true) true).2.2.1 (by decide)).1 h)
    (by decide)⟩

/-- C5: the code at a document with two Enum definitions named `Color`:
`buildEnumMap` keeps the later one under the one key, the registry sees
`EnumColor` once, and the run ends in `nil` with the values of the first
definition lost. -/
theorem generate_duplicate_enum_silent :
    buildEnumMap ⟨[⟨.Enum, "Color", [], [], [⟨"RED"⟩]⟩,
        ⟨.Enum, "Color", [], [], [⟨"BLUE"⟩]⟩]⟩ = [("Color", ⟨"EnumColor", ["BLUE"]⟩)] ∧
    Generate ⟨[], "pkg", true⟩ bufferOutput id
        ⟨[⟨.Enum, "Color", [], [], [⟨"RED"⟩]⟩,
          ⟨.Enum, "Color", [], [], [⟨"BLUE"⟩]⟩]⟩ "" =
      some { out := "type EnumColor string\nconst EnumColorBLUE EnumColor = \"BLUE\"\n\n\n",
             declaredKeywords := ["EnumColor", "EnumColorBLUE"], err := none } := by
  constructor <;> rfl

/-- C6: the code at a document with the enums `A` and `B` in this order, the
map being visited last entry first, which Go allows: `EnumB` is written before
`EnumA`. -/
theorem generate_enum_order_reversed :
    LegalOrder List.reverse ∧
    Generate ⟨[], "pkg", true⟩ recordOutput List.reverse
        ⟨[⟨.Enum, "A", [], [], [⟨"X"⟩]⟩, ⟨.Enum, "B", [], [], [⟨"Y"⟩]⟩]⟩ [] =
      some { out := ["type EnumB string", "\n", "const EnumBY EnumB = \"Y\"", "\n",
                     "type EnumA string", "\n", "const EnumAX EnumA = \"X\"", "\n",
                     "\n", "\n"],
             declaredKeywords := ["EnumB", "EnumBY", "EnumA", "EnumAX"], err := none } := by
  constructor
  · intro m
    exact List.reverse_perm m
  · rfl

/-- C7: the code run twice on one document with the same parameters and fresh
sinks, the map being visited in two of the orders Go allows: the texts written
differ. -/
theorem generate_two_runs_differ :
    LegalOrder id ∧ LegalOrder List.reverse ∧
    Generate ⟨[], "pkg", true⟩ bufferOutput id
        ⟨[⟨.Enum, "A", [], [], [⟨"X"⟩]⟩, ⟨.Enum, "B", [], [], [⟨"Y"⟩]⟩]⟩ "" =
      some { out := "type EnumA string\nconst EnumAX EnumA = \"X\"\ntype EnumB string\nconst EnumBY EnumB = \"Y\"\n\n\n",
             declaredKeywords := ["EnumA", "EnumAX", "EnumB", "EnumBY"], err := none } ∧
    Generate ⟨[], "pkg", true⟩ bufferOutput List.reverse
        ⟨[⟨.Enum, "A", [], [], [⟨"X"⟩]⟩, ⟨.Enum, "B", [], [], [⟨"Y"⟩]⟩]⟩ "" =
      some { out := "type EnumB string\nconst EnumBY EnumB = \"Y\"\ntype EnumA string\nconst EnumAX EnumA = \"X\"\n\n\n",
             declaredKeywords := ["EnumB", "EnumBY", "EnumA", "EnumAX"], err := none } := by
  refine ⟨fun m => List.Perm.refl m, fun m => List.reverse_perm m, rfl, rfl⟩

/-! ## The enum catalogue, entry by entry -/

theorem foldl_enumMap_get_of_no_enum (defs : List Definition) (acc : GoMap enum) (n : String)
    (h : ∀ t ∈ defs, t.Kind = DefinitionKind.Enum → t.Name ≠ n) :
    (defs.foldl (fun (enumMap : GoMap enum) i =>
      if i.Kind = DefinitionKind.Enum then
        enumMap.set i.Name
          { TypeName := "Enum" ++ i.Name, Values := i.EnumValues.map (fun e => e.Name) }
      else enumMap) acc).get n = acc.get n := by
  induction defs generalizing acc with
  | nil => rfl
  | cons i rest ih =>
    simp only [List.foldl_cons]
    rw [ih _ (fun t ht => h t (List.mem_cons_of_mem _ ht))]
    by_cases hk : i.Kind = DefinitionKind.Enum
    · have hn : ¬ n = i.Name := fun e => h i (List.mem_cons_self _ _) hk e.symm
      simp only [hk, if_true, GoMap.get_set, hn, if_false]
    · simp only [hk, if_false]

/-- The entry of the last Enum definition of a name: its synthesized type name
and its values in schema order. -/
theorem buildEnumMap_get_last (doc : SchemaDocument) (pre post : List Definition)
    (d : Definition) (hdoc : doc.Definitions = pre ++ d :: post)
    (hk : d.Kind = DefinitionKind.Enum)
    (hlast : ∀ t ∈ post, t.Kind = DefinitionKind.Enum → t.Name ≠ d.Name) :
    (buildEnumMap doc).get d.Name =
      some { TypeName := "Enum" ++ d.Name, Values := d.EnumValues.map (fun e => e.Name) } := by
  unfold buildEnumMap
  rw [hdoc, List.foldl_append, List.foldl_cons]
  rw [foldl_enumMap_get_of_no_enum post _ d.Name hlast]
  simp only [hk, if_true, GoMap.get_set]

/-- Every entry of the enum map comes from an Enum definition of the key's
name: the synthesized type name and that definition's values. -/
theorem buildEnumMap_entry (doc : SchemaDocument) (k : String) (e : enum)
    (h : (buildEnumMap doc).get k = some e) :
    ∃ d ∈ doc.Definitions, d.Kind = DefinitionKind.Enum ∧ d.Name = k ∧
      e = { TypeName := "Enum" ++ k, Values := d.EnumValues.map (fun v => v.Name) } := by
  have hP : ∀ k e, (buildEnumMap doc).get k = some e →
      ∃ d ∈ doc.Definitions, d.Kind = DefinitionKind.Enum ∧ d.Name = k ∧
        e = { TypeName := "Enum" ++ k, Values := d.EnumValues.map (fun v => v.Name) } := by
    unfold buildEnumMap
    apply foldl_invariant (fun m : GoMap enum => ∀ k e, m.get k = some e →
      ∃ d ∈ doc.Definitions, d.Kind = DefinitionKind.Enum ∧ d.Name = k ∧
        e = { TypeName := "Enum" ++ k, Values := d.EnumValues.map (fun v => v.Name) })
    · intro k e h
      simp [GoMap.get] at h
    · intro m i hi hm k e h
      by_cases hk : i.Kind = DefinitionKind.Enum
      · simp only [hk, if_true] at h
        rw [GoMap.get_set] at h
        by_cases hki : k = i.Name
        · simp only [hki, if_true] at h
          injection h with h
          exact ⟨i, hi, hk, hki.symm, by rw [← h, hki]⟩
        · simp only [hki, if_false] at h
          exact hm k e h
      · simp only [hk, if_false] at h
        exact hm k e h
  exact hP k e h

/-- C11, as stated, fails: of two Enum definitions named `Color` the entry at
`Color` holds the values of the second, not those of the first. -/
theorem buildEnumMap_duplicate_counterexample :
    (buildEnumMap ⟨[⟨.Enum, "Color", [], [], [⟨"RED"⟩]⟩,
        ⟨.Enum, "Color", [], [], [⟨"BLUE"⟩]⟩]⟩).get "Color" =
      some ⟨"EnumColor", ["BLUE"]⟩ ∧
    (Definition.mk .Enum "Color" [] [] [⟨"RED"⟩]).EnumValues.map (fun v => v.Name) ≠
      ["BLUE"] := by
  constructor
  · rfl
  · decide

/-- C11, amended: the keys of the map `buildEnumMap` returns are exactly the
names of the Enum definitions of the document; the entry at the name of an
Enum definition has the type name `"Enum" + name`; and for an Enum definition
that no later Enum definition shares its name with, the entry holds the names
of its values in schema order. -/
theorem buildEnumMap_entries (doc : SchemaDocument) :
    (∀ n, (∃ e, (buildEnumMap doc).get n = some e) ↔
      ∃ d ∈ doc.Definitions, d.Kind = DefinitionKind.Enum ∧ d.Name = n) ∧
    (∀ d ∈ doc.Definitions, d.Kind = DefinitionKind.Enum →
      ∃ e, (buildEnumMap doc).get d.Name = some e ∧ e.TypeName = "Enum" ++ d.Name) ∧
    (∀ pre d post, doc.Definitions = pre ++ d :: post → d.Kind = DefinitionKind.Enum →
      (∀ t ∈ post, t.Kind = DefinitionKind.Enum → t.Name ≠ d.Name) →
      (buildEnumMap doc).get d.Name =
        some { TypeName := "Enum" ++ d.Name, Values := d.EnumValues.map (fun e => e.Name) }) := by
  refine ⟨buildEnumMap_get_isSome doc, ?_, ?_⟩
  · intro d hd hk
    obtain ⟨e, he⟩ := (buildEnumMap_get_isSome doc d.Name).2 ⟨d, hd, hk, rfl⟩
    exact ⟨e, he, buildEnumMap_typeName doc d.Name e he⟩
  · intro pre d post hdoc hk hlast
    exact buildEnumMap_get_last doc pre post d hdoc hk hlast

/-- C11, amended, at a document with the enum `Status` between two objects:
the entry is `EnumStatus` with the values `ACTIVE`, `DONE`. -/
theorem buildEnumMap_entries_witness :
    (buildEnumMap ⟨[⟨.Object, "A", [], [], []⟩,
        ⟨.Enum, "Status", [], [], [⟨"ACTIVE"⟩, ⟨"DONE"⟩]⟩,
        ⟨.Object, "B", [], [], []⟩]⟩).get "Status" =
      some ⟨"EnumStatus", ["ACTIVE", "DONE"]⟩ :=
  (buildEnumMap_entries ⟨[⟨.Object, "A", [], [], []⟩,
      ⟨.Enum, "Status", [], [], [⟨"ACTIVE"⟩, ⟨"DONE"⟩]⟩,
      ⟨.Object, "B", [], [], []⟩]⟩).2.2 [⟨.Object, "A", [], [], []⟩]
    ⟨.Enum, "Status", [], [], [⟨"ACTIVE"⟩, ⟨"DONE"⟩]⟩ [⟨.Object, "B", [], [], []⟩]
    rfl rfl (by decide)

/-! ## Termination of the closure loop -/

theorem resolveLoop_fuel_succ (d : GoMap (List String)) (fuel : Nat) :
    ∀ (ents : List String) (res : GoMap Bool) (r : List String),
    resolveLoop d fuel ents res = some r → resolveLoop d (fuel + 1) ents res = some r := by
  induction fuel with
  | zero =>
    intro ents res r h
    simp [resolveLoop] at h
  | succ fuel ih =>
    intro ents res r h
    unfold resolveLoop at h ⊢
    simp only at h ⊢
    by_cases hall : (resolvePass d ents
        { entities := ents, resolvedEntities := res, allResolved := true }).allResolved = true
    · rw [if_pos hall] at h ⊢
      exact h
    · rw [if_neg hall] at h ⊢
      exact ih _ _ r h

theorem resolveLoop_fuel_le (d : GoMap (List String)) (fuel fuel2 : Nat) (hle : fuel ≤ fuel2)
    (ents : List String) (res : GoMap Bool) (r : List String)
    (h : resolveLoop d fuel ents res = some r) : resolveLoop d fuel2 ents res = some r := by
  induction hle with
  | refl => exact h
  | step _ ih => exact resolveLoop_fuel_succ d _ ents res r ih

theorem resolvePass_skip_resolved (d : GoMap (List String)) (e : String) (rest : List String)
    (st : ResolveState) (h : isResolved st.resolvedEntities e = true) :
    resolvePass d (e :: rest) st = resolvePass d rest st := by
  have h2 : (st.resolvedEntities.get e).getD false = true := h
  rw [resolvePass]
  cases d.get e <;> simp [h2]

/-- C18: `resolveEntityDependencies` returns on every document and requested
list, with the pass budget of the model and with any larger one; a pass that
does not end the loop leaves fewer entries of `dependsOn` unexpanded than it
found, a name already marked as expanded is skipped, and a mark once set stays
set, so no name is expanded twice. -/
theorem resolveEntityDependencies_terminates (doc : SchemaDocument) (req : List String)
    (enumMap : GoMap enum) :
    (∃ r, resolveEntityDependencies doc req enumMap = some r ∧
      ∀ fuel, (buildDependsOn doc enumMap).length + 1 ≤ fuel →
        resolveLoop (buildDependsOn doc enumMap) fuel req [] = some r) ∧
    (∀ ents res,
      (resolvePass (buildDependsOn doc enumMap) ents
        { entities := ents, resolvedEntities := res, allResolved := true }).allResolved = false →
      unresolvedCount (buildDependsOn doc enumMap)
        (resolvePass (buildDependsOn doc enumMap) ents
          { entities := ents, resolvedEntities := res, allResolved := true }).resolvedEntities <
        unresolvedCount (buildDependsOn doc enumMap) res) ∧
    (∀ e rest st, isResolved st.resolvedEntities e = true →
      resolvePass (buildDependsOn doc enumMap) (e :: rest) st =
        resolvePass (buildDependsOn doc enumMap) rest st) ∧
    (∀ xs st k, isResolved st.resolvedEntities k = true →
      isResolved (resolvePass (buildDependsOn doc enumMap) xs st).resolvedEntities k = true) := by
  refine ⟨?_, ?_, ?_, ?_⟩
  · obtain ⟨r, hr⟩ := resolveEntityDependencies_returns doc req enumMap
    refine ⟨r, hr, ?_⟩
    intro fuel hfuel
    exact resolveLoop_fuel_le _ _ fuel hfuel req [] r hr
  · intro ents res h
    exact resolvePass_progress _ ents _ rfl h
  · intro e rest st h
    exact resolvePass_skip_resolved _ e rest st h
  · intro xs st k h
    exact (resolvePass_mono _ xs st).2.1 k h

/-- C18, at a document in which `A` refers to `B` and to itself and `B` refers
to `A`: the closure of `A` is returned. -/
theorem resolveEntityDependencies_terminates_witness :
    resolveEntityDependencies
        ⟨[⟨.Object, "A", [⟨"b", .mk "B" none true⟩, ⟨"self", .mk "A" none false⟩], [], []⟩,
          ⟨.Object, "B", [⟨"a", .mk "A" none true⟩], [], []⟩]⟩ ["A"] [] =
      some ["A", "B", "A", "A"] ∧
    resolveLoop (buildDependsOn
        ⟨[⟨.Object, "A", [⟨"b", .mk "B" none true⟩, ⟨"self", .mk "A" none false⟩], [], []⟩,
          ⟨.Object, "B", [⟨"a", .mk "A" none true⟩], [], []⟩]⟩ []) 100 ["A"] [] =
      some ["A", "B", "A", "A"] := by
  obtain ⟨r, hr, hfuel⟩ := (resolveEntityDependencies_terminates
    ⟨[⟨.Object, "A", [⟨"b", .mk "B" none true⟩, ⟨"self", .mk "A" none false⟩], [], []⟩,
      ⟨.Object, "B", [⟨"a", .mk "A" none true⟩], [], []⟩]⟩ ["A"] []).1
  have hv : resolveEntityDependencies
      ⟨[⟨.Object, "A", [⟨"b", .mk "B" none true⟩, ⟨"self", .mk "A" none false⟩], [], []⟩,
        ⟨.Object, "B", [⟨"a", .mk "A" none true⟩], [], []⟩]⟩ ["A"] [] =
      some ["A", "B", "A", "A"] := rfl
  rw [hv] at hr
  injection hr with hr
  subst hr
  exact ⟨hv, hfuel 100 (by decide)⟩

/-! ## Where registered identifiers come from -/

theorem keeps_id {σ : Type} (proj : GenState σ → List String) (P : String → Prop) :
    Keeps proj P (fun st => st) :=
  fun _ h => h

theorem keeps_comp {σ : Type} (proj : GenState σ → List String) (P : String → Prop)
    (f g : GenState σ → GenState σ) (hf : Keeps proj P f) (hg : Keeps proj P g) :
    Keeps proj P (fun st => g (f st)) :=
  fun st h => hg (f st) (hf st h)

theorem keeps_foldl {σ α : Type} (proj : GenState σ → List String) (P : String → Prop)
    (body : α → GenState σ → GenState σ) (xs : List α)
    (h : ∀ x ∈ xs, Keeps proj P (body x)) :
    Keeps proj P (fun st => xs.foldl (fun st x => body x st) st) := by
  induction xs with
  | nil => exact keeps_id proj P
  | cons x rest ih =>
    simp only [List.foldl_cons]
    exact keeps_comp proj P (body x) (fun st => rest.foldl (fun st x => body x st) st)
      (h x (List.mem_cons_self _ _)) (ih (fun y hy => h y (List.mem_cons_of_mem _ hy)))

theorem write_declared {σ : Type} (output : Outputer σ) (s : String) (st : GenState σ) :
    (write output s st).declaredKeywords = st.declaredKeywords := by
  unfold write
  cases st.err with
  | some e => rfl
  | none =>
    simp only
    cases output.Write st.out s <;> rfl

theorem writeln_declared {σ : Type} (output : Outputer σ) (s : String) (st : GenState σ) :
    (writeln output s st).declaredKeywords = st.declaredKeywords := by
  unfold writeln
  cases st.err with
  | some e => rfl
  | none =>
    simp only
    cases output.Writeln st.out s <;> rfl

theorem keeps_declared_write {σ : Type} (P : String → Prop) (output : Outputer σ)
    (s : String) : Keeps (fun st => st.declaredKeywords) P (write output s) := by
  intro st h
  simp only [write_declared]
  exact h

theorem keeps_declared_writeln {σ : Type} (P : String → Prop) (output : Outputer σ)
    (s : String) : Keeps (fun st => st.declaredKeywords) P (writeln output s) := by
  intro st h
  simp only [writeln_declared]
  exact h

theorem keeps_declared_declare {σ : Type} (P : String → Prop) (key : String) (hkey : P key) :
    Keeps (fun st : GenState σ => st.declaredKeywords) P (declare key) := by
  intro st h k hk
  unfold declare keywordMap.Set at hk
  cases he : st.err with
  | some e =>
    simp only [he] at hk
    exact h k hk
  | none =>
    by_cases hmem : key ∈ st.declaredKeywords
    · simp only [he, hmem, if_true] at hk
      exact h k hk
    · simp only [he, hmem, if_false, List.mem_append, List.mem_singleton] at hk
      rcases hk with hk | hk
      · exact h k hk
      · rw [hk]
        exact hkey

theorem keeps_declared_emitEnum {σ : Type} (P : String → Prop) (output : Outputer σ)
    (reqEntities : List String) (e : enum) (htype : P e.TypeName)
    (hvals : ∀ v ∈ e.Values, P (e.TypeName ++ v)) :
    Keeps (fun st => st.declaredKeywords) P (emitEnum output reqEntities e) := by
  intro st
  unfold emitEnum
  split
  · exact keeps_id _ P st
  · exact keeps_comp _ P (fun st => write output "\n"
        (write output (EnumTypeDefTPL e.TypeName "string") (declare e.TypeName st)))
      (fun st => e.Values.foldl (fun st v => emitEnumConst output e v st) st)
      (keeps_comp _ P _ _ (keeps_comp _ P _ _ (keeps_declared_declare P _ htype)
        (keeps_declared_write P output _)) (keeps_declared_write P output _))
      (keeps_foldl _ P _ _ (fun v hv =>
        keeps_comp _ P (fun st => write output (EnumDefConstTPL e.TypeName v e.TypeName v)
            (declare (e.TypeName ++ v) st)) (write output "\n")
          (keeps_comp _ P _ _ (keeps_declared_declare P _ (hvals v hv))
            (keeps_declared_write P output _))
          (keeps_declared_write P output _))) st

theorem structText_some_kind (enumMap : GoMap enum) (i : Definition) (text : String)
    (h : structText enumMap i = some text) :
    i.Kind = DefinitionKind.Object ∨ i.Kind = DefinitionKind.InputObject ∨
      i.Kind = DefinitionKind.Union := by
  unfold structText at h
  by_cases h1 : i.Kind = DefinitionKind.Object
  · exact Or.inl h1
  · by_cases h2 : i.Kind = DefinitionKind.InputObject
    · exact Or.inr (Or.inl h2)
    · by_cases h3 : i.Kind = DefinitionKind.Union
      · exact Or.inr (Or.inr h3)
      · simp [h1, h2, h3] at h

theorem keeps_declared_emitDefinition {σ : Type} (P : String → Prop) (output : Outputer σ)
    (enumMap : GoMap enum) (reqEntities : List String) (i : Definition)
    (hname : (i.Kind = DefinitionKind.Object ∨ i.Kind = DefinitionKind.InputObject ∨
        i.Kind = DefinitionKind.Union) →
      i.Name ≠ "Query" → i.Name ≠ "Mutation" → P i.Name) :
    Keeps (fun st => st.declaredKeywords) P (emitDefinition output enumMap reqEntities i) := by
  intro st
  unfold emitDefinition
  split
  · exact keeps_id _ P st
  · split
    · exact keeps_id _ P st
    · rename_i hroot
      have hq : i.Name ≠ "Query" := by
        intro e
        simp [e] at hroot
      have hm : i.Name ≠ "Mutation" := by
        intro e
        simp [e] at hroot
      cases ht : structText enumMap i with
      | none => exact keeps_declared_writeln P output "" st
      | some text =>
        exact keeps_comp _ P (fun st => writeln output text (declare i.Name st))
          (writeln output "")
          (keeps_comp _ P _ _
            (keeps_declared_declare P _ (hname (structText_some_kind enumMap i text ht) hq hm))
            (keeps_declared_writeln P output _))
          (keeps_declared_writeln P output _) st

theorem keeps_declared_writeHeader {σ : Type} (P : String → Prop) (g : GoGenerator)
    (output : Outputer σ) : Keeps (fun st => st.declaredKeywords) P (writeHeader g output) := by
  intro st
  unfold writeHeader
  split
  · exact keeps_declared_writeln P output _ st
  · exact keeps_id _ P st

/-- In a run that visits the enum map in a legal order, every identifier in the
registry at the final check has one of the three origins. -/
theorem beforeCheck_origin {σ : Type} (g : GoGenerator) (output : Outputer σ)
    (rangeOrder : GoMap enum → List (String × enum)) (doc : SchemaDocument)
    (r : List String) (out : σ) (hlegal : LegalOrder rangeOrder) :
    ∀ k ∈ (beforeCheck g output rangeOrder doc r out).declaredKeywords,
      DeclaredOrigin doc k := by
  unfold beforeCheck
  apply keeps_foldl (fun st => st.declaredKeywords) (DeclaredOrigin doc)
    (fun i st => emitDefinition output (buildEnumMap doc) r i st) doc.Definitions
  · intro i hi
    apply keeps_declared_emitDefinition
    intro hk hq hm
    exact Or.inr ⟨i, hi, hk, hq, hm, rfl⟩
  apply keeps_foldl (fun st => st.declaredKeywords) (DeclaredOrigin doc)
    (fun (p : String × enum) st => emitEnum output r p.2 st) (rangeOrder (buildEnumMap doc))
  · intro p hp
    have hmem : (p.1, p.2) ∈ buildEnumMap doc := (hlegal (buildEnumMap doc)).mem_iff.1 hp
    have hget := GoMap.get_of_mem_nodup _ p.1 p.2 (buildEnumMap_nodup doc) hmem
    obtain ⟨d, hd, hk, hn, he⟩ := buildEnumMap_entry doc p.1 p.2 hget
    apply keeps_declared_emitEnum
    · rw [he, ← hn]
      exact Or.inl ⟨d, hd, hk, Or.inl rfl⟩
    · intro v hv
      rw [he] at hv
      simp only [List.mem_map] at hv
      obtain ⟨ev, hev, hevn⟩ := hv
      rw [he, ← hn, ← hevn]
      exact Or.inl ⟨d, hd, hk, Or.inr ⟨ev, hev, rfl⟩⟩
  apply keeps_declared_writeHeader
  intro k hk
  simp at hk

theorem ne_of_head {s t : String} (h : s.data.head? ≠ t.data.head?) : s ≠ t := by
  intro e
  exact h (by rw [e])

theorem origin_not_root (doc : SchemaDocument) (key : String) (h : DeclaredOrigin doc key) :
    key ≠ "Query" ∧ key ≠ "Mutation" := by
  rcases h with ⟨d, _, _, h | ⟨v, _, h⟩⟩ | ⟨i, _, _, hq, hm, h⟩
  · rw [h]
    exact ⟨ne_of_head (by simp [String.data_append]), ne_of_head (by simp [String.data_append])⟩
  · rw [h]
    exact ⟨ne_of_head (by simp [String.data_append]), ne_of_head (by simp [String.data_append])⟩
  · rw [h]
    exact ⟨hq, hm⟩

/-- A requested name that has none of the three origins makes the run fail:
it is never registered, and a run that reaches the final check ends in the
missing-entities error that lists it. -/
theorem generate_fails_of_no_origin {σ : Type} (g : GoGenerator) (output : Outputer σ)
    (rangeOrder : GoMap enum → List (String × enum)) (doc : SchemaDocument) (out : σ)
    (hlegal : LegalOrder rangeOrder) (n : String) (hn : n ∈ g.entities)
    (horigin : ¬ DeclaredOrigin doc n) :
    ∃ st, Generate g output rangeOrder doc out = some st ∧ st.err ≠ none ∧
      n ∉ st.declaredKeywords ∧
      ((∀ msg, st.err ≠ some (.sink msg)) → (∀ key, st.err ≠ some (.duplicate key)) →
        ∃ names, st.err = some (.missingEntities names) ∧ n ∈ names) := by
  obtain ⟨r, hr⟩ := resolveEntityDependencies_returns doc g.entities (buildEnumMap doc)
  refine ⟨_, Generate_eq g output rangeOrder doc out r hr, ?_⟩
  have hnm := beforeCheck_noMissing g output rangeOrder doc r out
  have hor := beforeCheck_origin g output rangeOrder doc r out hlegal
  generalize beforeCheck g output rangeOrder doc r out = st1 at hnm hor
  have hnot : n ∉ st1.declaredKeywords := fun h => horigin (hor n h)
  rw [checkMissing_declared]
  cases he : st1.err with
  | some e =>
    rw [checkMissing_err_of_err g.entities st1 e he]
    refine ⟨by simp, hnot, ?_⟩
    intro hs hd
    cases e with
    | sink msg => exact absurd rfl (hs msg)
    | duplicate key => exact absurd rfl (hd key)
    | missingEntities names => exact absurd he (hnm names)
  | none =>
    rw [checkMissing_err_of_ok g.entities st1 he]
    have hlen : (st1.declaredKeywords.GetMissingKeys g.entities).length > 0 := by
      rw [getMissingKeys_length]
      exact fun hall => hnot (hall n hn)
    simp only [hlen, if_true]
    refine ⟨by simp, hnot, fun _ _ => ⟨_, rfl, ?_⟩⟩
    unfold keywordMap.GetMissingKeys
    simp [hn, hnot]

theorem generate_declared_origin {σ : Type} (g : GoGenerator) (output : Outputer σ)
    (rangeOrder : GoMap enum → List (String × enum)) (doc : SchemaDocument) (out : σ)
    (hlegal : LegalOrder rangeOrder) :
    ∃ st, Generate g output rangeOrder doc out = some st ∧
      ∀ k ∈ st.declaredKeywords, DeclaredOrigin doc k := by
  obtain ⟨r, hr⟩ := resolveEntityDependencies_returns doc g.entities (buildEnumMap doc)
  refine ⟨_, Generate_eq g output rangeOrder doc out r hr, ?_⟩
  rw [checkMissing_declared]
  exact beforeCheck_origin g output rangeOrder doc r out hlegal

/-- C19: when `Query` or `Mutation` is requested, `Generate` returns an error:
neither name is ever in the registry (struct names skip them, the enum
identifiers begin with `Enum`), and a run that reaches the final check ends in
the missing-entities error that lists the requested root name. -/
theorem generate_root_requested_fails {σ : Type} (g : GoGenerator) (output : Outputer σ)
    (rangeOrder : GoMap enum → List (String × enum)) (doc : SchemaDocument) (out : σ)
    (hlegal : LegalOrder rangeOrder)
    (hroot : "Query" ∈ g.entities ∨ "Mutation" ∈ g.entities) :
    ∃ st, Generate g output rangeOrder doc out = some st ∧ st.err ≠ none ∧
      "Query" ∉ st.declaredKeywords ∧ "Mutation" ∉ st.declaredKeywords ∧
      ((∀ msg, st.err ≠ some (.sink msg)) → (∀ key, st.err ≠ some (.duplicate key)) →
        ∃ names, st.err = some (.missingEntities names) ∧
          ("Query" ∈ names ∨ "Mutation" ∈ names)) := by
  obtain ⟨st, hst, hor⟩ := generate_declared_origin g output rangeOrder doc out hlegal
  have hq : "Query" ∉ st.declaredKeywords := fun h => (origin_not_root doc _ (hor _ h)).1 rfl
  have hm : "Mutation" ∉ st.declaredKeywords := fun h => (origin_not_root doc _ (hor _ h)).2 rfl
  rcases hroot with h | h
  · obtain ⟨st2, hst2, herr, _, hmiss⟩ := generate_fails_of_no_origin g output rangeOrder doc
      out hlegal "Query" h (fun ho => (origin_not_root doc _ ho).1 rfl)
    rw [hst] at hst2
    injection hst2 with hst2
    subst hst2
    refine ⟨st, hst, herr, hq, hm, fun hs hd => ?_⟩
    obtain ⟨names, hn1, hn2⟩ := hmiss hs hd
    exact ⟨names, hn1, Or.inl hn2⟩
  · obtain ⟨st2, hst2, herr, _, hmiss⟩ := generate_fails_of_no_origin g output rangeOrder doc
      out hlegal "Mutation" h (fun ho => (origin_not_root doc _ ho).2 rfl)
    rw [hst] at hst2
    injection hst2 with hst2
    subst hst2
    refine ⟨st, hst, herr, hq, hm, fun hs hd => ?_⟩
    obtain ⟨names, hn1, hn2⟩ := hmiss hs hd
    exact ⟨names, hn1, Or.inr hn2⟩

/-- C19, at a document that defines the object `Query`, with `Query`
requested: the run ends in the missing-entities error for `Query`. -/
theorem generate_root_requested_fails_witness :
    Generate ⟨["Query"], "pkg", true⟩ bufferOutput id
        ⟨[⟨.Object, "Query", [⟨"a", .mk "Int" none true⟩], [], []⟩]⟩ "" =
      some { out := "", declaredKeywords := [], err := some (.missingEntities ["Query"]) } ∧
    ∃ st, Generate ⟨["Query"], "pkg", true⟩ bufferOutput id
        ⟨[⟨.Object, "Query", [⟨"a", .mk "Int" none true⟩], [], []⟩]⟩ "" = some st ∧
      st.err ≠ none := by
  obtain ⟨st, hst, herr, _⟩ := generate_root_requested_fails ⟨["Query"], "pkg", true⟩
    bufferOutput id ⟨[⟨.Object, "Query", [⟨"a", .mk "Int" none true⟩], [], []⟩]⟩ ""
    (fun m => List.Perm.refl m) (Or.inl (by simp))
  exact ⟨rfl, st, hst, herr⟩

/-- C20: when the requested list holds a name `N` that names an Enum
definition, names no Object, InputObject or Union definition and is no
synthesized enum identifier of the document, `Generate` returns an error: `N`
is never in the registry, which holds the enum under `"Enum" + N`, and a run
that reaches the final check ends in the missing-entities error that lists
`N`. -/
theorem generate_enum_original_name_fails {σ : Type} (g : GoGenerator)
    (output : Outputer σ) (rangeOrder : GoMap enum → List (String × enum))
    (doc : SchemaDocument) (out : σ) (hlegal : LegalOrder rangeOrder) (N : String)
    (hreq : N ∈ g.entities)
    (_henum : ∃ d ∈ doc.Definitions, d.Kind = DefinitionKind.Enum ∧ d.Name = N)
    (hstruct : ∀ t ∈ doc.Definitions, t.Name = N →
      ¬ (t.Kind = DefinitionKind.Object ∨ t.Kind = DefinitionKind.InputObject ∨
        t.Kind = DefinitionKind.Union))
    (hsyn : ∀ d ∈ doc.Definitions, d.Kind = DefinitionKind.Enum →
      N ≠ "Enum" ++ d.Name ∧ ∀ v ∈ d.EnumValues, N ≠ "Enum" ++ d.Name ++ v.Name) :
    ∃ st, Generate g output rangeOrder doc out = some st ∧ st.err ≠ none ∧
      N ∉ st.declaredKeywords ∧
      ((∀ msg, st.err ≠ some (.sink msg)) → (∀ key, st.err ≠ some (.duplicate key)) →
        ∃ names, st.err = some (.missingEntities names) ∧ N ∈ names) := by
  apply generate_fails_of_no_origin g output rangeOrder doc out hlegal N hreq
  rintro (⟨d, hd, hk, h | ⟨v, hv, h⟩⟩ | ⟨i, hi, hk, _, _, h⟩)
  · exact (hsyn d hd hk).1 h
  · exact (hsyn d hd hk).2 v hv h
  · exact hstruct i hi h.symm hk

/-- C20, at a document with the enum `Color`, with `Color` requested: the run
ends in the missing-entities error for `Color`. -/
theorem generate_enum_original_name_fails_witness :
    Generate ⟨["Color"], "pkg", true⟩ bufferOutput id
        ⟨[⟨.Enum, "Color", [], [], [⟨"RED"⟩]⟩]⟩ "" =
      some { out := "\n", declaredKeywords := [], err := some (.missingEntities ["Color"]) } ∧
    ∃ st, Generate ⟨["Color"], "pkg", true⟩ bufferOutput id
        ⟨[⟨.Enum, "Color", [], [], [⟨"RED"⟩]⟩]⟩ "" = some st ∧ st.err ≠ none := by
  obtain ⟨st, hst, herr, _⟩ := generate_enum_original_name_fails ⟨["Color"], "pkg", true⟩
    bufferOutput id ⟨[⟨.Enum, "Color", [], [], [⟨"RED"⟩]⟩]⟩ ""
    (fun m => List.Perm.refl m) "Color" (by simp)
    ⟨⟨.Enum, "Color", [], [], [⟨"RED"⟩]⟩, by simp, rfl, rfl⟩
    (by decide) (by decide)
  exact ⟨rfl, st, hst, herr⟩

/-! ## Runs on the recording sink -/

theorem write_record (s : String) (st : GenState (List String)) (h : st.err = none) :
    write recordOutput s st = { st with out := st.out ++ [s] } := by
  unfold write
  simp [h, recordOutput]

theorem writeln_record (s : String) (st : GenState (List String)) (h : st.err = none) :
    writeln recordOutput s st = { st with out := st.out ++ [s ++ "\n"] } := by
  unfold writeln
  simp [h, recordOutput]

theorem declare_of_ok {σ : Type} (key : String) (st : GenState σ)
    (h : (declare key st).err = none) :
    st.err = none ∧
      declare key st = { st with declaredKeywords := st.declaredKeywords ++ [key] } := by
  unfold declare keywordMap.Set at h ⊢
  cases he : st.err with
  | some e => simp [he] at h
  | none =>
    by_cases hk : key ∈ st.declaredKeywords
    · simp [he, hk] at h
    · simp [he, hk]

/-- A loop whose iterations, when they end without error, each append a known
list to a list of the run state, appends all of them in order. -/
theorem foldl_proj_eq {σ α : Type} (proj : GenState σ → List String)
    (body : α → GenState σ → GenState σ) (c : α → List String) (xs : List α)
    (hgood : ∀ x ∈ xs, GoodStep (body x))
    (hstep : ∀ x ∈ xs, ∀ st, (body x st).err = none → proj (body x st) = proj st ++ c x)
    (st : GenState σ) (h : (xs.foldl (fun st x => body x st) st).err = none) :
    proj (xs.foldl (fun st x => body x st) st) = proj st ++ xs.flatMap c := by
  induction xs generalizing st with
  | nil => simp
  | cons y rest ih =>
    simp only [List.foldl_cons] at h ⊢
    have hrest : GoodStep (fun st => rest.foldl (fun st x => body x st) st) :=
      goodStep_foldl body rest (fun z hz => hgood z (List.mem_cons_of_mem _ hz))
    have hy : (body y st).err = none := (hrest (body y st)).1 h
    rw [ih (fun z hz => hgood z (List.mem_cons_of_mem _ hz))
      (fun z hz => hstep z (List.mem_cons_of_mem _ hz)) (body y st) h]
    rw [hstep y (List.mem_cons_self _ _) st hy]
    simp [List.append_assoc]

theorem flatMap_single {α β : Type} (f : α → β) (l : List α) :
    l.flatMap (fun v => [f v]) = l.map f := by
  induction l with
  | nil => rfl
  | cons a rest ih => simp [List.flatMap_cons, ih]

theorem emitEnumConst_record (e : enum) (v : String) (st : GenState (List String))
    (h : (emitEnumConst recordOutput e v st).err = none) :
    (emitEnumConst recordOutput e v st).out =
        st.out ++ [EnumDefConstTPL e.TypeName v e.TypeName v, "\n"] ∧
      (emitEnumConst recordOutput e v st).declaredKeywords =
        st.declaredKeywords ++ [e.TypeName ++ v] := by
  unfold emitEnumConst at h ⊢
  simp only at h ⊢
  have h1 := (goodStep_write recordOutput _ _).1 h
  have h2 := (goodStep_write recordOutput _ _).1 h1
  obtain ⟨h3, hdecl⟩ := declare_of_ok _ st h2
  simp [hdecl, write_record, h3]

theorem emitEnum_record (reqEntities : List String) (e : enum)
    (hf : filteredOut reqEntities e.TypeName = false) (st : GenState (List String))
    (h : (emitEnum recordOutput reqEntities e st).err = none) :
    (emitEnum recordOutput reqEntities e st).out = st.out ++ enumChunks e ∧
      (emitEnum recordOutput reqEntities e st).declaredKeywords =
        st.declaredKeywords ++ enumNames e := by
  unfold emitEnum at h ⊢
  simp only [hf, Bool.false_eq_true, if_false] at h ⊢
  have hfold := goodStep_foldl (fun v st => emitEnumConst recordOutput e v st) e.Values
    (fun v _ => goodStep_emitEnumConst recordOutput e v)
  have h1 := (hfold _).1 h
  have h2 := (goodStep_write recordOutput _ _).1 h1
  have h3 := (goodStep_write recordOutput _ _).1 h2
  obtain ⟨h4, hdecl⟩ := declare_of_ok _ st h3
  have hout := foldl_proj_eq (fun st => st.out)
    (fun v st => emitEnumConst recordOutput e v st)
    (fun v => [EnumDefConstTPL e.TypeName v e.TypeName v, "\n"]) e.Values
    (fun v _ => goodStep_emitEnumConst recordOutput e v)
    (fun v _ st hst => (emitEnumConst_record e v st hst).1) _ h
  have hnames := foldl_proj_eq (fun st => st.declaredKeywords)
    (fun v st => emitEnumConst recordOutput e v st)
    (fun v => [e.TypeName ++ v]) e.Values
    (fun v _ => goodStep_emitEnumConst recordOutput e v)
    (fun v _ st hst => (emitEnumConst_record e v st hst).2) _ h
  simp only at hout hnames
  rw [hout, hnames]
  simp [hdecl, write_record, h4, enumChunks, enumNames, flatMap_single]

theorem emitDefinition_record (enumMap : GoMap enum) (reqEntities : List String)
    (i : Definition) (st : GenState (List String))
    (h : (emitDefinition recordOutput enumMap reqEntities i st).err = none) :
    (emitDefinition recordOutput enumMap reqEntities i st).out =
        st.out ++ definitionChunks enumMap reqEntities i ∧
      (emitDefinition recordOutput enumMap reqEntities i st).declaredKeywords =
        st.declaredKeywords ++ definitionNames enumMap reqEntities i := by
  unfold emitDefinition definitionChunks definitionNames at *
  by_cases hf : filteredOut reqEntities i.Name = true
  · simp [hf]
  · by_cases hroot : (decide (i.Name = "Query") || decide (i.Name = "Mutation")) = true
    · simp [hf, hroot]
    · simp only [hf, hroot, Bool.false_eq_true, if_false] at h ⊢
      cases ht : structText enumMap i with
      | none =>
        simp only [ht] at h ⊢
        have h1 := (goodStep_writeln recordOutput _ _).1 h
        simp [writeln_record, h1]
      | some text =>
        simp only [ht] at h ⊢
        have h1 := (goodStep_writeln recordOutput _ _).1 h
        have h2 := (goodStep_writeln recordOutput _ _).1 h1
        obtain ⟨h3, hdecl⟩ := declare_of_ok _ st h2
        simp [hdecl, writeln_record, h3]

theorem emitEnumConst_names {σ : Type} (output : Outputer σ) (e : enum) (v : String)
    (st : GenState σ) (h : (emitEnumConst output e v st).err = none) :
    (emitEnumConst output e v st).declaredKeywords =
      st.declaredKeywords ++ [e.TypeName ++ v] := by
  unfold emitEnumConst at h ⊢
  simp only at h ⊢
  have h1 := (goodStep_write output _ _).1 h
  have h2 := (goodStep_write output _ _).1 h1
  obtain ⟨_, hdecl⟩ := declare_of_ok _ st h2
  rw [write_declared, write_declared, hdecl]

theorem emitEnum_names {σ : Type} (output : Outputer σ) (reqEntities : List String)
    (e : enum) (st : GenState σ) (h : (emitEnum output reqEntities e st).err = none) :
    (emitEnum output reqEntities e st).declaredKeywords =
      st.declaredKeywords ++
        (if filteredOut reqEntities e.TypeName then [] else enumNames e) := by
  unfold emitEnum at h ⊢
  by_cases hf : filteredOut reqEntities e.TypeName = true
  · simp [hf]
  · simp only [hf, Bool.false_eq_true, if_false] at h ⊢
    have hfold := goodStep_foldl (fun v st => emitEnumConst output e v st) e.Values
      (fun v _ => goodStep_emitEnumConst output e v)
    have h1 := (hfold _).1 h
    have h2 := (goodStep_write output _ _).1 h1
    have h3 := (goodStep_write output _ _).1 h2
    obtain ⟨_, hdecl⟩ := declare_of_ok _ st h3
    have hnames := foldl_proj_eq (fun st => st.declaredKeywords)
      (fun v st => emitEnumConst output e v st)
      (fun v => [e.TypeName ++ v]) e.Values
      (fun v _ => goodStep_emitEnumConst output e v)
      (fun v _ st hst => emitEnumConst_names output e v st hst) _ h
    simp only at hnames
    rw [hnames, write_declared, write_declared, hdecl]
    simp [enumNames, flatMap_single]

theorem emitDefinition_names {σ : Type} (output : Outputer σ) (enumMap : GoMap enum)
    (reqEntities : List String) (i : Definition) (st : GenState σ)
    (h : (emitDefinition output enumMap reqEntities i st).err = none) :
    (emitDefinition output enumMap reqEntities i st).declaredKeywords =
      st.declaredKeywords ++ definitionNames enumMap reqEntities i := by
  unfold emitDefinition definitionNames at *
  by_cases hf : filteredOut reqEntities i.Name = true
  · simp [hf]
  · by_cases hroot : (decide (i.Name = "Query") || decide (i.Name = "Mutation")) = true
    · simp [hf, hroot]
    · simp only [hf, hroot, Bool.false_eq_true, if_false] at h ⊢
      cases ht : structText enumMap i with
      | none =>
        simp only [ht] at h ⊢
        rw [writeln_declared]
        simp
      | some text =>
        simp only [ht] at h ⊢
        have h1 := (goodStep_writeln output _ _).1 h
        have h2 := (goodStep_writeln output _ _).1 h1
        obtain ⟨_, hdecl⟩ := declare_of_ok _ st h2
        rw [writeln_declared, writeln_declared, hdecl]

theorem beforeCheck_err_chain {σ : Type} (g : GoGenerator) (output : Outputer σ)
    (rangeOrder : GoMap enum → List (String × enum)) (doc : SchemaDocument)
    (r : List String) (out : σ)
    (h : (beforeCheck g output rangeOrder doc r out).err = none) :
    ((rangeOrder (buildEnumMap doc)).foldl (fun st e => emitEnum output r e.2 st)
      (writeHeader g output { out := out, declaredKeywords := [], err := none })).err = none ∧
    (writeHeader g output { out := out, declaredKeywords := [], err := none }).err = none := by
  unfold beforeCheck at h
  have h3 := goodStep_foldl (fun i st => emitDefinition output (buildEnumMap doc) r i st)
    doc.Definitions (fun i _ => goodStep_emitDefinition output (buildEnumMap doc) r i)
  have h2 := goodStep_foldl (fun (e : String × enum) st => emitEnum output r e.2 st)
    (rangeOrder (buildEnumMap doc)) (fun e _ => goodStep_emitEnum output r e.2)
  have ha := (h3 _).1 h
  exact ⟨ha, (h2 _).1 ha⟩

/-- The registry of a run that reaches the final check, on any sink. -/
theorem beforeCheck_names {σ : Type} (g : GoGenerator) (output : Outputer σ)
    (rangeOrder : GoMap enum → List (String × enum)) (doc : SchemaDocument)
    (r : List String) (out : σ)
    (h : (beforeCheck g output rangeOrder doc r out).err = none) :
    (beforeCheck g output rangeOrder doc r out).declaredKeywords =
      runNames rangeOrder doc r := by
  obtain ⟨h1, _⟩ := beforeCheck_err_chain g output rangeOrder doc r out h
  unfold beforeCheck at h ⊢
  rw [foldl_proj_eq (fun st => st.declaredKeywords)
    (fun i st => emitDefinition output (buildEnumMap doc) r i st)
    (definitionNames (buildEnumMap doc) r) doc.Definitions
    (fun i _ => goodStep_emitDefinition output (buildEnumMap doc) r i)
    (fun i _ st hst => emitDefinition_names output (buildEnumMap doc) r i st hst) _ h]
  rw [foldl_proj_eq (fun st => st.declaredKeywords)
    (fun (p : String × enum) st => emitEnum output r p.2 st)
    (fun p => if filteredOut r p.2.TypeName then [] else enumNames p.2)
    (rangeOrder (buildEnumMap doc))
    (fun p _ => goodStep_emitEnum output r p.2)
    (fun p _ st hst => emitEnum_names output r p.2 st hst) _ h1]
  unfold writeHeader runNames
  split
  · rw [writeln_declared]
    simp
  · simp

/-- The record of a run that reaches the final check on the recording sink. -/
theorem beforeCheck_record (g : GoGenerator)
    (rangeOrder : GoMap enum → List (String × enum)) (doc : SchemaDocument)
    (r : List String) (out : List String)
    (h : (beforeCheck g recordOutput rangeOrder doc r out).err = none) :
    (beforeCheck g recordOutput rangeOrder doc r out).out =
      out ++ runChunks g rangeOrder doc r := by
  obtain ⟨h1, h0⟩ := beforeCheck_err_chain g recordOutput rangeOrder doc r out h
  unfold beforeCheck at h ⊢
  rw [foldl_proj_eq (fun st => st.out)
    (fun i st => emitDefinition recordOutput (buildEnumMap doc) r i st)
    (definitionChunks (buildEnumMap doc) r) doc.Definitions
    (fun i _ => goodStep_emitDefinition recordOutput (buildEnumMap doc) r i)
    (fun i _ st hst => (emitDefinition_record (buildEnumMap doc) r i st hst).1) _ h]
  rw [foldl_proj_eq (fun st => st.out)
    (fun (p : String × enum) st => emitEnum recordOutput r p.2 st)
    (fun p => if filteredOut r p.2.TypeName then [] else enumChunks p.2)
    (rangeOrder (buildEnumMap doc))
    (fun p _ => goodStep_emitEnum recordOutput r p.2)
    (fun p _ st hst => by
      simp only at hst ⊢
      by_cases hf : filteredOut r p.2.TypeName = true
      · unfold emitEnum
        simp [hf]
      · have hf2 : filteredOut r p.2.TypeName = false := by simpa using hf
        rw [(emitEnum_record r p.2 hf2 st hst).1]
        simp [hf2]) _ h1]
  unfold writeHeader runChunks headerChunks
  by_cases hh : (!g.disableHeader) = true
  · simp [hh, writeln_record, List.append_assoc]
  · simp [hh, List.append_assoc]

theorem checkMissing_out {σ : Type} (entities : List String) (st : GenState σ) :
    (checkMissing entities st).out = st.out := by
  unfold checkMissing
  cases st.err with
  | some e => rfl
  | none =>
    simp only
    split <;> rfl

theorem err_none_of_completed {σ : Type} (entities : List String) (st : GenState σ)
    (hnm : NoMissing st) (h : completed (checkMissing entities st)) : st.err = none := by
  cases he : st.err with
  | none => rfl
  | some e =>
    rw [completed, checkMissing_err_of_err entities st e he] at h
    rcases h with h | ⟨names, h⟩
    · simp at h
    · injection h with h
      rw [h] at he
      exact absurd he (hnm names)

/-- On any sink, the registry of a run that reaches the final check. -/
theorem generate_names {σ : Type} (g : GoGenerator) (output : Outputer σ)
    (rangeOrder : GoMap enum → List (String × enum)) (doc : SchemaDocument) (out : σ) :
    ∃ r st, resolveEntityDependencies doc g.entities (buildEnumMap doc) = some r ∧
      Generate g output rangeOrder doc out = some st ∧
      (completed st → st.declaredKeywords = runNames rangeOrder doc r) := by
  obtain ⟨r, hr⟩ := resolveEntityDependencies_returns doc g.entities (buildEnumMap doc)
  refine ⟨r, _, hr, Generate_eq g output rangeOrder doc out r hr, ?_⟩
  intro hc
  have herr := err_none_of_completed _ _ (beforeCheck_noMissing g output rangeOrder doc r out) hc
  rw [checkMissing_declared]
  exact beforeCheck_names g output rangeOrder doc r out herr

/-- On the recording sink, the record of a run that reaches the final check. -/
theorem generate_record (g : GoGenerator)
    (rangeOrder : GoMap enum → List (String × enum)) (doc : SchemaDocument)
    (out : List String) :
    ∃ r st, resolveEntityDependencies doc g.entities (buildEnumMap doc) = some r ∧
      Generate g recordOutput rangeOrder doc out = some st ∧
      (completed st → st.out = out ++ runChunks g rangeOrder doc r ∧
        st.declaredKeywords = runNames rangeOrder doc r) := by
  obtain ⟨r, hr⟩ := resolveEntityDependencies_returns doc g.entities (buildEnumMap doc)
  refine ⟨r, _, hr, Generate_eq g recordOutput rangeOrder doc out r hr, ?_⟩
  intro hc
  have herr := err_none_of_completed _ _
    (beforeCheck_noMissing g recordOutput rangeOrder doc r out) hc
  rw [checkMissing_declared, checkMissing_out]
  exact ⟨beforeCheck_record g rangeOrder doc r out herr,
    beforeCheck_names g recordOutput rangeOrder doc r out herr⟩

theorem flatMap_split {α β : Type} (c : α → List β) (xs : List α) (x : α) (hx : x ∈ xs) :
    ∃ pre post, xs.flatMap c = pre ++ c x ++ post := by
  obtain ⟨s, t, hst⟩ := List.append_of_mem hx
  refine ⟨s.flatMap c, t.flatMap c, ?_⟩
  rw [hst]
  simp [List.flatMap_append, List.flatMap_cons, List.append_assoc]

theorem runChunks_enum (g : GoGenerator) (rangeOrder : GoMap enum → List (String × enum))
    (doc : SchemaDocument) (r : List String) (hlegal : LegalOrder rangeOrder)
    (k : String) (e : enum) (hget : (buildEnumMap doc).get k = some e)
    (hf : filteredOut r e.TypeName = false) :
    ∃ pre post, runChunks g rangeOrder doc r = pre ++ enumChunks e ++ post := by
  have hmem : (k, e) ∈ rangeOrder (buildEnumMap doc) :=
    (hlegal (buildEnumMap doc)).mem_iff.2 (GoMap.mem_of_get _ k e hget)
  obtain ⟨pre, post, hsplit⟩ := flatMap_split
    (fun (p : String × enum) => if filteredOut r p.2.TypeName then [] else enumChunks p.2)
    (rangeOrder (buildEnumMap doc)) (k, e) hmem
  simp only [hf, Bool.false_eq_true, if_false] at hsplit
  refine ⟨headerChunks g ++ pre,
    post ++ doc.Definitions.flatMap (definitionChunks (buildEnumMap doc) r), ?_⟩
  unfold runChunks
  rw [hsplit]
  simp [List.append_assoc]

theorem definitionChunks_selected (enumMap : GoMap enum) (r : List String) (i : Definition)
    (hsel : selected r i) (text : String) (ht : structText enumMap i = some text) :
    definitionChunks enumMap r i = [text ++ "\n", "\n"] := by
  obtain ⟨h1, h2, h3, _⟩ := hsel
  have hf := (filteredOut_eq_false r i.Name).2 h1
  unfold definitionChunks
  simp [hf, h2, h3, ht]

theorem runChunks_definition (g : GoGenerator)
    (rangeOrder : GoMap enum → List (String × enum)) (doc : SchemaDocument)
    (r : List String) (i : Definition) (hi : i ∈ doc.Definitions) (hsel : selected r i)
    (text : String) (ht : structText (buildEnumMap doc) i = some text) :
    ∃ pre post, runChunks g rangeOrder doc r = pre ++ [text ++ "\n", "\n"] ++ post := by
  obtain ⟨pre, post, hsplit⟩ := flatMap_split (definitionChunks (buildEnumMap doc) r)
    doc.Definitions i hi
  rw [definitionChunks_selected _ r i hsel text ht] at hsplit
  refine ⟨headerChunks g ++ (rangeOrder (buildEnumMap doc)).flatMap
    (fun p => if filteredOut r p.2.TypeName then [] else enumChunks p.2) ++ pre, post, ?_⟩
  unfold runChunks
  rw [hsplit]
  simp [List.append_assoc]

theorem enumTypeDef_string (t : String) :
    EnumTypeDefTPL t "string" = "type " ++ t ++ " string" := by
  unfold EnumTypeDefTPL
  rw [String.append_assoc]
  rfl

/-- C12: in a run on the recording sink that reaches the final check, for
every enum of the map that passes the filter, with type name `T`, the sink
receives `type T string`, a newline, and then for each value `v` in order
`const T<v> T = "<v>"` and a newline, one directly after the other. -/
theorem generate_enum_fidelity (g : GoGenerator)
    (rangeOrder : GoMap enum → List (String × enum)) (doc : SchemaDocument)
    (out : List String) (hlegal : LegalOrder rangeOrder) :
    ∃ r st, resolveEntityDependencies doc g.entities (buildEnumMap doc) = some r ∧
      Generate g recordOutput rangeOrder doc out = some st ∧
      (completed st → ∀ k e, (buildEnumMap doc).get k = some e →
        filteredOut r e.TypeName = false →
        ∃ pre post, st.out = pre ++
          (["type " ++ e.TypeName ++ " string", "\n"] ++
            e.Values.flatMap (fun v =>
              ["const " ++ e.TypeName ++ v ++ " " ++ e.TypeName ++ " = \"" ++ v ++ "\"", "\n"]))
          ++ post) := by
  obtain ⟨r, st, hr, hg, h⟩ := generate_record g rangeOrder doc out
  refine ⟨r, st, hr, hg, ?_⟩
  intro hc k e hget hf
  obtain ⟨pre, post, hsplit⟩ := runChunks_enum g rangeOrder doc r hlegal k e hget hf
  refine ⟨out ++ pre, post, ?_⟩
  rw [(h hc).1, hsplit]
  simp [enumChunks, enumTypeDef_string, EnumDefConstTPL, List.append_assoc]

/-- C12, at a document with the enum `Status` of values `ACTIVE`, `DONE` and
nothing requested: the sink receives the type `EnumStatus` and the constants
`EnumStatusACTIVE = "ACTIVE"` and `EnumStatusDONE = "DONE"`. -/
theorem generate_enum_fidelity_witness :
    ∃ st pre post, Generate ⟨[], "pkg", true⟩ recordOutput id
        ⟨[⟨.Enum, "Status", [], [], [⟨"ACTIVE"⟩, ⟨"DONE"⟩]⟩]⟩ [] = some st ∧
      st.out = pre ++
        ["type EnumStatus string", "\n",
         "const EnumStatusACTIVE EnumStatus = \"ACTIVE\"", "\n",
         "const EnumStatusDONE EnumStatus = \"DONE\"", "\n"] ++ post := by
  obtain ⟨r, st, hr, hg, h⟩ := generate_enum_fidelity ⟨[], "pkg", true⟩ id
    ⟨[⟨.Enum, "Status", [], [], [⟨"ACTIVE"⟩, ⟨"DONE"⟩]⟩]⟩ [] (fun m => List.Perm.refl m)
  have hrv : resolveEntityDependencies ⟨[⟨.Enum, "Status", [], [], [⟨"ACTIVE"⟩, ⟨"DONE"⟩]⟩]⟩
      (GoGenerator.mk [] "pkg" true).entities
      (buildEnumMap ⟨[⟨.Enum, "Status", [], [], [⟨"ACTIVE"⟩, ⟨"DONE"⟩]⟩]⟩) = some [] := rfl
  have hgv : Generate ⟨[], "pkg", true⟩ recordOutput id
      ⟨[⟨.Enum, "Status", [], [], [⟨"ACTIVE"⟩, ⟨"DONE"⟩]⟩]⟩ [] =
      some { out := ["type EnumStatus string", "\n",
                     "const EnumStatusACTIVE EnumStatus = \"ACTIVE\"", "\n",
                     "const EnumStatusDONE EnumStatus = \"DONE\"", "\n", "\n"],
             declaredKeywords := ["EnumStatus", "EnumStatusACTIVE", "EnumStatusDONE"],
             err := none } := rfl
  rw [hrv] at hr
  injection hr with hr
  subst hr
  rw [hgv] at hg
  injection hg with hg
  subst hg
  obtain ⟨pre, post, hout⟩ := h (Or.inl rfl) "Status" ⟨"EnumStatus", ["ACTIVE", "DONE"]⟩
    rfl rfl
  exact ⟨_, pre, post, hgv, hout⟩

/-! ## The registry holds no identifier twice -/

theorem inv_comp {σ : Type} (I : GenState σ → Prop) (f g : GenState σ → GenState σ)
    (hf : StateInv I f) (hg : StateInv I g) : StateInv I (fun st => g (f st)) :=
  fun st h => hg (f st) (hf st h)

theorem inv_foldl {σ α : Type} (I : GenState σ → Prop) (body : α → GenState σ → GenState σ)
    (xs : List α) (h : ∀ x ∈ xs, StateInv I (body x)) :
    StateInv I (fun st => xs.foldl (fun st x => body x st) st) := by
  induction xs with
  | nil => exact fun _ h => h
  | cons x rest ih =>
    simp only [List.foldl_cons]
    exact inv_comp I (body x) (fun st => rest.foldl (fun st x => body x st) st)
      (h x (List.mem_cons_self _ _)) (ih (fun y hy => h y (List.mem_cons_of_mem _ hy)))

theorem inv_emitEnum {σ : Type} (I : GenState σ → Prop) (output : Outputer σ)
    (reqEntities : List String) (e : enum)
    (hw : ∀ s, StateInv I (write output s)) (hd : ∀ key, StateInv I (declare key)) :
    StateInv I (emitEnum output reqEntities e) := by
  intro st
  unfold emitEnum
  split
  · exact fun h => h
  · exact inv_comp I (fun st => write output "\n"
        (write output (EnumTypeDefTPL e.TypeName "string") (declare e.TypeName st)))
      (fun st => e.Values.foldl (fun st v => emitEnumConst output e v st) st)
      (inv_comp I _ _ (inv_comp I _ _ (hd _) (hw _)) (hw _))
      (inv_foldl I _ _ (fun v _ =>
        inv_comp I (fun st => write output (EnumDefConstTPL e.TypeName v e.TypeName v)
            (declare (e.TypeName ++ v) st)) (write output "\n")
          (inv_comp I _ _ (hd _) (hw _)) (hw _))) st

theorem inv_emitDefinition {σ : Type} (I : GenState σ → Prop) (output : Outputer σ)
    (enumMap : GoMap enum) (reqEntities : List String) (i : Definition)
    (hw : ∀ s, StateInv I (writeln output s)) (hd : ∀ key, StateInv I (declare key)) :
    StateInv I (emitDefinition output enumMap reqEntities i) := by
  intro st
  unfold emitDefinition
  split
  · exact fun h => h
  · split
    · exact fun h => h
    · cases structText enumMap i with
      | none => exact hw "" st
      | some text =>
        exact inv_comp I (fun st => writeln output text (declare i.Name st))
          (writeln output "") (inv_comp I _ _ (hd _) (hw _)) (hw _) st

theorem inv_beforeCheck {σ : Type} (I : GenState σ → Prop) (g : GoGenerator)
    (output : Outputer σ) (rangeOrder : GoMap enum → List (String × enum))
    (doc : SchemaDocument) (r : List String) (out : σ)
    (hw : ∀ s, StateInv I (write output s)) (hwl : ∀ s, StateInv I (writeln output s))
    (hd : ∀ key, StateInv I (declare key))
    (h0 : I { out := out, declaredKeywords := [], err := none }) :
    I (beforeCheck g output rangeOrder doc r out) := by
  unfold beforeCheck
  apply inv_foldl I (fun i st => emitDefinition output (buildEnumMap doc) r i st)
    doc.Definitions (fun i _ => inv_emitDefinition I output _ r i hwl hd)
  apply inv_foldl I (fun (p : String × enum) st => emitEnum output r p.2 st)
    (rangeOrder (buildEnumMap doc)) (fun p _ => inv_emitEnum I output r p.2 hw hd)
  unfold writeHeader
  split
  · exact hwl _ _ h0
  · exact h0

theorem nodup_declare {σ : Type} (key : String) :
    StateInv (fun st : GenState σ => st.declaredKeywords.Nodup) (declare key) := by
  intro st h
  unfold declare keywordMap.Set
  cases he : st.err with
  | some e => simpa [he] using h
  | none =>
    by_cases hk : key ∈ st.declaredKeywords
    · simpa [he, hk] using h
    · simp only [he, hk, if_false]
      exact List.Nodup.append h (List.nodup_singleton key)
        (by
          intro a ha hb
          rw [List.mem_singleton] at hb
          exact hk (hb ▸ ha))

/-- The registry of a run never holds an identifier twice. -/
theorem generate_declared_nodup {σ : Type} (g : GoGenerator) (output : Outputer σ)
    (rangeOrder : GoMap enum → List (String × enum)) (doc : SchemaDocument) (out : σ)
    (st : GenState σ) (h : Generate g output rangeOrder doc out = some st) :
    st.declaredKeywords.Nodup := by
  obtain ⟨r, hr⟩ := resolveEntityDependencies_returns doc g.entities (buildEnumMap doc)
  rw [Generate_eq g output rangeOrder doc out r hr] at h
  injection h with h
  rw [← h, checkMissing_declared]
  apply inv_beforeCheck (fun st : GenState σ => st.declaredKeywords.Nodup)
  · intro s st h
    simp only [write_declared]
    exact h
  · intro s st h
    simp only [writeln_declared]
    exact h
  · exact fun key => nodup_declare key
  · exact List.nodup_nil

theorem runNames_definition (rangeOrder : GoMap enum → List (String × enum))
    (doc : SchemaDocument) (r : List String) (i : Definition) (hi : i ∈ doc.Definitions)
    (hsel : selected r i) : i.Name ∈ runNames rangeOrder doc r := by
  obtain ⟨text, ht⟩ := structText_isSome (buildEnumMap doc) i hsel.2.2.2
  have hf := (filteredOut_eq_false r i.Name).2 hsel.1
  unfold runNames
  apply List.mem_append_right
  rw [List.mem_flatMap]
  refine ⟨i, hi, ?_⟩
  unfold definitionNames
  simp [hf, hsel.2.1, hsel.2.2.1, ht]

theorem structText_union (enumMap : GoMap enum) (d : Definition)
    (hk : d.Kind = DefinitionKind.Union) :
    structText enumMap d =
      some ("type " ++ d.Name ++ " struct \x7b\n" ++
        String.intercalate "\n" ("  TypeName string `json:\"__typeName\"`" :: d.Types) ++
        "\n\x7d") := by
  have hf : FieldTPL "TypeName" "string" "__typeName" =
      "  TypeName string `json:\"__typeName\"`" := by decide
  unfold structText
  simp [hk, hf, StructTPL]

theorem structText_object (enumMap : GoMap enum) (d : Definition)
    (hk : d.Kind = DefinitionKind.Object ∨ d.Kind = DefinitionKind.InputObject) :
    structText enumMap d =
      some ("type " ++ d.Name ++ " struct \x7b\n" ++
        String.intercalate "\n" (d.Fields.map (fieldLine enumMap)) ++ "\n\x7d") := by
  unfold structText
  rcases hk with hk | hk <;> simp [hk, StructTPL]

theorem titleRunes_of_no_separator (prev : Char) (l : List Char)
    (hprev : isSeparator prev = false) (hl : ∀ x ∈ l, isSeparator x = false) :
    titleRunes prev l = l := by
  induction l generalizing prev with
  | nil => rfl
  | cons a rest ih =>
    unfold titleRunes
    simp only [hprev, Bool.false_eq_true, if_false]
    rw [ih a (hl a (List.mem_cons_self _ _)) (fun x hx => hl x (List.mem_cons_of_mem _ hx))]

theorem isSeparator_of_nameRune (c : Char) (h : isNameRune c = true) :
    isSeparator c = false := by
  unfold isNameRune at h
  unfold isSeparator
  split
  · rw [h]
    rfl
  · rfl

theorem title_upper_first (c : Char) (cs : List Char)
    (h : ∀ x ∈ c :: cs, isNameRune x = true) :
    Title ⟨c :: cs⟩ = ⟨c.toUpper :: cs⟩ := by
  have hsp : isSeparator ' ' = true := by decide
  unfold Title titleRunes
  simp only [hsp, if_true]
  rw [titleRunes_of_no_separator c cs
    (isSeparator_of_nameRune c (h c (List.mem_cons_self _ _)))
    (fun x hx => isSeparator_of_nameRune x (h x (List.mem_cons_of_mem _ hx)))]

theorem title_upper_first_letter (c : Char) (cs : List Char)
    (h : ∀ x ∈ c :: cs, isNameRune x = true) (hc : c.isAlpha = true) :
    Title ⟨c :: cs⟩ = ⟨upperFirstLetter (c :: cs)⟩ := by
  rw [title_upper_first c cs h]
  simp [upperFirstLetter, hc]

theorem title_underscore_first (cs : List Char) (h : ∀ x ∈ cs, isNameRune x = true) :
    Title ⟨'_' :: cs⟩ = ⟨'_' :: cs⟩ := by
  have h2 : ∀ x ∈ '_' :: cs, isNameRune x = true := by
    intro x hx
    rcases List.mem_cons.1 hx with hx | hx
    · rw [hx]
      decide
    · exact h x hx
  rw [title_upper_first '_' cs h2]
  rfl

/-- C14: in a run on the recording sink that reaches the final check, for
every Union definition `U` that passes the filter and is not a root operation
type, the sink receives one struct declaration in the name of `U`, the name
registered once, whose body is the discriminant line tagged `__typeName`
followed by one line per member type name in schema order, and then the blank
separator line. -/
theorem generate_union_struct (g : GoGenerator)
    (rangeOrder : GoMap enum → List (String × enum)) (doc : SchemaDocument)
    (out : List String) :
    ∃ r st, resolveEntityDependencies doc g.entities (buildEnumMap doc) = some r ∧
      Generate g recordOutput rangeOrder doc out = some st ∧
      (completed st → ∀ d ∈ doc.Definitions, d.Kind = DefinitionKind.Union → selected r d →
        (∃ pre post, st.out = pre ++
          [("type " ++ d.Name ++ " struct \x7b\n" ++
            String.intercalate "\n" ("  TypeName string `json:\"__typeName\"`" :: d.Types) ++
            "\n\x7d") ++ "\n", "\n"] ++ post) ∧
        st.declaredKeywords.count d.Name = 1) := by
  obtain ⟨r, st, hr, hg, h⟩ := generate_record g rangeOrder doc out
  refine ⟨r, st, hr, hg, ?_⟩
  intro hc d hd hk hsel
  obtain ⟨hout, hnames⟩ := h hc
  constructor
  · obtain ⟨pre, post, hsplit⟩ := runChunks_definition g rangeOrder doc r d hd hsel _
      (structText_union (buildEnumMap doc) d hk)
    exact ⟨out ++ pre, post, by rw [hout, hsplit]; simp [List.append_assoc]⟩
  · apply List.count_eq_one_of_mem (generate_declared_nodup g recordOutput rangeOrder doc out st hg)
    rw [hnames]
    exact runNames_definition rangeOrder doc r d hd hsel

/-- C14, at a document with the objects `A`, `B` and the union `Result` of
`A` and `B`, with `Result` requested: the struct `Result` holds the line tagged
`__typeName` and the slots `A` and `B`. -/
theorem generate_union_struct_witness :
    ∃ st pre post, Generate ⟨["Result"], "pkg", true⟩ recordOutput id
        ⟨[⟨.Object, "A", [], [], []⟩, ⟨.Object, "B", [], [], []⟩,
          ⟨.Union, "Result", [], ["A", "B"], []⟩]⟩ [] = some st ∧
      st.out = pre ++
        ["type Result struct \x7b\n  TypeName string `json:\"__typeName\"`\nA\nB\n\x7d\n", "\n"]
        ++ post := by
  obtain ⟨r, st, hr, hg, h⟩ := generate_union_struct ⟨["Result"], "pkg", true⟩ id
    ⟨[⟨.Object, "A", [], [], []⟩, ⟨.Object, "B", [], [], []⟩,
      ⟨.Union, "Result", [], ["A", "B"], []⟩]⟩ []
  have hrv : resolveEntityDependencies
      ⟨[⟨.Object, "A", [], [], []⟩, ⟨.Object, "B", [], [], []⟩,
        ⟨.Union, "Result", [], ["A", "B"], []⟩]⟩
      (GoGenerator.mk ["Result"] "pkg" true).entities
      (buildEnumMap ⟨[⟨.Object, "A", [], [], []⟩, ⟨.Object, "B", [], [], []⟩,
        ⟨.Union, "Result", [], ["A", "B"], []⟩]⟩) = some ["Result", "A", "B"] := rfl
  have hgv : Generate ⟨["Result"], "pkg", true⟩ recordOutput id
      ⟨[⟨.Object, "A", [], [], []⟩, ⟨.Object, "B", [], [], []⟩,
        ⟨.Union, "Result", [], ["A", "B"], []⟩]⟩ [] =
      some { out := ["type A struct \x7b\n\n\x7d\n", "\n", "type B struct \x7b\n\n\x7d\n", "\n",
                     "type Result struct \x7b\n  TypeName string `json:\"__typeName\"`\nA\nB\n\x7d\n",
                     "\n"],
             declaredKeywords := ["A", "B", "Result"], err := none } := rfl
  rw [hrv] at hr
  injection hr with hr
  subst hr
  rw [hgv] at hg
  injection hg with hg
  subst hg
  have hsel : selected ["Result", "A", "B"] ⟨.Union, "Result", [], ["A", "B"], []⟩ := by
    unfold selected
    decide
  obtain ⟨⟨pre, post, hout⟩, _⟩ := h (Or.inl rfl) ⟨.Union, "Result", [], ["A", "B"], []⟩
    (by simp) rfl hsel
  exact ⟨_, pre, post, hgv, hout⟩

/-- C15, as stated, fails: the field `_id` of the object `T` is written under
the name `_id`, in which no letter is upper-cased, where the name with its
first letter upper-cased is `_Id`. -/
theorem object_field_underscore_counterexample :
    Generate ⟨[], "pkg", true⟩ recordOutput id
        ⟨[⟨.Object, "T", [⟨"_id", .mk "ID" none true⟩], [], []⟩]⟩ [] =
      some { out := ["type T struct \x7b\n  _id string `json:\"_id\"`\n\x7d\n", "\n"],
             declaredKeywords := ["T"], err := none } ∧
    Title "_id" = "_id" ∧
    String.mk (upperFirstLetter "_id".data) = "_Id" := by
  refine ⟨rfl, ?_, ?_⟩ <;> decide

/-- C15, amended: in a run on the recording sink that reaches the final check,
for every Object or InputObject definition `D` that passes the filter and is
not a root operation type, the sink receives `type <D.Name> struct {`, one line
per field of `D` in schema order joined by newlines, and `}`, the name
registered once; the line of a field that is not a list is two blanks, the
re-cased name, the resolved type and the tag with the original name; and the
re-cased name of a name made of ASCII letters, digits and underscores is the
name with its first character upper-cased: the name with its first letter
upper-cased when it begins with a letter, the name itself when it begins with
an underscore. -/
theorem generate_object_struct (g : GoGenerator)
    (rangeOrder : GoMap enum → List (String × enum)) (doc : SchemaDocument)
    (out : List String) :
    (∃ r st, resolveEntityDependencies doc g.entities (buildEnumMap doc) = some r ∧
      Generate g recordOutput rangeOrder doc out = some st ∧
      (completed st → ∀ d ∈ doc.Definitions,
        (d.Kind = DefinitionKind.Object ∨ d.Kind = DefinitionKind.InputObject) →
        selected r d →
        (∃ pre post, st.out = pre ++
          [("type " ++ d.Name ++ " struct \x7b\n" ++
            String.intercalate "\n" (d.Fields.map (fieldLine (buildEnumMap doc))) ++
            "\n\x7d") ++ "\n", "\n"] ++ post) ∧
        st.declaredKeywords.count d.Name = 1)) ∧
    (∀ f : FieldDefinition, f.Type_.Elem = none →
      fieldLine (buildEnumMap doc) f =
        "  " ++ Title f.Name ++ " " ++
          resolveType f.Type_.Name (buildEnumMap doc) f.Type_.NonNull ++
          " `json:\"" ++ f.Name ++ "\"`") ∧
    (∀ c cs, (∀ x ∈ c :: cs, isNameRune x = true) → Title ⟨c :: cs⟩ = ⟨c.toUpper :: cs⟩) ∧
    (∀ c cs, (∀ x ∈ c :: cs, isNameRune x = true) → c.isAlpha = true →
      Title ⟨c :: cs⟩ = ⟨upperFirstLetter (c :: cs)⟩) ∧
    (∀ cs, (∀ x ∈ cs, isNameRune x = true) → Title ⟨'_' :: cs⟩ = ⟨'_' :: cs⟩) ∧
    Title "firstName" = "FirstName" ∧ Title "lastname" = "Lastname" ∧ Title "id" = "Id" := by
  refine ⟨?_, ?_, title_upper_first, title_upper_first_letter, title_underscore_first,
    by decide, by decide, by decide⟩
  · obtain ⟨r, st, hr, hg, h⟩ := generate_record g rangeOrder doc out
    refine ⟨r, st, hr, hg, ?_⟩
    intro hc d hd hk hsel
    obtain ⟨hout, hnames⟩ := h hc
    constructor
    · obtain ⟨pre, post, hsplit⟩ := runChunks_definition g rangeOrder doc r d hd hsel _
        (structText_object (buildEnumMap doc) d hk)
      exact ⟨out ++ pre, post, by rw [hout, hsplit]; simp [List.append_assoc]⟩
    · apply List.count_eq_one_of_mem
        (generate_declared_nodup g recordOutput rangeOrder doc out st hg)
      rw [hnames]
      exact runNames_definition rangeOrder doc r d hd hsel
  · intro f hf
    unfold fieldLine
    rw [hf]
    rfl

/-- C15, amended, at a document with the object `Person` of fields
`firstName`, `lastname` and a nullable `age`, with `Person` requested. -/
theorem generate_object_struct_witness :
    ∃ st pre post, Generate ⟨["Person"], "pkg", true⟩ recordOutput id
        ⟨[⟨.Object, "Person", [⟨"firstName", .mk "String" none true⟩,
            ⟨"lastname", .mk "String" none true⟩, ⟨"age", .mk "Int" none false⟩], [], []⟩]⟩ [] =
        some st ∧
      st.out = pre ++
        ["type Person struct \x7b\n  FirstName string `json:\"firstName\"`\n  Lastname string `json:\"lastname\"`\n  Age *int64 `json:\"age\"`\n\x7d\n",
         "\n"] ++ post := by
  obtain ⟨r, st, hr, hg, h⟩ := (generate_object_struct ⟨["Person"], "pkg", true⟩ id
    ⟨[⟨.Object, "Person", [⟨"firstName", .mk "String" none true⟩,
        ⟨"lastname", .mk "String" none true⟩, ⟨"age", .mk "Int" none false⟩], [], []⟩]⟩ []).1
  have hrv : resolveEntityDependencies
      ⟨[⟨.Object, "Person", [⟨"firstName", .mk "String" none true⟩,
          ⟨"lastname", .mk "String" none true⟩, ⟨"age", .mk "Int" none false⟩], [], []⟩]⟩
      (GoGenerator.mk ["Person"] "pkg" true).entities
      (buildEnumMap ⟨[⟨.Object, "Person", [⟨"firstName", .mk "String" none true⟩,
          ⟨"lastname", .mk "String" none true⟩, ⟨"age", .mk "Int" none false⟩], [], []⟩]⟩) =
      some ["Person", "String", "String", "Int"] := rfl
  have hgv : Generate ⟨["Person"], "pkg", true⟩ recordOutput id
      ⟨[⟨.Object, "Person", [⟨"firstName", .mk "String" none true⟩,
          ⟨"lastname", .mk "String" none true⟩, ⟨"age", .mk "Int" none false⟩], [], []⟩]⟩ [] =
      some { out := ["type Person struct \x7b\n  FirstName string `json:\"firstName\"`\n  Lastname string `json:\"lastname\"`\n  Age *int64 `json:\"age\"`\n\x7d\n",
                     "\n"],
             declaredKeywords := ["Person"], err := none } := rfl
  rw [hrv] at hr
  injection hr with hr
  subst hr
  rw [hgv] at hg
  injection hg with hg
  subst hg
  have hsel : selected ["Person", "String", "String", "Int"]
      ⟨.Object, "Person", [⟨"firstName", .mk "String" none true⟩,
        ⟨"lastname", .mk "String" none true⟩, ⟨"age", .mk "Int" none false⟩], [], []⟩ := by
    unfold selected
    decide
  obtain ⟨⟨pre, post, hout⟩, _⟩ := h (Or.inl rfl)
    ⟨.Object, "Person", [⟨"firstName", .mk "String" none true⟩,
      ⟨"lastname", .mk "String" none true⟩, ⟨"age", .mk "Int" none false⟩], [], []⟩
    (by simp) (Or.inl rfl) hsel
  exact ⟨_, pre, post, hgv, hout⟩

/-! ## Nothing requested -/

theorem resolveEntityDependencies_nil (doc : SchemaDocument) (enumMap : GoMap enum) :
    resolveEntityDependencies doc [] enumMap = some [] := by
  simp [resolveEntityDependencies, resolveLoop, resolvePass]

theorem filteredOut_nil (name : String) : filteredOut [] name = false := by
  simp [filteredOut]

theorem definitionNames_nil (enumMap : GoMap enum) (defs : List Definition) :
    defs.flatMap (definitionNames enumMap []) = (defs.filter isDeclaredStruct).map (fun i => i.Name) := by
  induction defs with
  | nil => rfl
  | cons i rest ih =>
    rw [List.flatMap_cons, ih]
    unfold definitionNames isDeclaredStruct structText
    by_cases hq : i.Name = "Query"
    · simp [filteredOut_nil, hq, List.filter_cons]
    · by_cases hm : i.Name = "Mutation"
      · simp [filteredOut_nil, hm, List.filter_cons]
      · by_cases h1 : i.Kind = DefinitionKind.Object
        · simp [filteredOut_nil, hq, hm, h1, List.filter_cons]
        · by_cases h2 : i.Kind = DefinitionKind.InputObject
          · simp [filteredOut_nil, hq, hm, h2, List.filter_cons]
          · by_cases h3 : i.Kind = DefinitionKind.Union
            · simp [filteredOut_nil, hq, hm, h3, List.filter_cons]
            · simp [filteredOut_nil, hq, hm, h1, h2, h3, List.filter_cons]

theorem runNames_nil (rangeOrder : GoMap enum → List (String × enum)) (doc : SchemaDocument) :
    runNames rangeOrder doc [] =
      (rangeOrder (buildEnumMap doc)).flatMap (fun p => enumNames p.2) ++
        (doc.Definitions.filter isDeclaredStruct).map (fun i => i.Name) := by
  unfold runNames
  rw [definitionNames_nil]
  simp [filteredOut_nil]

theorem runChunks_nil (g : GoGenerator) (rangeOrder : GoMap enum → List (String × enum))
    (doc : SchemaDocument) :
    runChunks g rangeOrder doc [] =
      headerChunks g ++ (rangeOrder (buildEnumMap doc)).flatMap (fun p => enumChunks p.2) ++
        doc.Definitions.flatMap (definitionChunks (buildEnumMap doc) []) := by
  unfold runChunks
  simp [filteredOut_nil]

/-- C16: with nothing requested, in a run that ends in `nil`, every Enum
definition is declared under `"Enum" + name` and every Object, InputObject or
Union definition not named `Query` or `Mutation` is declared; the registry is
the enum identifiers followed by the names of those definitions in document
order, and the recording sink receives, after the header and the enums, the
lines of the definitions in document order. -/
theorem generate_unfiltered_emits_all {σ : Type} (g : GoGenerator) (output : Outputer σ)
    (rangeOrder : GoMap enum → List (String × enum)) (doc : SchemaDocument) (out : σ)
    (hempty : g.entities = []) (hlegal : LegalOrder rangeOrder) :
    (∃ st, Generate g output rangeOrder doc out = some st ∧
      (st.err = none →
        (∀ d ∈ doc.Definitions, d.Kind = DefinitionKind.Enum →
          "Enum" ++ d.Name ∈ st.declaredKeywords) ∧
        (∀ d ∈ doc.Definitions,
          (d.Kind = DefinitionKind.Object ∨ d.Kind = DefinitionKind.InputObject ∨
            d.Kind = DefinitionKind.Union) →
          d.Name ≠ "Query" → d.Name ≠ "Mutation" → d.Name ∈ st.declaredKeywords) ∧
        st.declaredKeywords =
          (rangeOrder (buildEnumMap doc)).flatMap (fun p => enumNames p.2) ++
            (doc.Definitions.filter isDeclaredStruct).map (fun i => i.Name))) ∧
    (∀ out0, ∃ st, Generate g recordOutput rangeOrder doc out0 = some st ∧
      (st.err = none →
        st.out = out0 ++ (headerChunks g ++
          (rangeOrder (buildEnumMap doc)).flatMap (fun p => enumChunks p.2) ++
          doc.Definitions.flatMap (definitionChunks (buildEnumMap doc) [])))) := by
  constructor
  · obtain ⟨r, st, hr, hg, h⟩ := generate_names g output rangeOrder doc out
    rw [hempty, resolveEntityDependencies_nil] at hr
    injection hr with hr
    subst hr
    refine ⟨st, hg, ?_⟩
    intro herr
    have hnames := h (Or.inl herr)
    rw [runNames_nil] at hnames
    refine ⟨?_, ?_, hnames⟩
    · intro d hd hk
      obtain ⟨e, he⟩ := (buildEnumMap_get_isSome doc d.Name).2 ⟨d, hd, hk, rfl⟩
      have hmem : (d.Name, e) ∈ rangeOrder (buildEnumMap doc) :=
        (hlegal (buildEnumMap doc)).mem_iff.2 (GoMap.mem_of_get _ _ e he)
      rw [hnames, ← buildEnumMap_typeName doc d.Name e he]
      apply List.mem_append_left
      rw [List.mem_flatMap]
      exact ⟨(d.Name, e), hmem, by simp [enumNames]⟩
    · intro d hd hk hq hm
      rw [hnames]
      apply List.mem_append_right
      rw [List.mem_map]
      refine ⟨d, List.mem_filter.2 ⟨hd, ?_⟩, rfl⟩
      unfold isDeclaredStruct
      rcases hk with hk | hk | hk <;> simp [hk, hq, hm]
  · intro out0
    obtain ⟨r, st, hr, hg, h⟩ := generate_record g rangeOrder doc out0
    rw [hempty, resolveEntityDependencies_nil] at hr
    injection hr with hr
    subst hr
    refine ⟨st, hg, ?_⟩
    intro herr
    rw [(h (Or.inl herr)).1, runChunks_nil]

/-- C16, at a document with an enum, the objects `B`, `Query`, `A` and the
union `U`, nothing requested: the registry holds the enum identifiers and then
`B`, `A`, `U` in this order. -/
theorem generate_unfiltered_emits_all_witness :
    ∃ st, Generate ⟨[], "pkg", true⟩ bufferOutput id
        ⟨[⟨.Object, "B", [], [], []⟩, ⟨.Enum, "Color", [], [], [⟨"RED"⟩]⟩,
          ⟨.Object, "Query", [], [], []⟩, ⟨.Object, "A", [], [], []⟩,
          ⟨.Union, "U", [], ["A", "B"], []⟩]⟩ "" = some st ∧
      st.declaredKeywords = ["EnumColor", "EnumColorRED", "B", "A", "U"] := by
  obtain ⟨st, hg, h⟩ := (generate_unfiltered_emits_all ⟨[], "pkg", true⟩ bufferOutput id
    ⟨[⟨.Object, "B", [], [], []⟩, ⟨.Enum, "Color", [], [], [⟨"RED"⟩]⟩,
      ⟨.Object, "Query", [], [], []⟩, ⟨.Object, "A", [], [], []⟩,
      ⟨.Union, "U", [], ["A", "B"], []⟩]⟩ "" rfl (fun m => List.Perm.refl m)).1
  have hgv : Generate ⟨[], "pkg", true⟩ bufferOutput id
      ⟨[⟨.Object, "B", [], [], []⟩, ⟨.Enum, "Color", [], [], [⟨"RED"⟩]⟩,
        ⟨.Object, "Query", [], [], []⟩, ⟨.Object, "A", [], [], []⟩,
        ⟨.Union, "U", [], ["A", "B"], []⟩]⟩ "" =
      some { out := "type EnumColor string\nconst EnumColorRED EnumColor = \"RED\"\ntype B struct \x7b\n\n\x7d\n\n\ntype A struct \x7b\n\n\x7d\n\ntype U struct \x7b\n  TypeName string `json:\"__typeName\"`\nA\nB\n\x7d\n\n",
             declaredKeywords := ["EnumColor", "EnumColorRED", "B", "A", "U"],
             err := none } := rfl
  rw [hgv] at hg
  injection hg with hg
  subst hg
  exact ⟨_, hgv, (h rfl).2.2⟩

/-! ## What the sink receives -/

theorem declare_out {σ : Type} (key : String) (st : GenState σ) :
    (declare key st).out = st.out := by
  unfold declare
  cases st.err with
  | some e => rfl
  | none =>
    simp only
    cases st.declaredKeywords.Set key <;> rfl

theorem keeps_out_declare (P : String → Prop) (key : String) :
    Keeps (fun st : GenState (List String) => st.out) P (declare key) := by
  intro st h
  simp only [declare_out]
  exact h

theorem keeps_out_write (P : String → Prop) (s : String) (hs : P s) :
    Keeps (fun st : GenState (List String) => st.out) P (write recordOutput s) := by
  intro st h k hk
  cases he : st.err with
  | some e =>
    have : write recordOutput s st = st := by
      unfold write
      simp [he]
    rw [this] at hk
    exact h k hk
  | none =>
    rw [write_record s st he] at hk
    simp only [List.mem_append, List.mem_singleton] at hk
    rcases hk with hk | hk
    · exact h k hk
    · rw [hk]
      exact hs

theorem keeps_out_writeln (P : String → Prop) (s : String) (hs : P (s ++ "\n")) :
    Keeps (fun st : GenState (List String) => st.out) P (writeln recordOutput s) := by
  intro st h k hk
  cases he : st.err with
  | some e =>
    have : writeln recordOutput s st = st := by
      unfold writeln
      simp [he]
    rw [this] at hk
    exact h k hk
  | none =>
    rw [writeln_record s st he] at hk
    simp only [List.mem_append, List.mem_singleton] at hk
    rcases hk with hk | hk
    · exact h k hk
    · rw [hk]
      exact hs

theorem keeps_out_emitEnum (P : String → Prop) (reqEntities : List String) (e : enum)
    (hnl : P "\n") (htype : P (EnumTypeDefTPL e.TypeName "string"))
    (hvals : ∀ v ∈ e.Values, P (EnumDefConstTPL e.TypeName v e.TypeName v)) :
    Keeps (fun st : GenState (List String) => st.out) P
      (emitEnum recordOutput reqEntities e) := by
  intro st
  unfold emitEnum
  split
  · exact keeps_id _ P st
  · exact keeps_comp _ P (fun st => write recordOutput "\n"
        (write recordOutput (EnumTypeDefTPL e.TypeName "string") (declare e.TypeName st)))
      (fun st => e.Values.foldl (fun st v => emitEnumConst recordOutput e v st) st)
      (keeps_comp _ P _ _ (keeps_comp _ P _ _ (keeps_out_declare P _)
        (keeps_out_write P _ htype)) (keeps_out_write P _ hnl))
      (keeps_foldl _ P _ _ (fun v hv =>
        keeps_comp _ P (fun st => write recordOutput (EnumDefConstTPL e.TypeName v e.TypeName v)
            (declare (e.TypeName ++ v) st)) (write recordOutput "\n")
          (keeps_comp _ P _ _ (keeps_out_declare P _) (keeps_out_write P _ (hvals v hv)))
          (keeps_out_write P _ hnl))) st

theorem keeps_out_emitDefinition (P : String → Prop) (enumMap : GoMap enum)
    (reqEntities : List String) (i : Definition) (hnl : P "\n")
    (htext : i.Name ≠ "Query" → i.Name ≠ "Mutation" →
      ∀ text, structText enumMap i = some text → P (text ++ "\n")) :
    Keeps (fun st : GenState (List String) => st.out) P
      (emitDefinition recordOutput enumMap reqEntities i) := by
  intro st
  unfold emitDefinition
  split
  · exact keeps_id _ P st
  · split
    · exact keeps_id _ P st
    · rename_i hroot
      have hq : i.Name ≠ "Query" := by
        intro e
        simp [e] at hroot
      have hm : i.Name ≠ "Mutation" := by
        intro e
        simp [e] at hroot
      cases ht : structText enumMap i with
      | none => exact keeps_out_writeln P "" hnl st
      | some text =>
        exact keeps_comp _ P (fun st => writeln recordOutput text (declare i.Name st))
          (writeln recordOutput "")
          (keeps_comp _ P _ _ (keeps_out_declare P _)
            (keeps_out_writeln P _ (htext hq hm text ht)))
          (keeps_out_writeln P "" hnl) st

/-- On the recording sink, with a legal order, every line received in a run
has one of the origins of `ChunkOrigin`, or was in the record before the run. -/
theorem generate_chunk_origin (g : GoGenerator)
    (rangeOrder : GoMap enum → List (String × enum)) (doc : SchemaDocument)
    (out0 : List String) (hlegal : LegalOrder rangeOrder) :
    ∃ st, Generate g recordOutput rangeOrder doc out0 = some st ∧
      ∀ c ∈ st.out, c ∈ out0 ∨ ChunkOrigin g doc c := by
  obtain ⟨r, hr⟩ := resolveEntityDependencies_returns doc g.entities (buildEnumMap doc)
  refine ⟨_, Generate_eq g recordOutput rangeOrder doc out0 r hr, ?_⟩
  rw [checkMissing_out]
  have hnl : (fun c => c ∈ out0 ∨ ChunkOrigin g doc c) "\n" := Or.inr (Or.inr (Or.inl rfl))
  unfold beforeCheck
  apply keeps_foldl (fun st : GenState (List String) => st.out)
    (fun c => c ∈ out0 ∨ ChunkOrigin g doc c)
    (fun i st => emitDefinition recordOutput (buildEnumMap doc) r i st) doc.Definitions
  · intro i hi
    exact keeps_out_emitDefinition (fun c => c ∈ out0 ∨ ChunkOrigin g doc c)
      (buildEnumMap doc) r i hnl
      (fun hq hm text ht => Or.inr (Or.inr (Or.inr (Or.inr ⟨i, hi, hq, hm, text, ht, rfl⟩))))
  apply keeps_foldl (fun st : GenState (List String) => st.out)
    (fun c => c ∈ out0 ∨ ChunkOrigin g doc c)
    (fun (p : String × enum) st => emitEnum recordOutput r p.2 st)
    (rangeOrder (buildEnumMap doc))
  · intro p hp
    have hmem : (p.1, p.2) ∈ buildEnumMap doc := (hlegal (buildEnumMap doc)).mem_iff.1 hp
    have hget := GoMap.get_of_mem_nodup _ p.1 p.2 (buildEnumMap_nodup doc) hmem
    exact keeps_out_emitEnum (fun c => c ∈ out0 ∨ ChunkOrigin g doc c) r p.2 hnl
      (Or.inr (Or.inr (Or.inr (Or.inl ⟨p.1, p.2, hget, Or.inl rfl⟩))))
      (fun v hv => Or.inr (Or.inr (Or.inr (Or.inl ⟨p.1, p.2, hget, Or.inr ⟨v, hv, rfl⟩⟩))))
  unfold writeHeader
  split
  · exact keeps_out_writeln (fun c => c ∈ out0 ∨ ChunkOrigin g doc c) _
      (Or.inr (Or.inl rfl)) _ (fun c hc => Or.inl hc)
  · intro c hc
    exact Or.inl hc

theorem emitDefinition_root {σ : Type} (output : Outputer σ) (enumMap : GoMap enum)
    (reqEntities : List String) (i : Definition) (st : GenState σ)
    (h : i.Name = "Query" ∨ i.Name = "Mutation") :
    emitDefinition output enumMap reqEntities i st = st := by
  unfold emitDefinition
  rcases h with h | h <;> simp [h]

/-- C13: `Generate` never writes a struct declaration for a definition named
`Query` or `Mutation`, whatever is requested: the body of the second loop
leaves the run state as it is for such a definition, neither name is ever in
the registry, and every line the recording sink receives is the header, a
separator, a line of an enum, or the struct of a definition with another
name. -/
theorem generate_never_emits_root {σ : Type} (g : GoGenerator) (output : Outputer σ)
    (rangeOrder : GoMap enum → List (String × enum)) (doc : SchemaDocument) (out : σ)
    (hlegal : LegalOrder rangeOrder) :
    (∀ (enumMap : GoMap enum) (reqEntities : List String) (i : Definition)
      (st : GenState σ), (i.Name = "Query" ∨ i.Name = "Mutation") →
      emitDefinition output enumMap reqEntities i st = st) ∧
    (∃ st, Generate g output rangeOrder doc out = some st ∧
      "Query" ∉ st.declaredKeywords ∧ "Mutation" ∉ st.declaredKeywords) ∧
    (∃ st, Generate g recordOutput rangeOrder doc [] = some st ∧
      ∀ c ∈ st.out, ChunkOrigin g doc c) := by
  refine ⟨?_, ?_, ?_⟩
  · intro enumMap reqEntities i st h
    exact emitDefinition_root output enumMap reqEntities i st h
  · obtain ⟨st, hst, hor⟩ := generate_declared_origin g output rangeOrder doc out hlegal
    exact ⟨st, hst, fun h => (origin_not_root doc _ (hor _ h)).1 rfl,
      fun h => (origin_not_root doc _ (hor _ h)).2 rfl⟩
  · obtain ⟨st, hst, h⟩ := generate_chunk_origin g rangeOrder doc [] hlegal
    refine ⟨st, hst, fun c hc => ?_⟩
    rcases h c hc with h | h
    · simp at h
    · exact h

/-- C13, at a document with the objects `Query`, `Mutation` and `A`, all three
requested: only the struct `A` is written. -/
theorem generate_never_emits_root_witness :
    Generate ⟨["Query", "Mutation", "A"], "pkg", true⟩ recordOutput id
        ⟨[⟨.Object, "Query", [⟨"a", .mk "A" none true⟩], [], []⟩,
          ⟨.Object, "Mutation", [], [], []⟩, ⟨.Object, "A", [], [], []⟩]⟩ [] =
      some { out := ["type A struct \x7b\n\n\x7d\n", "\n"], declaredKeywords := ["A"],
             err := some (.missingEntities ["Query", "Mutation"]) } ∧
    ∃ st, Generate ⟨["Query", "Mutation", "A"], "pkg", true⟩ recordOutput id
        ⟨[⟨.Object, "Query", [⟨"a", .mk "A" none true⟩], [], []⟩,
          ⟨.Object, "Mutation", [], [], []⟩, ⟨.Object, "A", [], [], []⟩]⟩ [] = some st ∧
      "Query" ∉ st.declaredKeywords ∧ "Mutation" ∉ st.declaredKeywords :=
  ⟨rfl, (generate_never_emits_root ⟨["Query", "Mutation", "A"], "pkg", true⟩ recordOutput id
    ⟨[⟨.Object, "Query", [⟨"a", .mk "A" none true⟩], [], []⟩,
      ⟨.Object, "Mutation", [], [], []⟩, ⟨.Object, "A", [], [], []⟩]⟩ []
    (fun m => List.Perm.refl m)).2.1⟩

/-- C17: the code at a document with the scalar `Date` before the object `A`,
nothing requested: the loop over the definitions writes its blank separator
line for `Date` too, so the text differs from the text written for the
document without `Date`, which begins with the struct. -/
theorem generate_other_kind_blank_line :
    dropOtherKinds ⟨[⟨.Scalar, "Date", [], [], []⟩,
        ⟨.Object, "A", [⟨"d", .mk "Date" none true⟩], [], []⟩]⟩ =
      ⟨[⟨.Object, "A", [⟨"d", .mk "Date" none true⟩], [], []⟩]⟩ ∧
    Generate ⟨[], "pkg", true⟩ bufferOutput id
        ⟨[⟨.Scalar, "Date", [], [], []⟩,
          ⟨.Object, "A", [⟨"d", .mk "Date" none true⟩], [], []⟩]⟩ "" =
      some { out := "\ntype A struct \x7b\n  D Date `json:\"d\"`\n\x7d\n\n",
             declaredKeywords := ["A"], err := none } ∧
    Generate ⟨[], "pkg", true⟩ bufferOutput id
        (dropOtherKinds ⟨[⟨.Scalar, "Date", [], [], []⟩,
          ⟨.Object, "A", [⟨"d", .mk "Date" none true⟩], [], []⟩]⟩) "" =
      some { out := "type A struct \x7b\n  D Date `json:\"d\"`\n\x7d\n\n",
             declaredKeywords := ["A"], err := none } := by
  refine ⟨rfl, rfl, rfl⟩

/-! ## Dependencies in the output -/

/-- What a selected definition refers to passes the inclusion filter: the
enum of a field type, and every struct-like definition, not a root operation
type, named by a field type that is no enum name or by a union member. -/
theorem selected_dependencies (doc : SchemaDocument) (r : List String)
    (hcl : ∀ a ∈ r, ∀ b, dependsOnEdge doc (buildEnumMap doc) a b → b ∈ r)
    (d : Definition) (hd : d ∈ doc.Definitions) (hsel : selected r d) :
    (∀ f ∈ d.Fields, d.Kind ≠ DefinitionKind.Union →
      (∀ e, (buildEnumMap doc).get f.Type_.Name = some e →
        filteredOut r e.TypeName = false) ∧
      ((buildEnumMap doc).get f.Type_.Name = none →
        ∀ t ∈ doc.Definitions, t.Name = f.Type_.Name →
          (t.Kind = DefinitionKind.Object ∨ t.Kind = DefinitionKind.InputObject ∨
            t.Kind = DefinitionKind.Union) →
          t.Name ≠ "Query" → t.Name ≠ "Mutation" → selected r t)) ∧
    (d.Kind = DefinitionKind.Union → ∀ m ∈ d.Types, ∀ t ∈ doc.Definitions, t.Name = m →
      (t.Kind = DefinitionKind.Object ∨ t.Kind = DefinitionKind.InputObject ∨
        t.Kind = DefinitionKind.Union) →
      t.Name ≠ "Query" → t.Name ≠ "Mutation" → selected r t) := by
  have hpass : ∀ b, dependsOnEdge doc (buildEnumMap doc) d.Name b →
      ¬ (r.length > 0 ∧ b ∉ r) := by
    intro b hedge hcon
    have hdr : d.Name ∈ r := by
      by_contra hnot
      exact hsel.1 ⟨hcon.1, hnot⟩
    exact hcon.2 (hcl d.Name hdr b hedge)
  constructor
  · intro f hf hnu
    have hk : d.Kind = DefinitionKind.Object ∨ d.Kind = DefinitionKind.InputObject := by
      rcases hsel.2.2.2 with h | h | h
      · exact Or.inl h
      · exact Or.inr h
      · exact absurd h hnu
    have hedge : dependsOnEdge doc (buildEnumMap doc) d.Name
        (enumSubstitute (buildEnumMap doc) f.Type_.Name) :=
      ⟨d, hd, rfl, mem_depEntities_field (buildEnumMap doc) d hk f hf⟩
    constructor
    · intro e he
      have hsub : enumSubstitute (buildEnumMap doc) f.Type_.Name = e.TypeName := by
        simp [enumSubstitute, he]
      rw [hsub] at hedge
      exact (filteredOut_eq_false r e.TypeName).2 (hpass _ hedge)
    · intro hnone t _ htn hkind hq hm
      have hsub : enumSubstitute (buildEnumMap doc) f.Type_.Name = t.Name := by
        simp [enumSubstitute, hnone, htn]
      rw [hsub] at hedge
      exact ⟨hpass _ hedge, hq, hm, hkind⟩
  · intro hu m hm t _ htn hkind hq hmu
    have hedge : dependsOnEdge doc (buildEnumMap doc) d.Name t.Name :=
      ⟨d, hd, rfl, htn ▸ mem_depEntities_member (buildEnumMap doc) d hu m hm⟩
    exact ⟨hpass _ hedge, hq, hmu, hkind⟩

/-- C2, amended: in a run that ends in `nil`, every definition the second loop
selects is declared in the output, and so are the entities it refers to, the
root operation types apart: for a field whose type names an Enum definition
the enum under `"Enum" + name`, for a field whose type names no Enum
definition and for a union member every Object, InputObject or Union
definition of that name not named `Query` or `Mutation`. Declared means that
the identifier is in the registry, on any sink, and that the recording sink
has received the declaration: the struct and its separator, or the type line
of the enum followed by its constants. -/
theorem generate_dependencies_declared {σ : Type} (g : GoGenerator) (output : Outputer σ)
    (rangeOrder : GoMap enum → List (String × enum)) (doc : SchemaDocument) (out : σ)
    (hlegal : LegalOrder rangeOrder) :
    (∃ r st, resolveEntityDependencies doc g.entities (buildEnumMap doc) = some r ∧
      Generate g output rangeOrder doc out = some st ∧
      (st.err = none → ∀ d ∈ doc.Definitions, selected r d →
        d.Name ∈ st.declaredKeywords ∧
        (∀ f ∈ d.Fields, d.Kind ≠ DefinitionKind.Union →
          ((∃ t ∈ doc.Definitions, t.Kind = DefinitionKind.Enum ∧ t.Name = f.Type_.Name) →
            "Enum" ++ f.Type_.Name ∈ st.declaredKeywords) ∧
          ((¬ ∃ t ∈ doc.Definitions, t.Kind = DefinitionKind.Enum ∧ t.Name = f.Type_.Name) →
            ∀ t ∈ doc.Definitions, t.Name = f.Type_.Name →
              (t.Kind = DefinitionKind.Object ∨ t.Kind = DefinitionKind.InputObject ∨
                t.Kind = DefinitionKind.Union) →
              t.Name ≠ "Query" → t.Name ≠ "Mutation" → t.Name ∈ st.declaredKeywords)) ∧
        (d.Kind = DefinitionKind.Union → ∀ m ∈ d.Types, ∀ t ∈ doc.Definitions, t.Name = m →
          (t.Kind = DefinitionKind.Object ∨ t.Kind = DefinitionKind.InputObject ∨
            t.Kind = DefinitionKind.Union) →
          t.Name ≠ "Query" → t.Name ≠ "Mutation" → t.Name ∈ st.declaredKeywords))) ∧
    (∀ out0, ∃ r st, resolveEntityDependencies doc g.entities (buildEnumMap doc) = some r ∧
      Generate g recordOutput rangeOrder doc out0 = some st ∧
      (st.err = none → ∀ d ∈ doc.Definitions, selected r d →
        (∃ text, structText (buildEnumMap doc) d = some text ∧
          ∃ pre post, st.out = pre ++ [text ++ "\n", "\n"] ++ post) ∧
        (∀ f ∈ d.Fields, d.Kind ≠ DefinitionKind.Union →
          ((∃ t ∈ doc.Definitions, t.Kind = DefinitionKind.Enum ∧ t.Name = f.Type_.Name) →
            ∃ e, (buildEnumMap doc).get f.Type_.Name = some e ∧
              e.TypeName = "Enum" ++ f.Type_.Name ∧
              ∃ pre post, st.out = pre ++
                (["type " ++ e.TypeName ++ " string", "\n"] ++
                  e.Values.flatMap (fun v =>
                    ["const " ++ e.TypeName ++ v ++ " " ++ e.TypeName ++ " = \"" ++ v ++ "\"",
                     "\n"])) ++ post) ∧
          ((¬ ∃ t ∈ doc.Definitions, t.Kind = DefinitionKind.Enum ∧ t.Name = f.Type_.Name) →
            ∀ t ∈ doc.Definitions, t.Name = f.Type_.Name →
              (t.Kind = DefinitionKind.Object ∨ t.Kind = DefinitionKind.InputObject ∨
                t.Kind = DefinitionKind.Union) →
              t.Name ≠ "Query" → t.Name ≠ "Mutation" →
              ∃ text, structText (buildEnumMap doc) t = some text ∧
                ∃ pre post, st.out = pre ++ [text ++ "\n", "\n"] ++ post)) ∧
        (d.Kind = DefinitionKind.Union → ∀ m ∈ d.Types, ∀ t ∈ doc.Definitions, t.Name = m →
          (t.Kind = DefinitionKind.Object ∨ t.Kind = DefinitionKind.InputObject ∨
            t.Kind = DefinitionKind.Union) →
          t.Name ≠ "Query" → t.Name ≠ "Mutation" →
          ∃ text, structText (buildEnumMap doc) t = some text ∧
            ∃ pre post, st.out = pre ++ [text ++ "\n", "\n"] ++ post))) := by
  refine ⟨generate_dependencies_registered g output rangeOrder doc out hlegal, ?_⟩
  intro out0
  obtain ⟨r, st, hr, hg, h⟩ := generate_record g rangeOrder doc out0
  obtain ⟨r2, hr2, _, hcl, _⟩ :=
    resolveEntityDependencies_closure doc g.entities (buildEnumMap doc)
  rw [hr] at hr2
  injection hr2 with hr2
  subst hr2
  refine ⟨r, st, hr, hg, ?_⟩
  intro herr d hd hsel
  have hout := (h (Or.inl herr)).1
  -- the struct of a selected definition is in the record
  have hstruct : ∀ t ∈ doc.Definitions, selected r t →
      ∃ text, structText (buildEnumMap doc) t = some text ∧
        ∃ pre post, st.out = pre ++ [text ++ "\n", "\n"] ++ post := by
    intro t ht hselt
    obtain ⟨text, htext⟩ := structText_isSome (buildEnumMap doc) t hselt.2.2.2
    obtain ⟨pre, post, hsplit⟩ := runChunks_definition g rangeOrder doc r t ht hselt text htext
    exact ⟨text, htext, out0 ++ pre, post, by rw [hout, hsplit]; simp [List.append_assoc]⟩
  obtain ⟨hfields, hmembers⟩ := selected_dependencies doc r hcl d hd hsel
  refine ⟨hstruct d hd hsel, ?_, ?_⟩
  · intro f hf hnu
    obtain ⟨henum, hother⟩ := hfields f hf hnu
    constructor
    · intro hen
      obtain ⟨e, he⟩ := (buildEnumMap_get_isSome doc f.Type_.Name).2 hen
      obtain ⟨pre, post, hsplit⟩ :=
        runChunks_enum g rangeOrder doc r hlegal f.Type_.Name e he (henum e he)
      refine ⟨e, he, buildEnumMap_typeName doc _ e he, out0 ++ pre, post, ?_⟩
      rw [hout, hsplit]
      simp [enumChunks, enumTypeDef_string, EnumDefConstTPL, List.append_assoc]
    · intro hnen t ht htn hkind hq hm
      have hnone : (buildEnumMap doc).get f.Type_.Name = none := by
        cases hget : (buildEnumMap doc).get f.Type_.Name with
        | none => rfl
        | some e => exact absurd ((buildEnumMap_get_isSome doc f.Type_.Name).1 ⟨e, hget⟩) hnen
      exact hstruct t ht (hother hnone t ht htn hkind hq hm)
  · intro hu m hm t ht htn hkind hq hmu
    exact hstruct t ht (hmembers hu m hm t ht htn hkind hq hmu)

/-- C2, amended, at a document in which `A` has a field of type `B`: with `A`
requested, `B` is registered and the recording sink has received its struct. -/
theorem generate_dependencies_declared_witness :
    ∃ st, Generate ⟨["A"], "pkg", true⟩ recordOutput id
        ⟨[⟨.Object, "A", [⟨"b", .mk "B" none true⟩], [], []⟩,
          ⟨.Object, "B", [], [], []⟩,
          ⟨.Object, "C", [], [], []⟩]⟩ [] = some st ∧
      st.err = none ∧ "B" ∈ st.declaredKeywords ∧
      ∃ text pre post, text = "type B struct \x7b\n\n\x7d" ∧
        st.out = pre ++ [text ++ "\n", "\n"] ++ post := by
  obtain ⟨⟨r, st, hr, hg, h⟩, hrec⟩ := generate_dependencies_declared ⟨["A"], "pkg", true⟩
    recordOutput id
    ⟨[⟨.Object, "A", [⟨"b", .mk "B" none true⟩], [], []⟩,
      ⟨.Object, "B", [], [], []⟩,
      ⟨.Object, "C", [], [], []⟩]⟩ [] (fun m => List.Perm.refl m)
  obtain ⟨r2, st2, hr2, hg2, h2⟩ := hrec []
  have hrv : resolveEntityDependencies
      ⟨[⟨.Object, "A", [⟨"b", .mk "B" none true⟩], [], []⟩,
        ⟨.Object, "B", [], [], []⟩,
        ⟨.Object, "C", [], [], []⟩]⟩ (GoGenerator.mk ["A"] "pkg" true).entities
      (buildEnumMap ⟨[⟨.Object, "A", [⟨"b", .mk "B" none true⟩], [], []⟩,
        ⟨.Object, "B", [], [], []⟩,
        ⟨.Object, "C", [], [], []⟩]⟩) = some ["A", "B"] := by
    rfl
  have hgv : Generate ⟨["A"], "pkg", true⟩ recordOutput id
      ⟨[⟨.Object, "A", [⟨"b", .mk "B" none true⟩], [], []⟩,
        ⟨.Object, "B", [], [], []⟩,
        ⟨.Object, "C", [], [], []⟩]⟩ [] =
      some { out := ["type A struct \x7b\n  B B `json:\"b\"`\n\x7d\n", "\n",
                     "type B struct \x7b\n\n\x7d\n", "\n"],
             declaredKeywords := ["A", "B"], err := none } := by
    rfl
  rw [hrv] at hr hr2
  injection hr with hr
  subst hr
  injection hr2 with hr2
  subst hr2
  rw [hgv] at hg hg2
  injection hg with hg
  subst hg
  injection hg2 with hg2
  subst hg2
  have hsel : selected ["A", "B"] ⟨.Object, "A", [⟨"b", .mk "B" none true⟩], [], []⟩ := by
    unfold selected
    decide
  have h3 := ((h rfl ⟨.Object, "A", [⟨"b", .mk "B" none true⟩], [], []⟩ (by simp) hsel).2.1
    ⟨"b", .mk "B" none true⟩ (by simp) (by decide)).2 (by simp)
    ⟨.Object, "B", [], [], []⟩ (by simp) rfl (Or.inl rfl) (by decide) (by decide)
  obtain ⟨text, htext, pre, post, hout⟩ :=
    ((h2 rfl ⟨.Object, "A", [⟨"b", .mk "B" none true⟩], [], []⟩ (by simp) hsel).2.1
      ⟨"b", .mk "B" none true⟩ (by simp) (by decide)).2 (by simp)
      ⟨.Object, "B", [], [], []⟩ (by simp) rfl (Or.inl rfl) (by decide) (by decide)
  have htv : structText (buildEnumMap ⟨[⟨.Object, "A", [⟨"b", .mk "B" none true⟩], [], []⟩,
      ⟨.Object, "B", [], [], []⟩, ⟨.Object, "C", [], [], []⟩]⟩)
      ⟨.Object, "B", [], [], []⟩ = some "type B struct \x7b\n\n\x7d" := by
    rfl
  rw [htv] at htext
  injection htext with htext
  exact ⟨_, hgv, rfl, h3, text, pre, post, htext.symm, hout⟩

end GraphqlCodegen
